import Mathlib

/-!
# geecache: consistent-hash ring, LRU store and peer router; sorting functions

A shallow embedding of `geecache/consistenthash/consistenthash.go`,
`geecache/lru/lru.go`, the peer selection and the HTTP handler of `geecache/http.go`,
and `SelectSort`, `MergeSort`, `partition` and `QuickSort` of `sort/sort.go`, followed
by theorems about the embedded functions.

Conventions of the embedding

* Go `string` is `String`; `[]byte(s)` is the UTF-8 byte list of `s`; `len(s)` is
  `s.utf8ByteSize`.
* Go `int` / `int64` are `Int`, and `int` has 64 bits, so that `int(x)` keeps the value
  of a `uint32`; a `uint32` result is a natural number reduced modulo `2^32`.  The
  `int64` byte counter of the LRU store wraps around: every sum or difference that
  `lru.go` computes for it is reduced by `int64`, and a `Value` reports a length in
  `[-2^63, 2^63)`.  Elsewhere the integers are indices, lengths and loop counters
  bounded by the length of a slice or by `replicas`.
* A Go `map` is an association list without repeated keys: `mapFind` is the
  "comma ok" read, `mapSet` the write, `mapDelete` the builtin `delete`.
* A pointer to a heap object is the address (a natural number) of the object.
* A run-time panic, or a loop that has not finished within the fuel it was given, is
  an `Except.error` carrying a `Fault`.
-/

set_option autoImplicit false

/-- Ways in which a modelled Go function can fail to return normally. -/
inductive Fault where
  | indexOutOfRange
  | nilPointer
  | typeAssertion
  | outOfFuel
  | panicCall
  deriving DecidableEq, Repr

deriving instance DecidableEq for Except

/-! ## Go library functions used by the sources -/

/-- The conversion `[]byte(s)`: the bytes of a Go string. -/
def bytes (s : String) : List UInt8 := s.toUTF8.data.toList

/-- The builtin `len(s)` on a Go string: its number of bytes. -/
def strLen (s : String) : Int := (s.utf8ByteSize : Int)

/-- What 64-bit signed arithmetic keeps of an integer result: the number in
`[-2^63, 2^63)` that differs from `x` by a multiple of `2^64` (two's complement
wrap-around).  A Go `int64` sum `a + b` is `int64 (a + b)`. -/
def int64 (x : Int) : Int :=
  (x + 9223372036854775808) % 18446744073709551616 - 9223372036854775808

/-- One bit of the reflected CRC-32 division (polynomial `0xEDB88320`). -/
def crcStep (crc : Nat) : Nat :=
  if crc % 2 = 1 then (crc / 2) ^^^ 0xEDB88320 else crc / 2

/-- Feed one byte into the CRC register. -/
def crcByte (crc : Nat) (b : UInt8) : Nat :=
  crcStep^[8] (crc ^^^ b.toNat)

/-- Go `crc32.ChecksumIEEE`: the CRC-32 checksum (IEEE 802.3) of `data`. -/
def ChecksumIEEE (data : List UInt8) : Nat :=
  (data.foldl crcByte 0xFFFFFFFF) ^^^ 0xFFFFFFFF

/-- Go `sort.Ints`: the ascending rearrangement of the slice.  For integers the sorted
permutation of a list is unique, so any sorting function computes it. -/
def sortInts (l : List Int) : List Int := l.insertionSort (· ≤ ·)

/-- The loop of Go `sort.Search`: binary search on `[i, j)`.
`f` may fault; the fault is propagated. -/
def searchLoop (f : Nat → Except Fault Bool) : Nat → Nat → Nat → Except Fault Nat
  | 0, i, j => if i < j then .error .outOfFuel else .ok i
  | fuel + 1, i, j =>
    if i < j then
      let h := (i + j) / 2
      match f h with
      | .error e => .error e
      | .ok b => if !b then searchLoop f fuel (h + 1) j else searchLoop f fuel i h
    else .ok i

/-- Go `sort.Search(n, f)`.  The interval `[i, j)` shrinks at every iteration, so `n`
iterations are always enough (`searchLoop_returns`). -/
def Search (n : Nat) (f : Nat → Except Fault Bool) : Except Fault Nat :=
  searchLoop f n 0 n

/-- Reading a Go map with the "comma ok" form: `v, ok := m[k]`. -/
def mapFind {K V : Type} [DecidableEq K] (m : List (K × V)) (k : K) : Option V :=
  (m.find? (fun kv => decide (kv.1 = k))).map Prod.snd

/-- Writing a Go map: `m[k] = v`. -/
def mapSet {K V : Type} [DecidableEq K] (m : List (K × V)) (k : K) (v : V) :
    List (K × V) :=
  (k, v) :: m.filter (fun kv => decide (kv.1 ≠ k))

/-- The builtin `delete(m, k)`. -/
def mapDelete {K V : Type} [DecidableEq K] (m : List (K × V)) (k : K) : List (K × V) :=
  m.filter (fun kv => decide (kv.1 ≠ k))

/-- Reading a Go `map[K]string` as a value: the zero value `""` when `k` is absent. -/
def mapGet {K : Type} [DecidableEq K] (m : List (K × String)) (k : K) : String :=
  (mapFind m k).getD ""

/-- The method `l.MoveToFront(e)` of `container/list`; nothing happens when `e` is not
linked in `l`. -/
def listMoveToFront (l : List Nat) (e : Nat) : List Nat :=
  if e ∈ l then e :: l.erase e else l

/-- The method `l.Back()` of `container/list`, `none` being the Go `nil` of an empty
list. -/
def listBack (l : List Nat) : Option Nat := l.getLast?

/-- The method `l.Remove(e)` of `container/list`. -/
def listRemove (l : List Nat) (e : Nat) : List Nat := l.erase e

namespace consistenthash

/-- The type `Hash func(data []byte) uint32`; the result is used modulo `2^32`. -/
abbrev Hash := List UInt8 → Nat

/-- The struct `Map`. -/
structure Map where
  hash : Hash
  replicas : Int
  keys : List Int
  hashMap : List (Int × String)

/-- The function `New(replicas, fn)`; `fn = none` is the Go `nil`. -/
def New (replicas : Int) (fn : Option Hash) : Map :=
  { replicas := replicas
    hash := match fn with
      | some f => f
      | none => ChecksumIEEE
    keys := []
    hashMap := [] }

/-- The expression `int(m.hash([]byte(s)))`. -/
def Map.hashOf (m : Map) (s : String) : Int :=
  ((m.hash (bytes s) % 2 ^ 32 : Nat) : Int)

/-- The name hashed for replica `i` of node `key`: `strconv.Itoa(i) + key`. -/
def virtualName (i : Nat) (key : String) : String :=
  toString i ++ key

/-- The virtual-node hashes that `Add` computes for node `key`, replica indices `is`. -/
def Map.virtualHashes (m : Map) (key : String) (is : List Nat) : List Int :=
  is.map (fun i => m.hashOf (virtualName i key))

/-- Body of the inner loop of `Add` for replica `i` of node `key`. -/
def Map.addReplica (key : String) (m : Map) (i : Nat) : Map :=
  let hash := m.hashOf (virtualName i key)
  { m with keys := m.keys ++ [hash], hashMap := mapSet m.hashMap hash key }

/-- The inner loop of `Add`: `for i := 0; i < m.replicas; i++`. -/
def Map.addNode (m : Map) (key : String) : Map :=
  (List.range m.replicas.toNat).foldl (Map.addReplica key) m

/-- The method `Map.Add(keys...)`. -/
def Map.Add (m : Map) (keys : List String) : Map :=
  let m1 := keys.foldl Map.addNode m
  { m1 with keys := sortInts m1.keys }

/-- The closure handed to `sort.Search` in `Get`: `m.keys[i] >= hash`. -/
def geAt (keys : List Int) (hash : Int) (i : Nat) : Except Fault Bool :=
  match keys[i]? with
  | some k => .ok (decide (k ≥ hash))
  | none => .error .indexOutOfRange

/-- The method `Map.Get(key)`. -/
def Map.Get (m : Map) (key : String) : Except Fault String :=
  if m.keys.length = 0 then .ok ""
  else
    let hash := m.hashOf key
    match Search m.keys.length (geAt m.keys hash) with
    | .error e => .error e
    | .ok idx =>
      match m.keys[idx % m.keys.length]? with
      | some k => .ok (mapGet m.hashMap k)
      | none => .error .indexOutOfRange

/-- A ring as the program can build it: `New` followed by a sequence of `Add` calls. -/
def build (replicas : Int) (fn : Option Hash) (adds : List (List String)) : Map :=
  adds.foldl Map.Add (New replicas fn)

/-- Being the owner position of `h` among the members of `l`, stated without reference
to the order of `l`: the least member `>= h`, or the least member when none is. -/
def IsRingSucc (l : List Int) (h s : Int) : Prop :=
  s ∈ l ∧ ((h ≤ s ∧ ∀ x ∈ l, h ≤ x → s ≤ x) ∨ ((∀ x ∈ l, x < h) ∧ ∀ x ∈ l, s ≤ x))

end consistenthash

namespace lru

/-- The interface `Value`: a type with a method `Len() int`.  The result is a Go `int`,
a number in `[-2^63, 2^63)`. -/
class Value (V : Type) where
  Len : V → Int
  Len_int : ∀ v, -9223372036854775808 ≤ Len v ∧ Len v < 9223372036854775808

/-- A string as a `Value`, its length in bytes (a Go `int`) being its `Len()`. -/
instance : Value String :=
  ⟨fun s => int64 (strLen s), fun s => by
    show _ ≤ int64 (strLen s) ∧ int64 (strLen s) < _
    unfold int64; omega⟩

/-- A value that holds an `int`, the 64-bit number `int64 n`, which its `Len()`
returns. -/
structure sized where
  n : Int
  deriving DecidableEq, Repr

instance : Value sized :=
  ⟨fun v => int64 v.n, fun v => by
    show _ ≤ int64 v.n ∧ int64 v.n < _
    unfold int64; omega⟩

/-- The struct `entry`. -/
structure entry (V : Type) where
  key : String
  value : V
  deriving DecidableEq, Repr

/-- The struct `Cache`.  `ll` lists the addresses of the linked `list.Element`s, front
first; `elems` gives the `*entry` held in the field `Value` of the element at an
address; `next` is the address the next `PushFront` allocates.  `OnEvicted` tells
whether the callback is non-nil, and `calls` records the calls made to it so far, the
oldest first; the callback is taken to return and not to touch the store. -/
structure Cache (V : Type) where
  maxBytes : Int
  nbytes : Int
  ll : List Nat
  elems : List (Nat × entry V)
  next : Nat
  cache : List (String × Nat)
  OnEvicted : Bool
  calls : List (String × V)
  deriving DecidableEq, Repr

variable {V : Type} [Value V]

/-- The function `New(maxBytes, onEvicted)`. -/
def New (maxBytes : Int) (onEvicted : Bool) : Cache V :=
  { maxBytes := maxBytes, nbytes := 0, ll := [], elems := [], next := 0, cache := [],
    OnEvicted := onEvicted, calls := [] }

/-- The method `Cache.Get(key)`: the pair `(value, ok)` and the store afterwards. -/
def Cache.Get (c : Cache V) (key : String) : Except Fault ((Option V × Bool) × Cache V) :=
  match mapFind c.cache key with
  | some element =>
    let c1 := { c with ll := listMoveToFront c.ll element }
    match mapFind c1.elems element with
    | some kv => .ok ((some kv.value, true), c1)
    | none => .error .typeAssertion
  | none => .ok ((none, false), c)

/-- The method `Cache.RemoveOldest()`. -/
def Cache.RemoveOldest (c : Cache V) : Except Fault (Cache V) :=
  match listBack c.ll with
  | some element =>
    let c1 := { c with ll := listRemove c.ll element }
    match mapFind c1.elems element with
    | some kv =>
      let c2 := { c1 with cache := mapDelete c1.cache kv.key }
      let c3 := { c2 with
        nbytes := int64 (c2.nbytes - int64 (strLen kv.key + Value.Len kv.value)) }
      if c3.OnEvicted then .ok { c3 with calls := c3.calls ++ [(kv.key, kv.value)] }
      else .ok c3
    | none => .error .typeAssertion
  | none => .ok c

/-- The `if`/`else` at the head of `Cache.Add`: update in place or insert at the front. -/
def Cache.addEntry (c : Cache V) (key : String) (value : V) : Except Fault (Cache V) :=
  match mapFind c.cache key with
  | some element =>
    let c1 := { c with ll := listMoveToFront c.ll element }
    match mapFind c1.elems element with
    | some kv =>
      let c2 := { c1 with
        nbytes := int64 (c1.nbytes + int64 (Value.Len value - Value.Len kv.value)) }
      .ok { c2 with elems := mapSet c2.elems element { kv with value := value } }
    | none => .error .typeAssertion
  | none =>
    let element := c.next
    let c1 := { c with
      ll := element :: c.ll
      elems := mapSet c.elems element { key := key, value := value }
      next := c.next + 1 }
    let c2 := { c1 with cache := mapSet c1.cache key element }
    .ok { c2 with nbytes := int64 (c2.nbytes + int64 (strLen key + Value.Len value)) }

/-- The loop `for c.maxBytes != 0 && c.maxBytes < c.nbytes { c.RemoveOldest() }`, run
for at most `fuel` iterations. -/
def Cache.evictLoop : Nat → Cache V → Except Fault (Cache V)
  | 0, c => if c.maxBytes ≠ 0 ∧ c.maxBytes < c.nbytes then .error .outOfFuel else .ok c
  | fuel + 1, c =>
    if c.maxBytes ≠ 0 ∧ c.maxBytes < c.nbytes then
      match c.RemoveOldest with
      | .ok c1 => Cache.evictLoop fuel c1
      | .error e => .error e
    else .ok c

/-- The method `Cache.Add(key, value)`, its loop bounded by `fuel` iterations. -/
def Cache.Add (fuel : Nat) (c : Cache V) (key : String) (value : V) :
    Except Fault (Cache V) :=
  match c.addEntry key value with
  | .ok c1 => c1.evictLoop fuel
  | .error e => .error e

/-- The method `Cache.Len()`. -/
def Cache.Len (c : Cache V) : Int := (c.ll.length : Int)

/-- The entries held by the linked elements, most recently used first. -/
def Cache.entries (c : Cache V) : List (entry V) :=
  c.ll.filterMap (mapFind c.elems)

/-- The bytes an entry is charged: `len(key) + value.Len()`. -/
def entrySize (e : entry V) : Int := strLen e.key + Value.Len e.value

/-- A call of one of the methods of `Cache`. -/
inductive Op (V : Type) where
  | get (key : String)
  | add (key : String) (value : V)
  | removeOldest
  deriving DecidableEq, Repr

/-- Perform one call. -/
def Cache.step (fuel : Nat) (c : Cache V) : Op V → Except Fault (Cache V)
  | .get key =>
    match c.Get key with
    | .ok r => .ok r.2
    | .error e => .error e
  | .add key value => c.Add fuel key value
  | .removeOldest => c.RemoveOldest

/-- Perform a sequence of calls, the first of the list first. -/
def Cache.run (fuel : Nat) (c : Cache V) : List (Op V) → Except Fault (Cache V)
  | [] => .ok c
  | op :: ops =>
    match c.step fuel op with
    | .ok c1 => c1.run fuel ops
    | .error e => .error e

/-- The value most recently passed to `Add` for `key` in a sequence of calls. -/
def lastAdded (key : String) : List (Op V) → Option V
  | [] => none
  | .add k v :: ops =>
    match lastAdded key ops with
    | some w => some w
    | none => if k = key then some v else none
  | _ :: ops => lastAdded key ops

/-- The representation invariant of a store: the list links every element once, the
index `cache` and the list describe the same elements, an element is indexed under the
key of its entry, linked addresses are allocated ones, and `nbytes` is the sum of the
sizes of the linked entries as `int64` arithmetic gives it. -/
structure Cache.Inv (c : Cache V) : Prop where
  nodup : c.ll.Nodup
  linked : ∀ a ∈ c.ll, ∃ e, mapFind c.elems a = some e ∧ mapFind c.cache e.key = some a
  indexed : ∀ k a, mapFind c.cache k = some a →
    a ∈ c.ll ∧ ∃ e, mapFind c.elems a = some e ∧ e.key = k
  fresh : ∀ a ∈ c.ll, a < c.next
  bytes : c.nbytes = int64 (c.entries.map entrySize).sum

/-- The calls `Add("a","1")`, `Add("b","1")`, `Add("c","1")`, `Get("a")`. -/
def opsABC : List (Op String) :=
  [.add "a" "1", .add "b" "1", .add "c" "1", .get "a"]

/-- The store that `opsABC` leaves when the budget is six bytes and a callback is set:
`a` was used last, `b` is the least recently used entry. -/
def storeABC : Cache String :=
  { maxBytes := 6, nbytes := 6, ll := [0, 2, 1],
    elems := [(2, { key := "c", value := "1" }), (1, { key := "b", value := "1" }),
      (0, { key := "a", value := "1" })],
    next := 3, cache := [("c", 2), ("b", 1), ("a", 0)], OnEvicted := true, calls := [] }

/-- The store that `Add("k1","12")`, `Add("k2","34")` leave when the budget is ten bytes
and a callback is set. -/
def storeK12 : Cache String :=
  { maxBytes := 10, nbytes := 8, ll := [1, 0],
    elems := [(1, { key := "k2", value := "34" }), (0, { key := "k1", value := "12" })],
    next := 2, cache := [("k2", 1), ("k1", 0)], OnEvicted := true, calls := [] }

/-- The value whose `Len()` is `math.MaxInt64`. -/
def maxSized : sized := { n := 9223372036854775807 }

/-- The store that `Add("a", maxSized)` leaves when there is no budget and no callback:
the sum `1 + math.MaxInt64` has wrapped around to `math.MinInt64`. -/
def storeWrapped : Cache sized :=
  { maxBytes := 0, nbytes := -9223372036854775808, ll := [0],
    elems := [(0, { key := "a", value := maxSized })],
    next := 1, cache := [("a", 0)], OnEvicted := false, calls := [] }

/-- The store that `Add("k", value of length 0)` leaves when there is no budget and no
callback. -/
def storeK0 : Cache sized :=
  { maxBytes := 0, nbytes := 1, ll := [0],
    elems := [(0, { key := "k", value := { n := 0 } })],
    next := 1, cache := [("k", 0)], OnEvicted := false, calls := [] }

/-- The store that `Add("k", "abc")` leaves when there is no budget and no callback. -/
def storeK : Cache String :=
  { maxBytes := 0, nbytes := 4, ll := [0], elems := [(0, { key := "k", value := "abc" })],
    next := 1, cache := [("k", 0)], OnEvicted := false, calls := [] }

end lru

namespace geecache

/-- The constant `defaultBasePath`. -/
def defaultBasePath : String := "/_geecache/"

/-- The constant `defaultReplicas`. -/
def defaultReplicas : Int := 50

/-- The struct `httpGetter`. -/
structure httpGetter where
  baseURL : String
  deriving DecidableEq, Repr

/-- The struct `HTTPPool` without its mutex.  `peers = none` is the nil `*Map`; a nil
`httpGetters` map reads like the empty map and is the empty list. -/
structure HTTPPool where
  self : String
  basePath : String
  peers : Option consistenthash.Map
  httpGetters : List (String × httpGetter)

/-- The function `NewHTTPPool(self)`. -/
def NewHTTPPool (self : String) : HTTPPool :=
  { self := self, basePath := defaultBasePath, peers := none, httpGetters := [] }

/-- The method `HTTPPool.Set(peers...)`. -/
def HTTPPool.Set (p : HTTPPool) (peers : List String) : HTTPPool :=
  let ring := (consistenthash.New defaultReplicas none).Add peers
  { p with
    peers := some ring
    httpGetters :=
      peers.foldl (fun g peer => mapSet g peer { baseURL := peer ++ p.basePath }) [] }

/-- The method `HTTPPool.PickPeer(key)`.  Calling `Get` on a nil `*Map` reads `m.keys`
through the nil pointer. -/
def HTTPPool.PickPeer (p : HTTPPool) (key : String) :
    Except Fault (Option httpGetter × Bool) :=
  match p.peers with
  | none => .error .nilPointer
  | some ring =>
    match ring.Get key with
    | .error e => .error e
    | .ok peer =>
      if peer ≠ "" ∧ peer ≠ p.self then .ok (mapFind p.httpGetters peer, true)
      else .ok (none, false)

end geecache

/-! ## The HTTP handler of the peer router -/

namespace geecache

/-- A `http.ResponseWriter` as `net/http` implements it: `header` is the map that
`w.Header()` returns; `sent` is the status code together with the header as they were
when `WriteHeader` was first called, `none` before that; `body` holds the bytes
written so far. -/
structure ResponseWriter where
  header : List (String × String)
  sent : Option (Nat × List (String × String))
  body : List UInt8
  deriving DecidableEq, Repr

/-- A response writer on which nothing has been called yet. -/
def NewRecorder : ResponseWriter :=
  { header := [], sent := none, body := [] }

/-- The call `w.Header().Set(key, value)`. -/
def ResponseWriter.SetHeader (w : ResponseWriter) (key value : String) : ResponseWriter :=
  { w with header := mapSet w.header key value }

/-- The method `w.WriteHeader(code)`: the first call fixes the status code and the
header that is sent, later calls are ignored. -/
def ResponseWriter.WriteHeader (w : ResponseWriter) (code : Nat) : ResponseWriter :=
  match w.sent with
  | some _ => w
  | none => { w with sent := some (code, w.header) }

/-- The method `w.Write(b)`: sends the header with status 200 if none was sent, then
appends `b` to the body. -/
def ResponseWriter.Write (w : ResponseWriter) (b : List UInt8) : ResponseWriter :=
  { w.WriteHeader 200 with body := (w.WriteHeader 200).body ++ b }

/-- The status code of the response, `none` while no header was sent. -/
def ResponseWriter.status (w : ResponseWriter) : Option Nat :=
  w.sent.map Prod.fst

/-- The value of a header field of the response as it was sent. -/
def ResponseWriter.sentField (w : ResponseWriter) (key : String) : Option String :=
  match w.sent with
  | some (_, h) => mapFind h key
  | none => none

/-- Go `http.Error(w, error, code)`: sets the plain-text content type, writes the
header with `code` and prints `error` followed by a newline into the body. -/
def httpError (w : ResponseWriter) (error : String) (code : Nat) : ResponseWriter :=
  (((w.SetHeader "Content-Type" "text/plain; charset=utf-8").SetHeader
    "X-Content-Type-Options" "nosniff").WriteHeader code).Write (bytes (error ++ "\n"))

/-- The search for the first `'/'` that `strings.SplitN(s, "/", 2)` makes: the text
before it and the text after it, `none` when there is no `'/'`. -/
def cutSlash : List Char → Option (List Char × List Char)
  | [] => none
  | c :: cs =>
    if c = '/' then some ([], cs)
    else
      match cutSlash cs with
      | some (a, b) => some (c :: a, b)
      | none => none

/-- Go `strings.SplitN(s, "/", 2)`. -/
def splitN2 (s : String) : List String :=
  match cutSlash s.data with
  | some (a, b) => [String.mk a, String.mk b]
  | none => [s]

/-- Go `strings.HasPrefix(s, pre)`. -/
def hasPrefix (s pre : String) : Bool :=
  pre.data.isPrefixOf s.data

/-- The slice `s[len(pre):]` of a string `s` that begins with `pre`. -/
def afterPrefix (s pre : String) : String :=
  String.mk (s.data.drop pre.data.length)

/-- Modelled from the spec: the type `ByteView` of the cached value is not among the
sources; the handler only takes "the raw byte content of the value" from it, with
`view.ByteSlice()`. -/
structure ByteView where
  b : List UInt8
  deriving DecidableEq, Repr

/-- Modelled from the spec: the method `ByteView.ByteSlice()`, which is not among the
sources, gives the raw bytes of the value. -/
def ByteView.ByteSlice (v : ByteView) : List UInt8 := v.b

/-- Modelled from the spec: the type `Group` is not among the sources; the handler
uses the group handle only through `get(key) -> (bytes, error)`.  The error is its
message, `none` being the nil error. -/
structure Group where
  Get : String → ByteView × Option String

/-- The request as far as the handler reads it: `r.Method` and `r.URL.Path`. -/
structure Request where
  Method : String
  Path : String

/-- The method `HTTPPool.ServeHTTP(w, r)`.  The group registry behind `GetGroup`, which
is not among the sources, is the parameter `GetGroup` (`none` is the nil group).  The
call of `p.Log` only prints and is left out. -/
def HTTPPool.ServeHTTP (p : HTTPPool) (GetGroup : String → Option Group)
    (w : ResponseWriter) (r : Request) : Except Fault ResponseWriter :=
  if !hasPrefix r.Path p.basePath then .error .panicCall
  else
    match splitN2 (afterPrefix r.Path p.basePath) with
    | [groupName, key] =>
      match GetGroup groupName with
      | none => .ok (httpError w ("no such group: " ++ groupName) 404)
      | some group =>
        let w1 :=
          match (group.Get key).2 with
          | some err => httpError w err 500
          | none => w
        let w2 := w1.SetHeader "Content-Type" "application/octet-stream"
        .ok (w2.Write (group.Get key).1.ByteSlice)
    | _ => .ok (httpError w "bad request" 400)

/-- A registry with the single group `"g"`, whose `Get` fails with the error `"boom"`
for every key and returns the view `view` beside the error. -/
def failingRegistry (view : ByteView) (name : String) : Option Group :=
  if name = "g" then some { Get := fun _ => (view, some "boom") } else none

end geecache

/-! ## The sorting functions of `sort/sort.go` -/

namespace gosort

/-- The assignment `nums[i], nums[j] = nums[j], nums[i]`. -/
def swap (nums : List Int) (i j : Nat) : Except Fault (List Int) :=
  match nums[i]?, nums[j]? with
  | some a, some b => .ok ((nums.set i b).set j a)
  | _, _ => .error .indexOutOfRange

/-- The variables `min, minindex, max, maxindex` of `SelectSort`. -/
structure Extremes where
  min : Int
  minindex : Nat
  max : Int
  maxindex : Nat
  deriving DecidableEq, Repr

/-- Body of the inner loop of `SelectSort` for the index `j`. -/
def scanStep (nums : List Int) (s : Extremes) (j : Nat) : Except Fault Extremes :=
  match nums[j]? with
  | none => .error .indexOutOfRange
  | some x =>
    let s1 := if x < s.min then { s with min := x, minindex := j } else s
    .ok (if x > s1.max then { s1 with max := x, maxindex := j } else s1)

/-- The inner loop of `SelectSort` over the indices `js`. -/
def scan (nums : List Int) : List Nat → Extremes → Except Fault Extremes
  | [], s => .ok s
  | j :: js, s =>
    match scanStep nums s j with
    | .ok s1 => scan nums js s1
    | .error e => .error e

/-- Body of the outer loop of `SelectSort` for the index `i`, with `n = len(nums)`:
the inner loop runs `for j := i + 1; j < n-i; j++`. -/
def selectPass (n : Nat) (nums : List Int) (i : Nat) : Except Fault (List Int) :=
  match nums[i]? with
  | none => .error .indexOutOfRange
  | some x =>
    match scan nums (List.range' (i + 1) (n - i - (i + 1)))
        { min := x, minindex := i, max := x, maxindex := i } with
    | .error e => .error e
    | .ok s =>
      match swap nums i s.minindex with
      | .error e => .error e
      | .ok nums1 => swap nums1 (n - 1 - i) s.maxindex

/-- The outer loop of `SelectSort` over the indices `is`. -/
def selectLoop (n : Nat) : List Nat → List Int → Except Fault (List Int)
  | [], nums => .ok nums
  | i :: is, nums =>
    match selectPass n nums i with
    | .ok nums1 => selectLoop n is nums1
    | .error e => .error e

/-- The function `SelectSort(nums)`: the slice as it is left, the outer loop running
`for i := 0; i < n/2; i++`. -/
def SelectSort (nums : List Int) : Except Fault (List Int) :=
  selectLoop nums.length (List.range (nums.length / 2)) nums

/-- The assignment `temp[index] = v`. -/
def store (temp : List Int) (index : Nat) (v : Int) : Except Fault (List Int) :=
  if index < temp.length then .ok (temp.set index v) else .error .indexOutOfRange

/-- The merging loop of `MergeSort`, `for i, j := 0, 0; i < len(nums1) || j <
len(nums2); index++`, run for at most `fuel` iterations; it returns `temp`. -/
def mergeLoop (nums1 nums2 : List Int) :
    Nat → Nat → Nat → Nat → List Int → Except Fault (List Int)
  | 0, i, j, _, temp =>
    if i < nums1.length ∨ j < nums2.length then .error .outOfFuel else .ok temp
  | fuel + 1, i, j, index, temp =>
    if i < nums1.length ∨ j < nums2.length then
      if i = nums1.length then
        match nums2[j]? with
        | none => .error .indexOutOfRange
        | some v =>
          match store temp index v with
          | .ok temp1 => mergeLoop nums1 nums2 fuel i (j + 1) (index + 1) temp1
          | .error e => .error e
      else if j = nums2.length then
        match nums1[i]? with
        | none => .error .indexOutOfRange
        | some v =>
          match store temp index v with
          | .ok temp1 => mergeLoop nums1 nums2 fuel (i + 1) j (index + 1) temp1
          | .error e => .error e
      else
        match nums1[i]?, nums2[j]? with
        | some a, some b =>
          if a < b then
            match store temp index a with
            | .ok temp1 => mergeLoop nums1 nums2 fuel (i + 1) j (index + 1) temp1
            | .error e => .error e
          else
            match store temp index b with
            | .ok temp1 => mergeLoop nums1 nums2 fuel i (j + 1) (index + 1) temp1
            | .error e => .error e
        | _, _ => .error .indexOutOfRange
    else .ok temp

/-- The function `MergeSort(nums)`: the slice as it is left.  `fuel` bounds the depth
of the recursion; the merging loop makes one step for each element, so `len(nums)`
iterations are enough for it.  The two halves are disjoint parts of `nums`, sorted in
place one after the other, and `copy(nums, temp)` overwrites all of `nums`. -/
def MergeSort : Nat → List Int → Except Fault (List Int)
  | 0, _ => .error .outOfFuel
  | fuel + 1, nums =>
    if nums.length = 1 then .ok nums
    else
      match MergeSort fuel (nums.take (nums.length / 2)) with
      | .error e => .error e
      | .ok nums1 =>
        match MergeSort fuel (nums.drop (nums.length / 2)) with
        | .error e => .error e
        | .ok nums2 =>
          mergeLoop nums1 nums2 nums.length 0 0 0 (List.replicate nums.length 0)

/-- The read `nums[k]` with an index of type `int`. -/
def readAt (nums : List Int) (k : Int) : Except Fault Int :=
  if k < 0 then .error .indexOutOfRange
  else
    match nums[k.toNat]? with
    | some v => .ok v
    | none => .error .indexOutOfRange

/-- The assignment `nums[k] = v` with an index of type `int`. -/
def writeAt (nums : List Int) (k : Int) (v : Int) : Except Fault (List Int) :=
  if k < 0 then .error .indexOutOfRange
  else if k.toNat < nums.length then .ok (nums.set k.toNat v)
  else .error .indexOutOfRange

/-- The loop `for i < j && nums[j] >= temp { j-- }` of `partition`, run for at most
`fuel` iterations; it returns the final `j`.  `nums[j]` is read only when `i < j`. -/
def scanDown (nums : List Int) (temp i : Int) : Nat → Int → Except Fault Int
  | 0, j =>
    if i < j then
      match readAt nums j with
      | .error e => .error e
      | .ok v => if v ≥ temp then .error .outOfFuel else .ok j
    else .ok j
  | fuel + 1, j =>
    if i < j then
      match readAt nums j with
      | .error e => .error e
      | .ok v => if v ≥ temp then scanDown nums temp i fuel (j - 1) else .ok j
    else .ok j

/-- The loop `for i < j && nums[i] < temp { i++ }` of `partition`, run for at most
`fuel` iterations; it returns the final `i`. -/
def scanUp (nums : List Int) (temp j : Int) : Nat → Int → Except Fault Int
  | 0, i =>
    if i < j then
      match readAt nums i with
      | .error e => .error e
      | .ok v => if v < temp then .error .outOfFuel else .ok i
    else .ok i
  | fuel + 1, i =>
    if i < j then
      match readAt nums i with
      | .error e => .error e
      | .ok v => if v < temp then scanUp nums temp j fuel (i + 1) else .ok i
    else .ok i

/-- The statement `if i < j { nums[i] = nums[j]; i++ }` of `partition`: the slice and
`i` afterwards. -/
def fillLeft (nums : List Int) (i j : Int) : Except Fault (List Int × Int) :=
  if i < j then
    match readAt nums j with
    | .error e => .error e
    | .ok v =>
      match writeAt nums i v with
      | .error e => .error e
      | .ok nums1 => .ok (nums1, i + 1)
  else .ok (nums, i)

/-- The statement `if i < j { nums[j] = nums[i] }` of `partition`. -/
def fillRight (nums : List Int) (i j : Int) : Except Fault (List Int) :=
  if i < j then
    match readAt nums i with
    | .error e => .error e
    | .ok v => writeAt nums j v
  else .ok nums

/-- The outer loop `for i < j { ... }` of `partition`, run for at most `fuel`
iterations, each inner loop for at most `inner` iterations; it returns the slice and
the final `i`. -/
def partitionLoop (inner : Nat) (temp : Int) :
    Nat → List Int → Int → Int → Except Fault (List Int × Int)
  | 0, nums, i, j => if i < j then .error .outOfFuel else .ok (nums, i)
  | fuel + 1, nums, i, j =>
    if i < j then
      match scanDown nums temp i inner j with
      | .error e => .error e
      | .ok j1 =>
        match fillLeft nums i j1 with
        | .error e => .error e
        | .ok (nums1, i1) =>
          match scanUp nums1 temp j1 inner i1 with
          | .error e => .error e
          | .ok i2 =>
            match fillRight nums1 i2 j1 with
            | .error e => .error e
            | .ok nums2 => partitionLoop inner temp fuel nums2 i2 j1
    else .ok (nums, i)

/-- The function `partition(nums, start, end)`: the index it returns and the slice as
it is left.  Every loop is run for at most `fuel` iterations. -/
def partition (fuel : Nat) (nums : List Int) (start end_ : Int) :
    Except Fault (Int × List Int) :=
  match readAt nums start with
  | .error e => .error e
  | .ok temp =>
    match partitionLoop fuel temp fuel nums start end_ with
    | .error e => .error e
    | .ok (nums1, i) =>
      match writeAt nums1 i temp with
      | .error e => .error e
      | .ok nums2 => .ok (i, nums2)

/-- The function `QuickSort(nums, start, end)`: the slice as it is left.  `fuel` bounds
the depth of the recursion and the iterations of every loop of `partition`. -/
def QuickSort : Nat → List Int → Int → Int → Except Fault (List Int)
  | 0, nums, start, end_ => if start ≥ end_ then .ok nums else .error .outOfFuel
  | fuel + 1, nums, start, end_ =>
    if start ≥ end_ then .ok nums
    else
      match partition (fuel + 1) nums start end_ with
      | .error e => .error e
      | .ok (i, nums1) =>
        match QuickSort fuel nums1 start (i - 1) with
        | .error e => .error e
        | .ok nums2 => QuickSort fuel nums2 (i + 1) end_

/-- The part `nums[start..end]` of a slice, both ends included (Go `nums[start:end+1]`);
it is empty when `end < start`. -/
def segment (nums : List Int) (start end_ : Int) : List Int :=
  (nums.drop start.toNat).take (end_ + 1 - start).toNat

end gosort

/-! ## Binary search -/

/-- The search loop returns within `j - i` iterations whenever `f` does not fault on
`[i, j)`, and its result lies in `[i, j]`. -/
theorem searchLoop_returns (f : Nat → Except Fault Bool) :
    ∀ (fuel i j : Nat), i ≤ j → j - i ≤ fuel → (∀ h, i ≤ h → h < j → ∃ b, f h = .ok b) →
      ∃ r, searchLoop f fuel i j = .ok r ∧ i ≤ r ∧ r ≤ j := by
  intro fuel
  induction fuel with
  | zero =>
    intro i j hij hfuel _
    have hji : j = i := by omega
    subst hji
    exact ⟨j, by simp [searchLoop], le_rfl, le_rfl⟩
  | succ fuel ih =>
    intro i j hij hfuel hf
    by_cases hlt : i < j
    · obtain ⟨b, hb⟩ := hf ((i + j) / 2) (by omega) (by omega)
      cases b with
      | false =>
        obtain ⟨r, hr, h1, h2⟩ := ih ((i + j) / 2 + 1) j (by omega) (by omega)
          (fun h h3 h4 => hf h (by omega) h4)
        exact ⟨r, by simp [searchLoop, hlt, hb, hr], by omega, h2⟩
      | true =>
        obtain ⟨r, hr, h1, h2⟩ := ih i ((i + j) / 2) (by omega) (by omega)
          (fun h h3 h4 => hf h h3 (by omega))
        exact ⟨r, by simp [searchLoop, hlt, hb, hr], h1, by omega⟩
    · have hji : j = i := by omega
      subst hji
      exact ⟨j, by simp [searchLoop], le_rfl, le_rfl⟩

/-- On a predicate that is monotone on `[0, n)` the search loop returns, within `j - i`
iterations, the boundary between the `false` and the `true` region. -/
theorem searchLoop_ok (n : Nat) (p : Nat → Bool) (f : Nat → Except Fault Bool)
    (hf : ∀ h, h < n → f h = .ok (p h))
    (hmono : ∀ a b, a ≤ b → b < n → p a = true → p b = true) :
    ∀ (fuel i j : Nat), i ≤ j → j ≤ n → j - i ≤ fuel →
      (∀ k, k < i → p k = false) → (∀ k, j ≤ k → k < n → p k = true) →
      ∃ r, searchLoop f fuel i j = .ok r ∧ r ≤ n ∧
        (∀ k, k < r → p k = false) ∧ (∀ k, r ≤ k → k < n → p k = true) := by
  intro fuel
  induction fuel with
  | zero =>
    intro i j hij hjn hfuel hlo hhi
    have hji : j = i := by omega
    subst hji
    exact ⟨j, by simp [searchLoop], hjn, hlo, hhi⟩
  | succ fuel ih =>
    intro i j hij hjn hfuel hlo hhi
    by_cases hlt : i < j
    · have hh : (i + j) / 2 < n := by omega
      cases hp : p ((i + j) / 2) with
      | false =>
        have hlo2 : ∀ k, k < (i + j) / 2 + 1 → p k = false := by
          intro k hk
          cases hpk : p k with
          | false => rfl
          | true =>
            have := hmono k ((i + j) / 2) (by omega) hh hpk
            rw [hp] at this
            exact absurd this (by simp)
        obtain ⟨r, hr, hrest⟩ := ih ((i + j) / 2 + 1) j (by omega) hjn (by omega) hlo2 hhi
        refine ⟨r, ?_, hrest⟩
        simp [searchLoop, hlt, hf _ hh, hp, hr]
      | true =>
        have hhi2 : ∀ k, (i + j) / 2 ≤ k → k < n → p k = true :=
          fun k hk hkn => hmono _ k hk hkn hp
        obtain ⟨r, hr, hrest⟩ := ih i ((i + j) / 2) (by omega) (by omega) (by omega) hlo hhi2
        refine ⟨r, ?_, hrest⟩
        simp [searchLoop, hlt, hf _ hh, hp, hr]
    · have hji : j = i := by omega
      subst hji
      exact ⟨j, by simp [searchLoop], hjn, hlo, hhi⟩

/-- Specification of `sort.Search` on a monotone predicate. -/
theorem Search_ok (n : Nat) (p : Nat → Bool) (f : Nat → Except Fault Bool)
    (hf : ∀ h, h < n → f h = .ok (p h))
    (hmono : ∀ a b, a ≤ b → b < n → p a = true → p b = true) :
    ∃ r, Search n f = .ok r ∧ r ≤ n ∧
      (∀ k, k < r → p k = false) ∧ (∀ k, r ≤ k → k < n → p k = true) :=
  searchLoop_ok n p f hf hmono n 0 n (Nat.zero_le _) le_rfl (by omega)
    (fun k hk => absurd hk (Nat.not_lt_zero _)) (fun k hk hkn => absurd hkn (by omega))

namespace consistenthash

theorem sortInts_sorted (l : List Int) : (sortInts l).Sorted (· ≤ ·) :=
  List.sorted_insertionSort (· ≤ ·) l

theorem mem_sortInts (l : List Int) (x : Int) : x ∈ sortInts l ↔ x ∈ l :=
  (List.perm_insertionSort (· ≤ ·) l).mem_iff

/-- The owner position is determined by the members of the ring. -/
theorem IsRingSucc.unique {l : List Int} {h s t : Int}
    (hs : IsRingSucc l h s) (ht : IsRingSucc l h t) : s = t := by
  obtain ⟨hsl, hs⟩ := hs
  obtain ⟨htl, ht⟩ := ht
  rcases hs with ⟨h1, h2⟩ | ⟨h1, h2⟩ <;> rcases ht with ⟨h3, h4⟩ | ⟨h3, h4⟩
  · exact le_antisymm (h2 t htl h3) (h4 s hsl h1)
  · exact absurd (h3 s hsl) (not_lt.mpr h1)
  · exact absurd (h1 t htl) (not_lt.mpr h3)
  · exact le_antisymm (h2 t htl) (h4 s hsl)

/-- On a sorted non-empty ring `Get` returns without fault the node recorded for the
owner position of `hash(key)`. -/
theorem Get_sorted (m : Map) (hs : m.keys.Sorted (· ≤ ·)) (hne : m.keys ≠ [])
    (key : String) :
    ∃ s, IsRingSucc m.keys (m.hashOf key) s ∧ m.Get key = .ok (mapGet m.hashMap s) := by
  have hlen : 0 < m.keys.length := List.length_pos.mpr hne
  have hpw := List.pairwise_iff_getElem.mp hs
  obtain ⟨r, hr, hrn, hlo, hhi⟩ := Search_ok m.keys.length
    (fun i => decide (m.keys.getD i 0 ≥ m.hashOf key)) (geAt m.keys (m.hashOf key))
    (by
      intro h hh
      simp [geAt, List.getElem?_eq_getElem hh, List.getD_eq_getElem _ _ hh])
    (by
      intro a b hab hb hpa
      have ha : a < m.keys.length := by omega
      simp only [List.getD_eq_getElem _ _ ha, List.getD_eq_getElem _ _ hb,
        decide_eq_true_eq, ge_iff_le] at hpa ⊢
      rcases Nat.lt_or_eq_of_le hab with hlt | heq
      · exact le_trans hpa (hpw a b ha hb hlt)
      · subst heq; exact hpa)
  have hidx : r % m.keys.length < m.keys.length := Nat.mod_lt _ hlen
  refine ⟨m.keys[r % m.keys.length], ⟨List.getElem_mem _, ?_⟩, ?_⟩
  · rcases Nat.lt_or_eq_of_le hrn with hlt | heq
    · left
      have hmod : r % m.keys.length = r := Nat.mod_eq_of_lt hlt
      have hrr := hhi r le_rfl hlt
      simp only [List.getD_eq_getElem _ _ hlt, decide_eq_true_eq, ge_iff_le] at hrr
      refine ⟨by simpa [hmod] using hrr, ?_⟩
      intro x hx hhx
      obtain ⟨k, hk, rfl⟩ := List.getElem_of_mem hx
      have hkr : r ≤ k := by
        by_contra hcon
        have := hlo k (by omega)
        simp only [List.getD_eq_getElem _ _ hk, decide_eq_false_iff_not, ge_iff_le] at this
        exact this hhx
      simp only [hmod]
      rcases Nat.lt_or_eq_of_le hkr with hlt2 | heq2
      · exact hpw r k hlt hk hlt2
      · subst heq2; exact le_rfl
    · right
      have hmod : r % m.keys.length = 0 := by rw [heq]; exact Nat.mod_self _
      refine ⟨?_, ?_⟩
      · intro x hx
        obtain ⟨k, hk, rfl⟩ := List.getElem_of_mem hx
        have := hlo k (by omega)
        simp only [List.getD_eq_getElem _ _ hk, decide_eq_false_iff_not, ge_iff_le,
          not_le] at this
        exact this
      · intro x hx
        obtain ⟨k, hk, rfl⟩ := List.getElem_of_mem hx
        simp only [hmod]
        rcases Nat.eq_zero_or_pos k with h0 | hpos
        · subst h0; exact le_rfl
        · exact hpw 0 k hlen hk hpos
  · have hlen0 : ¬ m.keys.length = 0 := by omega
    simp [Map.Get, hlen0, hr, List.getElem?_eq_getElem hidx]

theorem Add_keys_sorted (m : Map) (ks : List String) : (m.Add ks).keys.Sorted (· ≤ ·) :=
  sortInts_sorted _

theorem build_keys_sorted (replicas : Int) (fn : Option Hash) (adds : List (List String)) :
    (build replicas fn adds).keys.Sorted (· ≤ ·) := by
  induction adds using List.reverseRecOn with
  | nil => simp [build, New]
  | append_singleton adds a _ =>
    simp only [build, List.foldl_append, List.foldl_cons, List.foldl_nil]
    exact Add_keys_sorted _ _

end consistenthash

/-! ## Maps -/

section maps

variable {K V : Type} [DecidableEq K]

theorem mapFind_cons (a : K) (b : V) (m : List (K × V)) (k : K) :
    mapFind ((a, b) :: m) k = if a = k then some b else mapFind m k := by
  by_cases h : a = k <;> simp [mapFind, List.find?_cons, h]

theorem mapFind_filter_ne (m : List (K × V)) (k k' : K) :
    mapFind (m.filter (fun kv => decide (kv.1 ≠ k))) k' =
      if k' = k then none else mapFind m k' := by
  induction m with
  | nil => simp [mapFind]
  | cons a m ih =>
    obtain ⟨a, b⟩ := a
    by_cases h1 : a = k
    · have hf : ((a, b) :: m).filter (fun kv => decide (kv.1 ≠ k)) =
          m.filter (fun kv => decide (kv.1 ≠ k)) :=
        List.filter_cons_of_neg (by simp [h1])
      rw [hf, ih, mapFind_cons]
      by_cases h2 : k' = k
      · simp [h2]
      · have h3 : ¬ a = k' := fun h => h2 (h ▸ h1)
        simp [h2, h3]
    · have hf : ((a, b) :: m).filter (fun kv => decide (kv.1 ≠ k)) =
          (a, b) :: m.filter (fun kv => decide (kv.1 ≠ k)) :=
        List.filter_cons_of_pos (by simp [h1])
      rw [hf, mapFind_cons, mapFind_cons, ih]
      by_cases h2 : k' = k
      · have h3 : ¬ a = k' := fun h => h1 (h.trans h2)
        simp [h2, h3, h1]
      · simp [h2]

theorem mapFind_mapSet (m : List (K × V)) (k k' : K) (v : V) :
    mapFind (mapSet m k v) k' = if k' = k then some v else mapFind m k' := by
  unfold mapSet
  rw [mapFind_cons, mapFind_filter_ne]
  by_cases h : k' = k
  · simp [h]
  · have h2 : ¬ k = k' := fun e => h e.symm
    simp [h, h2]

theorem mapFind_mapDelete (m : List (K × V)) (k k' : K) :
    mapFind (mapDelete m k) k' = if k' = k then none else mapFind m k' :=
  mapFind_filter_ne m k k'

theorem mapFind_nil (k : K) : mapFind ([] : List (K × V)) k = none := rfl

end maps

namespace consistenthash

theorem foldl_addReplica (key : String) (is : List Nat) (m : Map) :
    (is.foldl (Map.addReplica key) m).hash = m.hash ∧
    (is.foldl (Map.addReplica key) m).replicas = m.replicas ∧
    (is.foldl (Map.addReplica key) m).keys = m.keys ++ m.virtualHashes key is ∧
    ∀ x, mapFind (is.foldl (Map.addReplica key) m).hashMap x =
      if x ∈ m.virtualHashes key is then some key else mapFind m.hashMap x := by
  induction is generalizing m with
  | nil => simp [Map.virtualHashes]
  | cons i is ih =>
    obtain ⟨h1, h2, h3, h4⟩ := ih (Map.addReplica key m i)
    have hh : ∀ s, (Map.addReplica key m i).hashOf s = m.hashOf s := fun s => rfl
    have hv : (Map.addReplica key m i).virtualHashes key is = m.virtualHashes key is := rfl
    rw [List.foldl_cons]
    refine ⟨h1, h2, ?_, ?_⟩
    · rw [h3, hv]
      simp [Map.addReplica, Map.virtualHashes]
    · intro x
      rw [h4, hv]
      simp only [Map.addReplica, mapFind_mapSet, Map.virtualHashes, List.map_cons,
        List.mem_cons]
      by_cases hx : x = m.hashOf (virtualName i key)
      · simp [hx]
      · simp [hx]

/-- What `Add` of the single node `d` does to a ring. -/
theorem Add_single (m : Map) (d : String) :
    (m.Add [d]).hash = m.hash ∧ (m.Add [d]).replicas = m.replicas ∧
    (∀ x, x ∈ (m.Add [d]).keys ↔
      x ∈ m.keys ∨ x ∈ m.virtualHashes d (List.range m.replicas.toNat)) ∧
    ∀ x, mapFind (m.Add [d]).hashMap x =
      if x ∈ m.virtualHashes d (List.range m.replicas.toNat) then some d
      else mapFind m.hashMap x := by
  obtain ⟨h1, h2, h3, h4⟩ := foldl_addReplica d (List.range m.replicas.toNat) m
  refine ⟨h1, h2, ?_, h4⟩
  intro x
  show x ∈ sortInts _ ↔ _
  rw [mem_sortInts]
  simp only [List.foldl_cons, List.foldl_nil, Map.addNode]
  rw [h3, List.mem_append]

/-- C2: on every ring built by `New` and `Add` calls, for every node id `d` and every
key, `Get(key)` returns an owner before and after `Add(d)`, and the owner after is the
owner before or is `d`; whenever the owner changed, the owner position of the key in
the enlarged ring is one of the virtual-node hashes of `d`. -/
theorem Add_moves_keys_only_to_new_node (replicas : Int) (fn : Option Hash)
    (adds : List (List String)) (d key : String) :
    ∃ owner0 owner1,
      (build replicas fn adds).Get key = .ok owner0 ∧
      ((build replicas fn adds).Add [d]).Get key = .ok owner1 ∧
      (owner1 = owner0 ∨ owner1 = d) ∧
      (owner1 ≠ owner0 → ∃ i : Nat, (i : Int) < (build replicas fn adds).replicas ∧
        IsRingSucc ((build replicas fn adds).Add [d]).keys
          (((build replicas fn adds).Add [d]).hashOf key)
          ((build replicas fn adds).hashOf (virtualName i d))) := by
  generalize hm : build replicas fn adds = m
  have hsorted : m.keys.Sorted (· ≤ ·) := hm ▸ build_keys_sorted replicas fn adds
  obtain ⟨hhash, -, hkeys, hmap⟩ := Add_single m d
  have hhashOf : (m.Add [d]).hashOf key = m.hashOf key := by
    simp [Map.hashOf, hhash]
  -- the hashes of `d` are those of replica indices below `replicas`
  have hidx : ∀ x, x ∈ m.virtualHashes d (List.range m.replicas.toNat) →
      ∃ i : Nat, (i : Int) < m.replicas ∧ x = m.hashOf (virtualName i d) := by
    intro x hx
    simp only [Map.virtualHashes, List.mem_map, List.mem_range] at hx
    obtain ⟨i, hi, rfl⟩ := hx
    exact ⟨i, by omega, rfl⟩
  by_cases hne1 : (m.Add [d]).keys = []
  · -- nothing was added to an empty ring
    have hne0 : m.keys = [] := by
      cases hk : m.keys with
      | nil => rfl
      | cons a l =>
        have : a ∈ (m.Add [d]).keys := (hkeys a).mpr (Or.inl (by simp [hk]))
        simp [hne1] at this
    exact ⟨"", "", by simp [Map.Get, hne0], by simp [Map.Get, hne1], Or.inl rfl,
      fun h => absurd rfl h⟩
  · obtain ⟨s1, hs1, hget1⟩ := Get_sorted (m.Add [d]) (Add_keys_sorted m [d]) hne1 key
    rw [hhashOf] at hs1
    by_cases hd : s1 ∈ m.virtualHashes d (List.range m.replicas.toNat)
    · -- the owner position is a hash of `d`
      have hown : mapGet (m.Add [d]).hashMap s1 = d := by
        simp [mapGet, hmap, hd]
      have hex : ∃ owner0, m.Get key = .ok owner0 := by
        by_cases hne0 : m.keys = []
        · exact ⟨"", by simp [Map.Get, hne0]⟩
        · obtain ⟨s0, -, hget0⟩ := Get_sorted m hsorted hne0 key
          exact ⟨_, hget0⟩
      obtain ⟨owner0, hget0⟩ := hex
      refine ⟨owner0, d, hget0, by rw [hget1, hown], Or.inr rfl, fun _ => ?_⟩
      obtain ⟨i, hi, hx⟩ := hidx s1 hd
      refine ⟨i, hi, ?_⟩
      rw [hhashOf, ← hx]
      exact hs1
    · -- the owner position is an old virtual node, and it was the owner position before
      have hmem0 : s1 ∈ m.keys := by
        rcases (hkeys s1).mp hs1.1 with h | h
        · exact h
        · exact absurd h hd
      have hne0 : m.keys ≠ [] := List.ne_nil_of_mem hmem0
      obtain ⟨s0, hs0, hget0⟩ := Get_sorted m hsorted hne0 key
      have hsucc0 : IsRingSucc m.keys (m.hashOf key) s1 := by
        refine ⟨hmem0, ?_⟩
        rcases hs1.2 with ⟨h1, h2⟩ | ⟨h1, h2⟩
        · exact Or.inl ⟨h1, fun x hx hle => h2 x ((hkeys x).mpr (Or.inl hx)) hle⟩
        · exact Or.inr ⟨fun x hx => h1 x ((hkeys x).mpr (Or.inl hx)),
            fun x hx => h2 x ((hkeys x).mpr (Or.inl hx))⟩
      have heq : s0 = s1 := hs0.unique hsucc0
      have hown : mapGet (m.Add [d]).hashMap s1 = mapGet m.hashMap s0 := by
        simp [mapGet, hmap, hd, heq]
      exact ⟨_, _, hget0, by rw [hget1, hown], Or.inl rfl, fun h => absurd rfl h⟩

set_option maxRecDepth 1000000 in
/-- C2 at the ring of nodes "A", "B", "C" with three replicas, to which "D" is added:
the key "0" moves from "B" to "D", the key "1" stays with "A". -/
theorem Add_moves_keys_only_to_new_node_witness :
    (∃ owner0 owner1,
      (build 3 none [["A", "B", "C"]]).Get "0" = .ok owner0 ∧
      ((build 3 none [["A", "B", "C"]]).Add ["D"]).Get "0" = .ok owner1 ∧
      (owner1 = owner0 ∨ owner1 = "D") ∧
      (owner1 ≠ owner0 → ∃ i : Nat, (i : Int) < (build 3 none [["A", "B", "C"]]).replicas ∧
        IsRingSucc ((build 3 none [["A", "B", "C"]]).Add ["D"]).keys
          (((build 3 none [["A", "B", "C"]]).Add ["D"]).hashOf "0")
          ((build 3 none [["A", "B", "C"]]).hashOf (virtualName i "D")))) ∧
    (build 3 none [["A", "B", "C"]]).Get "0" = .ok "B" ∧
    ((build 3 none [["A", "B", "C"]]).Add ["D"]).Get "0" = .ok "D" ∧
    (build 3 none [["A", "B", "C"]]).Get "1" = .ok "A" ∧
    ((build 3 none [["A", "B", "C"]]).Add ["D"]).Get "1" = .ok "A" :=
  ⟨Add_moves_keys_only_to_new_node 3 none [["A", "B", "C"]] "D" "0",
    by decide, by decide, by decide, by decide⟩

end consistenthash

/-! ## 64-bit arithmetic -/

/-- A result of `int64` arithmetic is a 64-bit signed number. -/
theorem int64_range (x : Int) :
    -9223372036854775808 ≤ int64 x ∧ int64 x < 9223372036854775808 := by
  unfold int64; omega

/-- A number that fits in 64 bits is kept as it is. -/
theorem int64_of_range (x : Int)
    (h : -9223372036854775808 ≤ x ∧ x < 9223372036854775808) : int64 x = x := by
  unfold int64; omega

theorem int64_add_int64 (a b : Int) : int64 (a + int64 b) = int64 (a + b) := by
  unfold int64; omega

theorem int64_sub_int64 (a b : Int) : int64 (a - int64 b) = int64 (a - b) := by
  unfold int64; omega

theorem int64_int64_add (a b : Int) : int64 (int64 a + b) = int64 (a + b) := by
  unfold int64; omega

theorem int64_int64_sub (a b : Int) : int64 (int64 a - b) = int64 (a - b) := by
  unfold int64; omega

/-- Wrap-around can only lower a number that is not below `-2^63`. -/
theorem int64_le_self (x : Int) (h : -9223372036854775808 ≤ x) : int64 x ≤ x := by
  unfold int64; omega

/-! ## The representation invariant of the LRU store -/

theorem filterMap_filter_of {α β : Type} (f : α → Option β) (p : α → Bool) (q : β → Bool)
    (l : List α) (h : ∀ x ∈ l, ∀ y, f x = some y → p x = q y) :
    (l.filter p).filterMap f = (l.filterMap f).filter q := by
  induction l with
  | nil => rfl
  | cons a l ih =>
    have ih2 := ih (fun x hx => h x (List.mem_cons_of_mem _ hx))
    cases hfa : f a with
    | none =>
      cases hp : p a with
      | false => rw [List.filter_cons_of_neg (by simp [hp]), List.filterMap_cons_none hfa, ih2]
      | true =>
        rw [List.filter_cons_of_pos (by simp [hp]), List.filterMap_cons_none hfa,
          List.filterMap_cons_none hfa, ih2]
    | some y =>
      have hpq := h a (List.mem_cons_self _ _) y hfa
      cases hp : p a with
      | false =>
        rw [List.filter_cons_of_neg (by simp [hp]), List.filterMap_cons_some hfa,
          List.filter_cons_of_neg (by simp [← hpq, hp]), ih2]
      | true =>
        rw [List.filter_cons_of_pos (by simp [hp]), List.filterMap_cons_some hfa,
          List.filterMap_cons_some hfa, List.filter_cons_of_pos (by simp [← hpq, hp]), ih2]

namespace lru

variable {V : Type} [Value V]

theorem Inv_New (maxBytes : Int) (onEvicted : Bool) :
    (New maxBytes onEvicted : Cache V).Inv where
  nodup := List.nodup_nil
  linked := fun a ha => absurd ha (List.not_mem_nil a)
  indexed := fun k a h => by simp [New, mapFind] at h
  fresh := fun a ha => absurd ha (List.not_mem_nil a)
  bytes := by simp [New, Cache.entries, int64]

/-- A live entry is held by a linked element that the index records under its key. -/
theorem Cache.Inv.of_mem {c : Cache V} (hc : c.Inv) {e : entry V} (he : e ∈ c.entries) :
    ∃ a, a ∈ c.ll ∧ mapFind c.elems a = some e ∧ mapFind c.cache e.key = some a := by
  obtain ⟨a, ha, hae⟩ := List.mem_filterMap.mp he
  obtain ⟨e2, h1, h2⟩ := hc.linked a ha
  rw [hae] at h1
  cases h1
  exact ⟨a, ha, hae, h2⟩

/-- An indexed key is the key of a live entry. -/
theorem Cache.Inv.of_find {c : Cache V} (hc : c.Inv) {key : String} {a : Nat}
    (h : mapFind c.cache key = some a) :
    a ∈ c.ll ∧ ∃ e, mapFind c.elems a = some e ∧ e.key = key ∧ e ∈ c.entries := by
  obtain ⟨ha, e, he, hk⟩ := hc.indexed key a h
  exact ⟨ha, e, he, hk, List.mem_filterMap.mpr ⟨a, ha, he⟩⟩

/-- No two live entries have the same key. -/
theorem Cache.Inv.key_inj {c : Cache V} (hc : c.Inv) {e1 e2 : entry V}
    (h1 : e1 ∈ c.entries) (h2 : e2 ∈ c.entries) (hk : e1.key = e2.key) : e1 = e2 := by
  obtain ⟨a1, -, he1, hc1⟩ := hc.of_mem h1
  obtain ⟨a2, -, he2, hc2⟩ := hc.of_mem h2
  rw [hk, hc2] at hc1
  cases hc1
  rw [he1] at he2
  cases he2
  rfl

/-- A key without a live entry is not indexed. -/
theorem Cache.Inv.find_none {c : Cache V} (hc : c.Inv) {key : String}
    (h : ∀ e ∈ c.entries, e.key ≠ key) : mapFind c.cache key = none := by
  cases hf : mapFind c.cache key with
  | none => rfl
  | some a =>
    obtain ⟨-, e, -, hk, he⟩ := hc.of_find hf
    exact absurd hk (h e he)

/-- The entries of the list with the element `a` unlinked. -/
theorem Cache.Inv.entries_erase {c : Cache V} (hc : c.Inv) {a : Nat} {e : entry V}
    (hae : mapFind c.elems a = some e) (hca : mapFind c.cache e.key = some a) :
    (c.ll.erase a).filterMap (mapFind c.elems) =
      c.entries.filter (fun x => decide (x.key ≠ e.key)) := by
  rw [hc.nodup.erase_eq_filter]
  apply filterMap_filter_of
  intro x hx y hxy
  obtain ⟨e2, h1, h2⟩ := hc.linked x hx
  rw [hxy] at h1
  cases h1
  by_cases hxa : x = a
  · subst hxa
    rw [hae] at hxy
    cases hxy
    simp
  · have hk : y.key ≠ e.key := by
      intro hk
      rw [hk, hca] at h2
      cases h2
      exact hxa rfl
    simp [hxa, hk]

end lru

namespace lru

variable {V : Type} [Value V]

/-- Relinking the same elements in another order keeps the invariant. -/
theorem Cache.Inv.relink {c : Cache V} (hc : c.Inv) {l : List Nat} (hp : l.Perm c.ll) :
    ({ c with ll := l } : Cache V).Inv where
  nodup := hp.nodup_iff.mpr hc.nodup
  linked := fun a ha => hc.linked a (hp.mem_iff.mp ha)
  indexed := fun k a h => by
    obtain ⟨h1, h2⟩ := hc.indexed k a h
    exact ⟨hp.mem_iff.mpr h1, h2⟩
  fresh := fun a ha => hc.fresh a (hp.mem_iff.mp ha)
  bytes := by
    have : (l.filterMap (mapFind c.elems)).Perm c.entries := hp.filterMap _
    show c.nbytes = _
    rw [hc.bytes]
    exact congrArg int64 ((this.map entrySize).sum_eq).symm

/-- The entries after the element of `e` has been moved to the front. -/
theorem Cache.Inv.entries_front {c : Cache V} (hc : c.Inv) {a : Nat} {e : entry V}
    (hae : mapFind c.elems a = some e) (hca : mapFind c.cache e.key = some a) :
    ({ c with ll := a :: c.ll.erase a } : Cache V).entries =
      e :: c.entries.filter (fun x => decide (x.key ≠ e.key)) := by
  show (a :: c.ll.erase a).filterMap (mapFind c.elems) = _
  rw [List.filterMap_cons_some hae, hc.entries_erase hae hca]

/-- A live entry together with the other live entries makes up the store. -/
theorem Cache.Inv.entries_split {c : Cache V} (hc : c.Inv) {e : entry V}
    (he : e ∈ c.entries) :
    c.entries.Perm (e :: c.entries.filter (fun x => decide (x.key ≠ e.key))) := by
  obtain ⟨a, ha, hae, hca⟩ := hc.of_mem he
  rw [← hc.entries_front hae hca]
  exact (List.perm_cons_erase ha).filterMap _

/-- A `Get` of a key without a live entry is a miss that changes nothing. -/
theorem Get_miss {c : Cache V} (hc : c.Inv) {key : String}
    (h : ∀ e ∈ c.entries, e.key ≠ key) : c.Get key = .ok ((none, false), c) := by
  simp [Cache.Get, hc.find_none h]

/-- A `Get` of the key of a live entry is a hit that moves the entry to the front. -/
theorem Get_hit {c : Cache V} (hc : c.Inv) {e : entry V} (he : e ∈ c.entries) :
    ∃ c1, c.Get e.key = .ok ((some e.value, true), c1) ∧ c1.Inv ∧
      c1.entries = e :: c.entries.filter (fun x => decide (x.key ≠ e.key)) ∧
      c1.nbytes = c.nbytes ∧ c1.maxBytes = c.maxBytes ∧
      c1.OnEvicted = c.OnEvicted ∧ c1.calls = c.calls := by
  obtain ⟨a, ha, hae, hca⟩ := hc.of_mem he
  refine ⟨{ c with ll := a :: c.ll.erase a }, ?_, hc.relink (List.perm_cons_erase ha).symm,
    hc.entries_front hae hca, rfl, rfl, rfl, rfl⟩
  simp [Cache.Get, hca, listMoveToFront, ha, hae]

/-- The store is empty exactly when no element is linked. -/
theorem Cache.Inv.entries_eq_nil {c : Cache V} (hc : c.Inv) :
    c.entries = [] ↔ c.ll = [] := by
  constructor
  · intro h
    cases hl : c.ll with
    | nil => rfl
    | cons a l =>
      obtain ⟨e, he, -⟩ := hc.linked a (by simp [hl])
      have : e ∈ c.entries := List.mem_filterMap.mpr ⟨a, by simp [hl], he⟩
      simp [h] at this
  · intro h
    simp [Cache.entries, h]

/-- The counter of a store is a 64-bit number. -/
theorem Cache.Inv.nbytes_int64 {c : Cache V} (hc : c.Inv) : int64 c.nbytes = c.nbytes := by
  rw [hc.bytes]
  exact int64_of_range _ (int64_range _)

theorem Cache.Inv.length_entries {c : Cache V} (hc : c.Inv) :
    c.entries.length = c.ll.length := by
  have h : ∀ l : List Nat, (∀ a ∈ l, ∃ e, mapFind c.elems a = some e) →
      (l.filterMap (mapFind c.elems)).length = l.length := by
    intro l
    induction l with
    | nil => intro _; rfl
    | cons a l ih =>
      intro hl
      obtain ⟨e, he⟩ := hl a (List.mem_cons_self _ _)
      rw [List.filterMap_cons_some he, List.length_cons, List.length_cons,
        ih (fun x hx => hl x (List.mem_cons_of_mem _ hx))]
  exact h c.ll (fun a ha => (hc.linked a ha).imp (fun e he => he.1))

/-- On an empty store `RemoveOldest` changes nothing. -/
theorem RemoveOldest_empty {c : Cache V} (hc : c.Inv) (h : c.entries = []) :
    c.RemoveOldest = .ok c := by
  simp [Cache.RemoveOldest, listBack, hc.entries_eq_nil.mp h]

/-- What `RemoveOldest` does on a store whose least recently used entry is `e`. -/
theorem RemoveOldest_last {c : Cache V} (hc : c.Inv) {es : List (entry V)} {e : entry V}
    (h : c.entries = es ++ [e]) :
    ∃ c1, c.RemoveOldest = .ok c1 ∧ c1.Inv ∧ c1.entries = es ∧
      c1.nbytes = int64 (c.nbytes - entrySize e) ∧ c1.maxBytes = c.maxBytes ∧
      c1.OnEvicted = c.OnEvicted ∧
      c1.calls = (if c.OnEvicted then c.calls ++ [(e.key, e.value)] else c.calls) ∧
      mapFind c1.cache e.key = none := by
  have hne : c.ll ≠ [] := by
    intro hnil
    have := hc.entries_eq_nil.mpr hnil
    simp [h] at this
  obtain ⟨l, hl⟩ : ∃ l, c.ll = l ++ [c.ll.getLast hne] :=
    ⟨c.ll.dropLast, (List.dropLast_append_getLast hne).symm⟩
  generalize c.ll.getLast hne = a at hl
  have hback : listBack c.ll = some a := by
    rw [listBack, hl]; simp
  have hnd : (l ++ [a]).Nodup := hl ▸ hc.nodup
  have hal : a ∉ l := by
    intro hmem
    have := (List.nodup_append.mp hnd).2.2 hmem (List.mem_singleton_self a)
    exact this
  have hrem : listRemove c.ll a = l := by
    rw [listRemove, hl, List.erase_append_right _ hal]; simp
  obtain ⟨e2, hae, hca⟩ := hc.linked a (by rw [hl]; simp)
  have hent : c.entries = l.filterMap (mapFind c.elems) ++ [e2] := by
    rw [Cache.entries, hl, List.filterMap_append, List.filterMap_cons_some hae]; rfl
  obtain ⟨hes, hee⟩ := List.append_inj' (h.symm.trans hent) rfl
  cases hee
  have hbytes : c.nbytes =
      int64 (((l.filterMap (mapFind c.elems)).map entrySize).sum + entrySize e) := by
    rw [hc.bytes, hent]; simp
  have hinv : ({ c with
      ll := l
      cache := mapDelete c.cache e.key
      nbytes := int64 (c.nbytes - int64 (strLen e.key + Value.Len e.value)) } :
      Cache V).Inv := by
    refine ⟨(List.nodup_append.mp hnd).1, ?_, ?_, ?_, ?_⟩
    · intro x hx
      obtain ⟨ex, h1, h2⟩ := hc.linked x (by rw [hl]; simp [hx])
      refine ⟨ex, h1, ?_⟩
      show mapFind (mapDelete c.cache e.key) ex.key = some x
      rw [mapFind_mapDelete]
      have hk : ex.key ≠ e.key := by
        intro hk
        rw [hk, hca] at h2
        cases h2
        exact hal hx
      simp [hk, h2]
    · intro k x hkx
      change mapFind (mapDelete c.cache e.key) k = some x at hkx
      rw [mapFind_mapDelete] at hkx
      by_cases hk : k = e.key
      · simp [hk] at hkx
      · simp only [hk, if_false] at hkx
        obtain ⟨hx, ex, h1, h2⟩ := hc.indexed k x hkx
        refine ⟨?_, ex, h1, h2⟩
        rw [hl] at hx
        rcases List.mem_append.mp hx with hx | hx
        · exact hx
        · have hxa : x = a := by simpa using hx
          subst hxa
          rw [hae] at h1
          cases h1
          exact absurd h2.symm hk
    · intro x hx
      exact hc.fresh x (by rw [hl]; simp [hx])
    · show int64 (c.nbytes - int64 (strLen e.key + Value.Len e.value)) =
        int64 ((l.filterMap (mapFind c.elems)).map entrySize).sum
      rw [hbytes, int64_sub_int64, int64_int64_sub]
      simp [entrySize]
  have hnone : mapFind (mapDelete c.cache e.key) e.key = none := by
    rw [mapFind_mapDelete]; simp
  have hnb : int64 (c.nbytes - int64 (strLen e.key + Value.Len e.value)) =
      int64 (c.nbytes - entrySize e) := int64_sub_int64 _ _
  cases hcb : c.OnEvicted with
  | false =>
    refine ⟨_, ?_, hinv, hes.symm, hnb, rfl, hcb, by simp, hnone⟩
    simp [Cache.RemoveOldest, hback, hrem, hae, hcb]
  | true =>
    refine ⟨{ c with
      ll := l
      cache := mapDelete c.cache e.key
      nbytes := int64 (c.nbytes - int64 (strLen e.key + Value.Len e.value))
      calls := c.calls ++ [(e.key, e.value)] }, ?_, ?_, hes.symm, hnb, rfl, hcb, by simp,
      hnone⟩
    · simp [Cache.RemoveOldest, hback, hrem, hae, hcb]
    · exact ⟨hinv.nodup, hinv.linked, hinv.indexed, hinv.fresh, hinv.bytes⟩

end lru

namespace lru

variable {V : Type} [Value V]

/-- The head of `Add` on a key that has the live entry `e`: the entry is moved to the
front and gets the new value. -/
theorem addEntry_hit {c : Cache V} (hc : c.Inv) {e : entry V} (he : e ∈ c.entries)
    (value : V) :
    ∃ c1, c.addEntry e.key value = .ok c1 ∧ c1.Inv ∧
      c1.entries = { key := e.key, value := value } ::
        c.entries.filter (fun x => decide (x.key ≠ e.key)) ∧
      c1.nbytes = int64 (c.nbytes + (Value.Len value - Value.Len e.value)) ∧
      c1.maxBytes = c.maxBytes ∧ c1.OnEvicted = c.OnEvicted ∧ c1.calls = c.calls := by
  obtain ⟨a, ha, hae, hca⟩ := hc.of_mem he
  have hc1 := hc.relink (List.perm_cons_erase ha).symm
  have hnot : a ∉ c.ll.erase a := fun h => ((hc.nodup.mem_erase_iff).mp h).1 rfl
  have hrest : (c.ll.erase a).filterMap
        (mapFind (mapSet c.elems a { key := e.key, value := value })) =
      c.entries.filter (fun x => decide (x.key ≠ e.key)) := by
    rw [← hc.entries_erase hae hca]
    apply List.filterMap_congr
    intro x hx
    have hxa : x ≠ a := fun h => hnot (h ▸ hx)
    rw [mapFind_mapSet]; simp [hxa]
  have hnew : mapFind (mapSet c.elems a { key := e.key, value := value }) a =
      some { key := e.key, value := value } := by
    rw [mapFind_mapSet]; simp
  have hent : ((a :: c.ll.erase a).filterMap
        (mapFind (mapSet c.elems a { key := e.key, value := value }))) =
      { key := e.key, value := value } ::
        c.entries.filter (fun x => decide (x.key ≠ e.key)) := by
    rw [List.filterMap_cons_some hnew, hrest]
  refine ⟨{ c with
      ll := a :: c.ll.erase a
      nbytes := int64 (c.nbytes + int64 (Value.Len value - Value.Len e.value))
      elems := mapSet c.elems a { key := e.key, value := value } }, ?_, ?_, hent,
    int64_add_int64 _ _, rfl, rfl, rfl⟩
  · simp [Cache.addEntry, hca, listMoveToFront, ha, hae]
  · refine ⟨hc1.nodup, ?_, ?_, hc1.fresh, ?_⟩
    · intro x hx
      show ∃ e2, mapFind (mapSet c.elems a _) x = some e2 ∧ mapFind c.cache e2.key = some x
      by_cases hxa : x = a
      · subst hxa
        exact ⟨{ key := e.key, value := value }, hnew, hca⟩
      · obtain ⟨e2, h1, h2⟩ := hc1.linked x hx
        rw [mapFind_mapSet]
        exact ⟨e2, by simpa [hxa] using h1, h2⟩
    · intro k x hkx
      obtain ⟨hx, e2, h1, h2⟩ := hc1.indexed k x hkx
      refine ⟨hx, ?_⟩
      show ∃ e3, mapFind (mapSet c.elems a _) x = some e3 ∧ e3.key = k
      by_cases hxa : x = a
      · subst hxa
        have h1b : mapFind c.elems x = some e2 := h1
        rw [hae] at h1b
        cases h1b
        exact ⟨{ key := e.key, value := value }, hnew, h2⟩
      · rw [mapFind_mapSet]
        exact ⟨e2, by simpa [hxa] using h1, h2⟩
    · show int64 (c.nbytes + int64 (Value.Len value - Value.Len e.value)) = int64
        (((a :: c.ll.erase a).filterMap (mapFind (mapSet c.elems a _))).map entrySize).sum
      rw [hent, hc.bytes, ((hc.entries_split he).map entrySize).sum_eq, int64_add_int64,
        int64_int64_add]
      simp only [List.map_cons, List.sum_cons, entrySize]
      congr 1
      ring

/-- The head of `Add` on a key that has no live entry: a new entry is put at the
front. -/
theorem addEntry_miss {c : Cache V} (hc : c.Inv) {key : String}
    (h : ∀ e ∈ c.entries, e.key ≠ key) (value : V) :
    ∃ c1, c.addEntry key value = .ok c1 ∧ c1.Inv ∧
      c1.entries = { key := key, value := value } :: c.entries ∧
      c1.nbytes = int64 (c.nbytes + (strLen key + Value.Len value)) ∧
      c1.maxBytes = c.maxBytes ∧ c1.OnEvicted = c.OnEvicted ∧ c1.calls = c.calls := by
  have hnone := hc.find_none h
  have hfresh : c.next ∉ c.ll := fun hmem => absurd (hc.fresh _ hmem) (lt_irrefl _)
  have hrest : c.ll.filterMap (mapFind (mapSet c.elems c.next { key := key, value := value }))
      = c.entries := by
    apply List.filterMap_congr
    intro x hx
    have hxa : x ≠ c.next := fun h => hfresh (h ▸ hx)
    rw [mapFind_mapSet]; simp [hxa]
  have hnew : mapFind (mapSet c.elems c.next { key := key, value := value }) c.next =
      some { key := key, value := value } := by
    rw [mapFind_mapSet]; simp
  have hent : (c.next :: c.ll).filterMap
        (mapFind (mapSet c.elems c.next { key := key, value := value })) =
      { key := key, value := value } :: c.entries := by
    rw [List.filterMap_cons_some hnew, hrest]
  refine ⟨{ c with
      ll := c.next :: c.ll
      elems := mapSet c.elems c.next { key := key, value := value }
      next := c.next + 1
      cache := mapSet c.cache key c.next
      nbytes := int64 (c.nbytes + int64 (strLen key + Value.Len value)) }, ?_, ?_, hent,
    int64_add_int64 _ _, rfl, rfl, rfl⟩
  · simp [Cache.addEntry, hnone]
  · refine ⟨List.nodup_cons.mpr ⟨hfresh, hc.nodup⟩, ?_, ?_, ?_, ?_⟩
    · intro x hx
      show ∃ e2, mapFind (mapSet c.elems c.next _) x = some e2 ∧
        mapFind (mapSet c.cache key c.next) e2.key = some x
      by_cases hxa : x = c.next
      · subst hxa
        exact ⟨{ key := key, value := value }, hnew, by rw [mapFind_mapSet]; simp⟩
      · rw [mapFind_mapSet]
        have hxl : x ∈ c.ll := by
          rcases List.mem_cons.mp hx with h1 | h1
          · exact absurd h1 hxa
          · exact h1
        obtain ⟨e2, h1, h2⟩ := hc.linked x hxl
        refine ⟨e2, by simp [hxa, h1], ?_⟩
        rw [mapFind_mapSet]
        have hk : e2.key ≠ key := h e2 (List.mem_filterMap.mpr ⟨x, hxl, h1⟩)
        simp [hk, h2]
    · intro k x hkx
      change mapFind (mapSet c.cache key c.next) k = some x at hkx
      rw [mapFind_mapSet] at hkx
      show x ∈ c.next :: c.ll ∧ ∃ e3, mapFind (mapSet c.elems c.next _) x = some e3 ∧ e3.key = k
      by_cases hk : k = key
      · simp only [hk, if_true, Option.some.injEq] at hkx
        subst hkx
        exact ⟨List.mem_cons_self _ _, { key := key, value := value }, hnew, hk.symm⟩
      · simp only [hk, if_false] at hkx
        obtain ⟨hx, e2, h1, h2⟩ := hc.indexed k x hkx
        have hxa : x ≠ c.next := fun h => hfresh (h ▸ hx)
        rw [mapFind_mapSet]
        exact ⟨List.mem_cons_of_mem _ hx, e2, by simp [hxa, h1], h2⟩
    · intro x hx
      show x < c.next + 1
      rcases List.mem_cons.mp hx with h1 | h1
      · omega
      · exact Nat.lt_succ_of_lt (hc.fresh x h1)
    · show int64 (c.nbytes + int64 (strLen key + Value.Len value)) = int64
        (((c.next :: c.ll).filterMap (mapFind (mapSet c.elems c.next _))).map entrySize).sum
      rw [hent, hc.bytes, int64_add_int64, int64_int64_add]
      simp only [List.map_cons, List.sum_cons, entrySize]
      congr 1
      ring

/-- The head of `Add` in both cases: the entry for `key` ends at the front, holding
`value`, before the other entries in their former order. -/
theorem addEntry_ok {c : Cache V} (hc : c.Inv) (key : String) (value : V) :
    ∃ c1, c.addEntry key value = .ok c1 ∧ c1.Inv ∧
      c1.entries = { key := key, value := value } ::
        c.entries.filter (fun x => decide (x.key ≠ key)) ∧
      c1.maxBytes = c.maxBytes ∧ c1.OnEvicted = c.OnEvicted ∧ c1.calls = c.calls := by
  by_cases h : ∃ e ∈ c.entries, e.key = key
  · obtain ⟨e, he, rfl⟩ := h
    obtain ⟨c1, h1, h2, h3, -, h5, h6, h7⟩ := addEntry_hit hc he value
    exact ⟨c1, h1, h2, h3, h5, h6, h7⟩
  · have h2 : ∀ e ∈ c.entries, e.key ≠ key := fun e he hk => h ⟨e, he, hk⟩
    obtain ⟨c1, h1, hinv, h3, -, h5, h6, h7⟩ := addEntry_miss hc h2 value
    refine ⟨c1, h1, hinv, ?_, h5, h6, h7⟩
    rw [h3, List.filter_eq_self.mpr (fun e he => by simpa using h2 e he)]

end lru

namespace lru

variable {V : Type} [Value V]

theorem eq_nil_or_snoc {α : Type} (l : List α) : l = [] ∨ ∃ es e, l = es ++ [e] := by
  rcases List.eq_nil_or_concat l with h | ⟨es, e, h⟩
  · exact Or.inl h
  · exact Or.inr ⟨es, e, by rw [h, List.concat_eq_append]⟩

theorem evictLoop_done (fuel : Nat) (c : Cache V)
    (hcond : ¬ (c.maxBytes ≠ 0 ∧ c.maxBytes < c.nbytes)) : c.evictLoop fuel = .ok c := by
  cases fuel with
  | zero => simp only [Cache.evictLoop]; rw [if_neg hcond]
  | succ fuel => simp only [Cache.evictLoop]; rw [if_neg hcond]

theorem evictLoop_zero (c : Cache V)
    (hcond : c.maxBytes ≠ 0 ∧ c.maxBytes < c.nbytes) :
    c.evictLoop 0 = .error .outOfFuel := by
  simp only [Cache.evictLoop]; rw [if_pos hcond]

theorem evictLoop_succ (fuel : Nat) (c : Cache V)
    (hcond : c.maxBytes ≠ 0 ∧ c.maxBytes < c.nbytes) :
    c.evictLoop (fuel + 1) =
      match c.RemoveOldest with
      | .ok c1 => c1.evictLoop fuel
      | .error e => .error e := by
  simp only [Cache.evictLoop]; rw [if_pos hcond]

/-- More fuel does not change the result of a loop that has finished. -/
theorem evictLoop_mono (fuel k : Nat) (c c1 : Cache V)
    (h : c.evictLoop fuel = .ok c1) : c.evictLoop (fuel + k) = .ok c1 := by
  induction fuel generalizing c with
  | zero =>
    by_cases hcond : c.maxBytes ≠ 0 ∧ c.maxBytes < c.nbytes
    · rw [evictLoop_zero c hcond] at h
      cases h
    · rw [evictLoop_done _ c hcond] at h ⊢
      exact h
  | succ fuel ih =>
    rw [Nat.add_right_comm]
    by_cases hcond : c.maxBytes ≠ 0 ∧ c.maxBytes < c.nbytes
    · rw [evictLoop_succ _ c hcond] at h ⊢
      cases hr : c.RemoveOldest with
      | error e => simp [hr] at h
      | ok c2 =>
        simp only [hr] at h ⊢
        exact ih c2 h
    · rw [evictLoop_done _ c hcond] at h ⊢
      exact h

/-- What the eviction loop has done when it returns: it evicted a run `ev` of entries
from the back of the list (`ev` lists them in the order of eviction), charged their
sizes, reported them to the callback, and before each eviction the budget was
exceeded by the counter of that moment. -/
theorem evictLoop_spec (fuel : Nat) (c c1 : Cache V) (hc : c.Inv)
    (h : c.evictLoop fuel = .ok c1) :
    ∃ ev : List (entry V), c.entries = c1.entries ++ ev.reverse ∧ c1.Inv ∧
      c1.nbytes = int64 (c.nbytes - (ev.map entrySize).sum) ∧
      c1.calls = c.calls ++ (if c.OnEvicted then ev.map (fun e => (e.key, e.value)) else []) ∧
      c1.maxBytes = c.maxBytes ∧ c1.OnEvicted = c.OnEvicted ∧
      ¬ (c1.maxBytes ≠ 0 ∧ c1.maxBytes < c1.nbytes) ∧
      ∀ m, m < ev.length →
        c.maxBytes ≠ 0 ∧
          c.maxBytes < int64 (c.nbytes - ((ev.take m).map entrySize).sum) := by
  induction fuel generalizing c with
  | zero =>
    have hcond : ¬ (c.maxBytes ≠ 0 ∧ c.maxBytes < c.nbytes) := by
      intro hcond
      rw [evictLoop_zero c hcond] at h
      cases h
    have hc1 : c1 = c := by
      rw [evictLoop_done _ c hcond] at h
      cases h
      rfl
    subst hc1
    exact ⟨[], by simp, hc, by simp [hc.nbytes_int64], by simp, rfl, rfl, hcond, by simp⟩
  | succ fuel ih =>
    by_cases hcond : c.maxBytes ≠ 0 ∧ c.maxBytes < c.nbytes
    · rw [evictLoop_succ _ c hcond] at h
      rcases eq_nil_or_snoc c.entries with hnil | ⟨es, e, hes⟩
      · rw [RemoveOldest_empty hc hnil] at h
        exact ih c hc h
      · obtain ⟨c2, hr, hc2, hent, hnb, hmb, hcb, hcalls, -⟩ := RemoveOldest_last hc hes
        rw [hr] at h
        obtain ⟨ev, h1, h2, h3, h4, h5, h6, h7, h8⟩ := ih c2 hc2 h
        refine ⟨e :: ev, ?_, h2, ?_, ?_, h5.trans hmb, h6.trans hcb, h7, ?_⟩
        · rw [hes, ← hent, h1]; simp
        · rw [h3, hnb, int64_int64_sub]
          simp only [List.map_cons, List.sum_cons]
          congr 1
          ring
        · rw [h4, hcalls, hcb]
          cases c.OnEvicted <;> simp
        · intro m hm
          cases m with
          | zero => simpa [hc.nbytes_int64] using hcond
          | succ m =>
            have := h8 m (by simpa using hm)
            rw [hmb, hnb, int64_int64_sub] at this
            refine ⟨this.1, ?_⟩
            simp only [List.take_succ_cons, List.map_cons, List.sum_cons]
            have h9 := this.2
            have h10 : c.nbytes - entrySize e - (List.map entrySize (List.take m ev)).sum =
                c.nbytes - (entrySize e + (List.map entrySize (List.take m ev)).sum) := by
              ring
            rw [h10] at h9
            exact h9
    · have hc1 : c1 = c := by
        rw [evictLoop_done _ c hcond] at h
        cases h
        rfl
      subst hc1
      exact ⟨[], by simp, hc, by simp [hc.nbytes_int64], by simp, rfl, rfl, hcond, by simp⟩

/-- With a budget that is not negative the eviction loop returns after at most as many
iterations as the store has entries. -/
theorem evictLoop_terminates (fuel : Nat) (c : Cache V) (hc : c.Inv)
    (hmb : 0 ≤ c.maxBytes) (hfuel : c.entries.length ≤ fuel) :
    ∃ c1, c.evictLoop fuel = .ok c1 := by
  induction fuel generalizing c with
  | zero =>
    have hnil : c.entries = [] := List.length_eq_zero.mp (Nat.le_zero.mp hfuel)
    have hnb : c.nbytes = 0 := by rw [hc.bytes, hnil]; rfl
    have hcond : ¬ (c.maxBytes ≠ 0 ∧ c.maxBytes < c.nbytes) := by
      rintro ⟨-, h2⟩; omega
    exact ⟨c, evictLoop_done _ c hcond⟩
  | succ fuel ih =>
    by_cases hcond : c.maxBytes ≠ 0 ∧ c.maxBytes < c.nbytes
    · rcases eq_nil_or_snoc c.entries with hnil | ⟨es, e, hes⟩
      · have hnb : c.nbytes = 0 := by rw [hc.bytes, hnil]; rfl
        omega
      · obtain ⟨c2, hr, hc2, hent, -, hmb2, -, -, -⟩ := RemoveOldest_last hc hes
        have hlen : c2.entries.length ≤ fuel := by
          rw [hent]
          rw [hes] at hfuel
          simp at hfuel
          omega
        obtain ⟨c3, h3⟩ := ih c2 hc2 (hmb2 ▸ hmb) hlen
        exact ⟨c3, by rw [evictLoop_succ _ c hcond, hr]; exact h3⟩
    · exact ⟨c, evictLoop_done _ c hcond⟩

/-- An unlimited store (`maxBytes == 0`) never enters the eviction loop. -/
theorem evictLoop_unlimited (fuel : Nat) (c : Cache V) (hmb : c.maxBytes = 0) :
    c.evictLoop fuel = .ok c :=
  evictLoop_done fuel c (fun h => h.1 hmb)

/-- Every call that returns keeps the invariant. -/
theorem step_Inv (fuel : Nat) (c c1 : Cache V) (op : Op V) (hc : c.Inv)
    (h : c.step fuel op = .ok c1) : c1.Inv := by
  cases op with
  | get key =>
    by_cases hk : ∃ e ∈ c.entries, e.key = key
    · obtain ⟨e, he, rfl⟩ := hk
      obtain ⟨c2, hg, hc2, -⟩ := Get_hit hc he
      simp only [Cache.step, hg, Except.ok.injEq] at h
      exact h ▸ hc2
    · have hg := Get_miss hc (fun e he hke => hk ⟨e, he, hke⟩)
      simp only [Cache.step, hg, Except.ok.injEq] at h
      exact h ▸ hc
  | add key value =>
    obtain ⟨c2, ha, hc2, -⟩ := addEntry_ok hc key value
    simp only [Cache.step, Cache.Add, ha] at h
    obtain ⟨ev, -, hc3, -⟩ := evictLoop_spec fuel c2 c1 hc2 h
    exact hc3
  | removeOldest =>
    simp only [Cache.step] at h
    rcases eq_nil_or_snoc c.entries with hnil | ⟨es, e, hes⟩
    · rw [RemoveOldest_empty hc hnil] at h
      cases h
      exact hc
    · obtain ⟨c2, hr, hc2, -⟩ := RemoveOldest_last hc hes
      rw [hr] at h
      cases h
      exact hc2

/-- Every store reached from `New` by calls of `Get`, `Add` and `RemoveOldest`
satisfies the invariant. -/
theorem run_Inv (fuel : Nat) (ops : List (Op V)) (c c1 : Cache V) (hc : c.Inv)
    (h : c.run fuel ops = .ok c1) : c1.Inv := by
  induction ops generalizing c with
  | nil =>
    simp only [Cache.run, Except.ok.injEq] at h
    exact h ▸ hc
  | cons op ops ih =>
    cases hs : c.step fuel op with
    | error e => simp [Cache.run, hs] at h
    | ok c2 =>
      simp only [Cache.run, hs] at h
      exact ih c2 (step_Inv fuel c c2 op hc hs) h

theorem step_maxBytes (fuel : Nat) (c c1 : Cache V) (op : Op V) (hc : c.Inv)
    (h : c.step fuel op = .ok c1) : c1.maxBytes = c.maxBytes := by
  cases op with
  | get key =>
    by_cases hk : ∃ e ∈ c.entries, e.key = key
    · obtain ⟨e, he, rfl⟩ := hk
      obtain ⟨c2, hg, -, -, -, hmb, -⟩ := Get_hit hc he
      simp only [Cache.step, hg, Except.ok.injEq] at h
      exact h ▸ hmb
    · have hg := Get_miss hc (fun e he hke => hk ⟨e, he, hke⟩)
      simp only [Cache.step, hg, Except.ok.injEq] at h
      exact h ▸ rfl
  | add key value =>
    obtain ⟨c2, ha, hc2, -, hmb, -⟩ := addEntry_ok hc key value
    simp only [Cache.step, Cache.Add, ha] at h
    obtain ⟨ev, -, -, -, -, hmb2, -⟩ := evictLoop_spec fuel c2 c1 hc2 h
    exact hmb2.trans hmb
  | removeOldest =>
    simp only [Cache.step] at h
    rcases eq_nil_or_snoc c.entries with hnil | ⟨es, e, hes⟩
    · rw [RemoveOldest_empty hc hnil] at h
      cases h
      rfl
    · obtain ⟨c2, hr, -, -, -, hmb, -⟩ := RemoveOldest_last hc hes
      rw [hr] at h
      cases h
      exact hmb

/-- More fuel does not change a sequence of calls that has returned: the fuel only
bounds the eviction loops. -/
theorem run_mono (fuel k : Nat) (ops : List (Op V)) (c c1 : Cache V)
    (h : c.run fuel ops = .ok c1) : c.run (fuel + k) ops = .ok c1 := by
  induction ops generalizing c with
  | nil => exact h
  | cons op ops ih =>
    cases hs : c.step fuel op with
    | error e => simp [Cache.run, hs] at h
    | ok c2 =>
      simp only [Cache.run, hs] at h
      have hs2 : c.step (fuel + k) op = .ok c2 := by
        cases op with
        | get key => exact hs
        | removeOldest => exact hs
        | add key value =>
          simp only [Cache.step, Cache.Add] at hs ⊢
          cases ha : c.addEntry key value with
          | error e => simp [ha] at hs
          | ok c3 =>
            simp only [ha] at hs ⊢
            exact evictLoop_mono fuel k c3 c2 hs
      simp only [Cache.run, hs2]
      exact ih c2 h

end lru

namespace lru

variable {V : Type} [Value V]

omit [Value V] in
theorem lastAdded_snoc (key : String) (ops : List (Op V)) (op : Op V) :
    lastAdded key (ops ++ [op]) =
      match op with
      | .add k v => if k = key then some v else lastAdded key ops
      | _ => lastAdded key ops := by
  cases op with
  | get k =>
    show lastAdded key (ops ++ [Op.get k]) = lastAdded key ops
    induction ops with
    | nil => simp [lastAdded]
    | cons o ops ih => cases o <;> simp [lastAdded, ih]
  | removeOldest =>
    show lastAdded key (ops ++ [Op.removeOldest]) = lastAdded key ops
    induction ops with
    | nil => simp [lastAdded]
    | cons o ops ih => cases o <;> simp [lastAdded, ih]
  | add k v =>
    show lastAdded key (ops ++ [Op.add k v]) = if k = key then some v else lastAdded key ops
    induction ops with
    | nil => simp [lastAdded]
    | cons o ops ih =>
      cases o with
      | get k2 => simpa [lastAdded] using ih
      | removeOldest => simpa [lastAdded] using ih
      | add k2 v2 =>
        rw [List.cons_append, lastAdded, ih]
        by_cases hk : k = key
        · simp [hk]
        · simp only [hk, if_false, lastAdded]

/-- A call keeps the live entries among the former ones, except for the entry that an
`Add` writes. -/
theorem step_entries (fuel : Nat) (c c1 : Cache V) (op : Op V) (hc : c.Inv)
    (h : c.step fuel op = .ok c1) :
    ∀ e ∈ c1.entries,
      match op with
      | .add k v => (e.key = k ∧ e.value = v) ∨ (e.key ≠ k ∧ e ∈ c.entries)
      | _ => e ∈ c.entries := by
  intro e he
  cases op with
  | get key =>
    by_cases hk : ∃ e ∈ c.entries, e.key = key
    · obtain ⟨e2, he2, rfl⟩ := hk
      obtain ⟨c2, hg, -, hent, -⟩ := Get_hit hc he2
      simp only [Cache.step, hg, Except.ok.injEq] at h
      subst h
      rw [hent] at he
      rcases List.mem_cons.mp he with h1 | h1
      · exact h1 ▸ he2
      · exact (List.mem_filter.mp h1).1
    · have hg := Get_miss hc (fun e he hke => hk ⟨e, he, hke⟩)
      simp only [Cache.step, hg, Except.ok.injEq] at h
      subst h
      exact he
  | add key value =>
    obtain ⟨c2, ha, hc2, hent, -⟩ := addEntry_ok hc key value
    simp only [Cache.step, Cache.Add, ha] at h
    obtain ⟨ev, hev, -⟩ := evictLoop_spec fuel c2 c1 hc2 h
    have he2 : e ∈ c2.entries := by rw [hev]; exact List.mem_append_left _ he
    rw [hent] at he2
    rcases List.mem_cons.mp he2 with h1 | h1
    · left; rw [h1]; exact ⟨rfl, rfl⟩
    · right
      obtain ⟨h2, h3⟩ := List.mem_filter.mp h1
      exact ⟨by simpa using h3, h2⟩
  | removeOldest =>
    simp only [Cache.step] at h
    rcases eq_nil_or_snoc c.entries with hnil | ⟨es, e2, hes⟩
    · rw [RemoveOldest_empty hc hnil] at h
      cases h
      exact he
    · obtain ⟨c2, hr, -, hent, -⟩ := RemoveOldest_last hc hes
      rw [hr] at h
      cases h
      show e ∈ c.entries
      rw [hes]
      exact List.mem_append_left _ (hent ▸ he)

/-- Every live entry holds the value most recently passed to `Add` for its key. -/
theorem run_lastAdded (fuel : Nat) (ops hist : List (Op V)) (c c1 : Cache V) (hc : c.Inv)
    (hh : ∀ e ∈ c.entries, lastAdded e.key hist = some e.value)
    (h : c.run fuel ops = .ok c1) :
    ∀ e ∈ c1.entries, lastAdded e.key (hist ++ ops) = some e.value := by
  induction ops generalizing c hist with
  | nil =>
    simp only [Cache.run, Except.ok.injEq] at h
    subst h
    simpa using hh
  | cons op ops ih =>
    cases hs : c.step fuel op with
    | error e => simp [Cache.run, hs] at h
    | ok c2 =>
      simp only [Cache.run, hs] at h
      have hstep := step_entries fuel c c2 op hc hs
      have := ih (hist ++ [op]) c2 (step_Inv fuel c c2 op hc hs) (by
        intro e he
        rw [lastAdded_snoc]
        have h1 := hstep e he
        cases op with
        | get k => exact hh e h1
        | removeOldest => exact hh e h1
        | add k v =>
          rcases h1 with ⟨h2, h3⟩ | ⟨h2, h3⟩
          · simp [h2, h3]
          · have : ¬ k = e.key := fun h => h2 h.symm
            simp only [this, if_false]
            exact hh e h3) h
      simpa using this

end lru

namespace lru

variable {V : Type} [Value V]

/-- With a budget that is not negative `Add` returns: its head succeeds and its loop
ends within as many iterations as the store then has entries. -/
theorem Add_returns {c : Cache V} (hc : c.Inv) (hmb : 0 ≤ c.maxBytes) (key : String)
    (value : V) :
    ∃ c1 c2, c.addEntry key value = .ok c1 ∧ c1.Inv ∧
      c1.entries = { key := key, value := value } ::
        c.entries.filter (fun x => decide (x.key ≠ key)) ∧
      c1.maxBytes = c.maxBytes ∧ c1.OnEvicted = c.OnEvicted ∧ c1.calls = c.calls ∧
      ∀ n, c.ll.length + 1 ≤ n → c1.evictLoop n = .ok c2 ∧ c.Add n key value = .ok c2 := by
  obtain ⟨c1, h1, hc1, hent, hmb1, hcb1, hcalls1⟩ := addEntry_ok hc key value
  obtain ⟨c2, h2⟩ := evictLoop_terminates c1.entries.length c1 hc1 (hmb1 ▸ hmb) le_rfl
  refine ⟨c1, c2, h1, hc1, hent, hmb1, hcb1, hcalls1, ?_⟩
  intro n hn
  have hlen : c1.entries.length ≤ n := by
    rw [hent, List.length_cons]
    have := List.length_filter_le (fun x : entry V => decide (x.key ≠ key)) c.entries
    rw [hc.length_entries] at this
    omega
  obtain ⟨k, rfl⟩ := Nat.exists_eq_add_of_le hlen
  have h3 := evictLoop_mono _ k c1 c2 h2
  exact ⟨h3, by simp only [Cache.Add, h1, h3]⟩

/-- C3, as the code has it: in every store reached from `New(maxBytes, onEvicted)` by a
sequence of `Get`, `Add` and `RemoveOldest` calls, `nbytes` equals the sum of
`len(key) + value.Len()` over the entries that are live in the store as `int64`
arithmetic gives it, that is, reduced modulo `2^64` into `[-2^63, 2^63)`; it equals
that sum itself whenever the sum is a 64-bit number. -/
theorem nbytes_eq_int64_sum_of_live_entries (fuel : Nat) (maxBytes : Int)
    (onEvicted : Bool) (ops : List (Op V)) (c : Cache V)
    (h : (New maxBytes onEvicted : Cache V).run fuel ops = .ok c) :
    c.nbytes = int64 (c.entries.map (fun e => strLen e.key + Value.Len e.value)).sum ∧
    (-9223372036854775808 ≤ (c.entries.map (fun e => strLen e.key + Value.Len e.value)).sum ∧
        (c.entries.map (fun e => strLen e.key + Value.Len e.value)).sum <
          9223372036854775808 →
      c.nbytes = (c.entries.map (fun e => strLen e.key + Value.Len e.value)).sum) := by
  have hb := (run_Inv fuel ops _ c (Inv_New maxBytes onEvicted) h).bytes
  refine ⟨hb, fun hr => ?_⟩
  rw [hb]
  exact int64_of_range _ hr

/-- C3 at the store left by `opsABC`, where the sum is 6, and at the store left by
`Add("a", maxSized)`, where the sum `2^63` has wrapped around. -/
theorem nbytes_eq_int64_sum_of_live_entries_witness :
    ((New 6 true : Cache String).run 1 opsABC = .ok storeABC ∧
      (storeABC.entries.map (fun e => strLen e.key + Value.Len e.value)).sum = 6 ∧
      storeABC.nbytes = 6) ∧
    (storeABC.nbytes =
        int64 (storeABC.entries.map (fun e => strLen e.key + Value.Len e.value)).sum ∧
      (-9223372036854775808 ≤
          (storeABC.entries.map (fun e => strLen e.key + Value.Len e.value)).sum ∧
          (storeABC.entries.map (fun e => strLen e.key + Value.Len e.value)).sum <
            9223372036854775808 →
        storeABC.nbytes =
          (storeABC.entries.map (fun e => strLen e.key + Value.Len e.value)).sum)) ∧
    ((New 0 false : Cache sized).run 0 [.add "a" maxSized] = .ok storeWrapped ∧
      storeWrapped.nbytes =
        int64 (storeWrapped.entries.map (fun e => strLen e.key + Value.Len e.value)).sum) :=
  ⟨⟨by decide, by decide, by decide⟩,
    nbytes_eq_int64_sum_of_live_entries 1 6 true opsABC storeABC (by decide),
    by decide,
    (nbytes_eq_int64_sum_of_live_entries 0 0 false [.add "a" maxSized] storeWrapped
      (by decide)).1⟩

/-- C3 as stated fails: on the new store without budget, `Add("a", v)` with
`v.Len() = math.MaxInt64` leaves one live entry of `1 + (2^63 - 1) = 2^63` bytes, while
`nbytes` is `math.MinInt64 = -2^63`. -/
theorem nbytes_differs_from_sum_of_live_entries :
    (New 0 false : Cache sized).run 0 [.add "a" maxSized] = .ok storeWrapped ∧
    storeWrapped.entries = [{ key := "a", value := maxSized }] ∧
    (storeWrapped.entries.map (fun e => strLen e.key + Value.Len e.value)).sum =
      9223372036854775808 ∧
    storeWrapped.nbytes = -9223372036854775808 ∧
    storeWrapped.nbytes ≠
      (storeWrapped.entries.map (fun e => strLen e.key + Value.Len e.value)).sum :=
  ⟨by decide, by decide, by decide, by decide, by decide⟩

/-- C4: let a store be reached from `New` by `Get`, `Add` and `RemoveOldest` calls.  If
its `maxBytes` is positive, `Add(key, value)` returns (its loop needs at most
`Len() + 1` iterations) and `nbytes <= maxBytes` holds in the store it leaves.  If its
`maxBytes` is zero, `Add(key, value)` returns what its head produces, without any
eviction: the entry of `key` is at the front, all other entries are kept in their
order and the callback is not called. -/
theorem Add_restores_budget (fuel : Nat) (maxBytes : Int) (onEvicted : Bool)
    (ops : List (Op V)) (c : Cache V) (key : String) (value : V)
    (h : (New maxBytes onEvicted : Cache V).run fuel ops = .ok c) :
    (0 < c.maxBytes → ∃ c2, (∀ n, c.ll.length + 1 ≤ n → c.Add n key value = .ok c2) ∧
      c2.nbytes ≤ c2.maxBytes) ∧
    (c.maxBytes = 0 → ∃ c2, (∀ n, c.Add n key value = .ok c2) ∧
      c.addEntry key value = .ok c2 ∧
      c2.entries = { key := key, value := value } ::
        c.entries.filter (fun x => decide (x.key ≠ key)) ∧
      c2.calls = c.calls) := by
  have hc := run_Inv fuel ops _ c (Inv_New maxBytes onEvicted) h
  constructor
  · intro hmb
    obtain ⟨c1, c2, -, hc1, -, hmb1, -, -, hn⟩ := Add_returns hc (le_of_lt hmb) key value
    refine ⟨c2, fun n hle => (hn n hle).2, ?_⟩
    obtain ⟨ev, -, -, -, -, hmb2, -, hdone, -⟩ :=
      evictLoop_spec _ c1 c2 hc1 (hn _ le_rfl).1
    have hpos : c2.maxBytes ≠ 0 := by rw [hmb2, hmb1]; omega
    by_contra hlt
    exact hdone ⟨hpos, not_le.mp hlt⟩
  · intro hmb
    obtain ⟨c1, h1, -, hent, hmb1, -, hcalls⟩ := addEntry_ok hc key value
    have h2 : ∀ n, c1.evictLoop n = .ok c1 :=
      fun n => evictLoop_unlimited n c1 (hmb1.trans hmb)
    exact ⟨c1, fun n => by simp only [Cache.Add, h1, h2], h1, hent, hcalls⟩

/-- C4 at a budget of ten bytes (two entries of four bytes, then one of ten, which
evicts the two) and at a store without budget; and, with a budget of ten bytes,
`Add("a", v)` with `v.Len() = math.MaxInt64`, where `nbytes` wraps around to
`math.MinInt64`, which is not above the budget, so that the entry is kept and the
callback not called. -/
theorem Add_restores_budget_witness :
    ((New 10 true : Cache String).run 0 [.add "k1" "12", .add "k2" "34"] = .ok storeK12 ∧
      0 < storeK12.maxBytes ∧
      ∃ c2, (∀ n, storeK12.ll.length + 1 ≤ n → storeK12.Add n "k3" "56789012" = .ok c2) ∧
        c2.nbytes ≤ c2.maxBytes) ∧
    ((New 0 false : Cache String).run 0 [.add "k" "abc"] = .ok storeK ∧
      storeK.maxBytes = 0 ∧
      ∃ c2, (∀ n, storeK.Add n "j" "0123456789" = .ok c2) ∧
        storeK.addEntry "j" "0123456789" = .ok c2 ∧
        c2.entries = { key := "j", value := "0123456789" } ::
          storeK.entries.filter (fun x => decide (x.key ≠ "j")) ∧
        c2.calls = storeK.calls) ∧
    (storeK12.Add 3 "k3" "56789012").map (fun c => (c.entries, c.nbytes, c.calls)) =
      .ok ([{ key := "k3", value := "56789012" }], 10, [("k1", "12"), ("k2", "34")]) ∧
    (storeK.Add 0 "j" "0123456789").map (fun c => (c.entries, c.nbytes, c.calls)) =
      .ok ([{ key := "j", value := "0123456789" }, { key := "k", value := "abc" }], 15,
        []) ∧
    ((New 10 true : Cache sized).Add 1 "a" maxSized).map
        (fun c => (c.entries, c.nbytes, c.calls)) =
      .ok ([{ key := "a", value := maxSized }], -9223372036854775808, []) :=
  ⟨⟨by decide, by decide,
      (Add_restores_budget 0 10 true [.add "k1" "12", .add "k2" "34"] storeK12
        "k3" "56789012" (by decide)).1 (by decide)⟩,
    ⟨by decide, by decide,
      (Add_restores_budget 0 0 false [.add "k" "abc"] storeK
        "j" "0123456789" (by decide)).2 (by decide)⟩,
    by decide, by decide, by decide⟩

end lru

namespace lru

variable {V : Type} [Value V]

/-- The live entries have pairwise different keys. -/
theorem Cache.Inv.keys_nodup {c : Cache V} (hc : c.Inv) :
    (c.entries.map (fun e => e.key)).Nodup := by
  have h : ∀ l : List Nat, l.Nodup →
      (∀ a ∈ l, ∃ e, mapFind c.elems a = some e ∧ mapFind c.cache e.key = some a) →
      ((l.filterMap (mapFind c.elems)).map (fun e => e.key)).Nodup := by
    intro l
    induction l with
    | nil => intro _ _; exact List.nodup_nil
    | cons a l ih =>
      intro hnd hl
      obtain ⟨e, he, hce⟩ := hl a (List.mem_cons_self _ _)
      obtain ⟨hal, hnd2⟩ := List.nodup_cons.mp hnd
      rw [List.filterMap_cons_some he, List.map_cons]
      refine List.nodup_cons.mpr ⟨?_, ih hnd2 (fun x hx => hl x (List.mem_cons_of_mem _ hx))⟩
      intro hmem
      obtain ⟨e2, he2, hk⟩ := List.mem_map.mp hmem
      obtain ⟨a2, ha2, hae2⟩ := List.mem_filterMap.mp he2
      obtain ⟨e3, h3, hc3⟩ := hl a2 (List.mem_cons_of_mem _ ha2)
      rw [hae2] at h3
      cases h3
      have hk2 : e2.key = e.key := hk
      rw [hk2, hce] at hc3
      cases hc3
      exact hal ha2
  exact h c.ll hc.nodup hc.linked

/-- C5: let a store with positive `maxBytes` be reached from `New` by `Get`, `Add` and
`RemoveOldest` calls.  `Add(key, value)` first puts the entry of `key` at the front of
the recency order; it then returns a store from which exactly a run `ev` of entries
has been taken from the least recently used end of that order (`ev` lists them least
recently used first), each eviction subtracting the size of its entry from `nbytes` in
`int64` arithmetic.  The run is the shortest that brings `nbytes` to at most
`maxBytes`: afterwards `nbytes <= maxBytes`, and after each shorter run `nbytes` still
exceeded `maxBytes`.  The callback, if set, has been called once for each entry of
`ev`, in that order, with its key and value, and no entry that stays has the key of an
evicted one. -/
theorem Add_evicts_shortest_lru_run (fuel : Nat) (maxBytes : Int) (onEvicted : Bool)
    (ops : List (Op V)) (c : Cache V) (key : String) (value : V)
    (h : (New maxBytes onEvicted : Cache V).run fuel ops = .ok c)
    (hmb : 0 < c.maxBytes) :
    ∃ (c1 c2 : Cache V) (ev : List (entry V)),
      c.addEntry key value = .ok c1 ∧
      c1.entries = { key := key, value := value } ::
        c.entries.filter (fun x => decide (x.key ≠ key)) ∧
      (∀ n, c.ll.length + 1 ≤ n → c.Add n key value = .ok c2) ∧
      c1.entries = c2.entries ++ ev.reverse ∧
      c2.nbytes = int64 (c1.nbytes - (ev.map entrySize).sum) ∧
      c2.nbytes ≤ c2.maxBytes ∧
      (∀ m, m < ev.length →
        c.maxBytes < int64 (c1.nbytes - ((ev.take m).map entrySize).sum)) ∧
      c2.calls = c.calls ++
        (if c.OnEvicted then ev.map (fun e => (e.key, e.value)) else []) ∧
      (∀ e ∈ c2.entries, ∀ x ∈ ev, x.key ≠ e.key) := by
  have hc := run_Inv fuel ops _ c (Inv_New maxBytes onEvicted) h
  obtain ⟨c1, c2, h1, hc1, hent, hmb1, hcb1, hcalls1, hn⟩ :=
    Add_returns hc (le_of_lt hmb) key value
  obtain ⟨ev, hev, -, hnb, hcalls, hmb2, -, hdone, hshort⟩ :=
    evictLoop_spec _ c1 c2 hc1 (hn _ le_rfl).1
  refine ⟨c1, c2, ev, h1, hent, fun n hle => (hn n hle).2, hev, hnb, ?_, ?_, ?_, ?_⟩
  · have hpos : c2.maxBytes ≠ 0 := by rw [hmb2, hmb1]; omega
    by_contra hlt
    exact hdone ⟨hpos, not_le.mp hlt⟩
  · intro m hm
    have := (hshort m hm).2
    rwa [hmb1] at this
  · rw [hcalls, hcalls1, hcb1]
  · intro e he x hx hk
    have hnd := hc1.keys_nodup
    rw [hev, List.map_append] at hnd
    have hdis := (List.nodup_append.mp hnd).2.2
    exact hdis (List.mem_map.mpr ⟨e, he, rfl⟩)
      (List.mem_map.mpr ⟨x, List.mem_reverse.mpr hx, hk⟩)

/-- C5 after `Add a`, `Add b`, `Add c`, `Get a` with a budget of six bytes: `Add d`
evicts `b` and nothing else, and calls the callback once, with `b`.  On the new store
with a budget of ten bytes, `Add("a", v)` with `v.Len() = math.MaxInt64` evicts nothing
and calls nothing: `nbytes` has wrapped around to `math.MinInt64`. -/
theorem Add_evicts_shortest_lru_run_witness :
    ((New 6 true : Cache String).run 1 opsABC = .ok storeABC ∧ 0 < storeABC.maxBytes) ∧
    ((storeABC.Add 4 "d" "1").map (fun c => (c.entries, c.calls, c.nbytes)) =
      .ok ([{ key := "d", value := "1" }, { key := "a", value := "1" },
        { key := "c", value := "1" }], [("b", "1")], 6)) ∧
    (∃ (c1 c2 : Cache String) (ev : List (entry String)),
      storeABC.addEntry "d" "1" = .ok c1 ∧
      c1.entries = { key := "d", value := "1" } ::
        storeABC.entries.filter (fun x => decide (x.key ≠ "d")) ∧
      (∀ n, storeABC.ll.length + 1 ≤ n → storeABC.Add n "d" "1" = .ok c2) ∧
      c1.entries = c2.entries ++ ev.reverse ∧
      c2.nbytes = int64 (c1.nbytes - (ev.map entrySize).sum) ∧
      c2.nbytes ≤ c2.maxBytes ∧
      (∀ m, m < ev.length →
        storeABC.maxBytes < int64 (c1.nbytes - ((ev.take m).map entrySize).sum)) ∧
      c2.calls = storeABC.calls ++
        (if storeABC.OnEvicted then ev.map (fun e => (e.key, e.value)) else []) ∧
      (∀ e ∈ c2.entries, ∀ x ∈ ev, x.key ≠ e.key)) ∧
    ((New 10 true : Cache sized).Add 1 "a" maxSized).map
        (fun c => (c.entries, c.calls, c.nbytes)) =
      .ok ([{ key := "a", value := maxSized }], [], -9223372036854775808) :=
  ⟨⟨by decide, by decide⟩, by decide,
    Add_evicts_shortest_lru_run 1 6 true opsABC storeABC "d" "1" (by decide) (by decide),
    by decide⟩

/-- C6: let a store be reached from `New` by the calls `ops`.  `Get(key)` returns; if
`key` has a live entry it returns `found = true` with a value, which is the value most
recently passed to `Add` for `key`; if `key` has no live entry it returns the nil value
with `found = false` and leaves the store as it was, recency order included.  In both
cases the live entries after the call are a rearrangement of those before, and `Len()`
and `nbytes` are unchanged. -/
theorem Get_finds_exactly_live_keys (fuel : Nat) (maxBytes : Int) (onEvicted : Bool)
    (ops : List (Op V)) (c : Cache V) (key : String)
    (h : (New maxBytes onEvicted : Cache V).run fuel ops = .ok c) :
    ∃ (r : Option V × Bool) (c1 : Cache V), c.Get key = .ok (r, c1) ∧
      ((∃ e ∈ c.entries, e.key = key) →
        ∃ v, r = (some v, true) ∧ lastAdded key ops = some v) ∧
      ((∀ e ∈ c.entries, e.key ≠ key) → r = (none, false) ∧ c1 = c) ∧
      c1.entries.Perm c.entries ∧ c1.Len = c.Len ∧ c1.nbytes = c.nbytes := by
  have hc := run_Inv fuel ops _ c (Inv_New maxBytes onEvicted) h
  by_cases hk : ∃ e ∈ c.entries, e.key = key
  · obtain ⟨e, he, rfl⟩ := hk
    obtain ⟨c1, hg, hc1, hent, hnb, -⟩ := Get_hit hc he
    have hperm : c1.entries.Perm c.entries := by
      rw [hent]; exact (hc.entries_split he).symm
    have hlast := run_lastAdded fuel ops [] _ c (Inv_New maxBytes onEvicted)
      (by intro x hx; simp [New, Cache.entries] at hx) h e he
    refine ⟨(some e.value, true), c1, hg, fun _ => ⟨e.value, rfl, by simpa using hlast⟩,
      fun hno => absurd rfl (hno e he), hperm, ?_, hnb⟩
    have := hperm.length_eq
    rw [hc1.length_entries, hc.length_entries] at this
    simp [Cache.Len, this]
  · have hno : ∀ e ∈ c.entries, e.key ≠ key := fun e he hke => hk ⟨e, he, hke⟩
    exact ⟨(none, false), c, Get_miss hc hno, fun hyes => absurd hyes hk,
      fun _ => ⟨rfl, rfl⟩, List.Perm.refl _, rfl, rfl⟩

/-- C6 at the store left by `opsABC`: `Get("b")` is a hit, `Get("z")` a miss. -/
theorem Get_finds_exactly_live_keys_witness :
    (New 6 true : Cache String).run 1 opsABC = .ok storeABC ∧
    (∃ e ∈ storeABC.entries, e.key = "b") ∧ (∀ e ∈ storeABC.entries, e.key ≠ "z") ∧
    (∃ (r : Option String × Bool) (c1 : Cache String), storeABC.Get "b" = .ok (r, c1) ∧
      ((∃ e ∈ storeABC.entries, e.key = "b") →
        ∃ v, r = (some v, true) ∧ lastAdded "b" opsABC = some v) ∧
      ((∀ e ∈ storeABC.entries, e.key ≠ "b") → r = (none, false) ∧ c1 = storeABC) ∧
      c1.entries.Perm storeABC.entries ∧ c1.Len = storeABC.Len ∧
      c1.nbytes = storeABC.nbytes) ∧
    (storeABC.Get "b").map Prod.fst = .ok (some "1", true) ∧
    (storeABC.Get "z") = .ok ((none, false), storeABC) :=
  ⟨by decide, by decide, by decide,
    Get_finds_exactly_live_keys 1 6 true opsABC storeABC "b" (by decide),
    by decide, by decide⟩

/-- C7, as the code has it: let a store be reached from `New` by `Get`, `Add` and
`RemoveOldest` calls, let `key` be live with value `v1`, and let `v2` be a value with
which no eviction is due (`maxBytes == 0`, or the new `nbytes` is at most `maxBytes`).
Then `Add(key, v2)` returns, `Len()` is unchanged, the store holds exactly one entry
for `key`, and that entry holds `v2`.  `nbytes` has changed by `v2.Len() - v1.Len()` in
`int64` arithmetic: it is `int64 (nbytes + (v2.Len() - v1.Len()))`, which is the sum of
`len(key) + v2.Len()` and the sizes of the other entries reduced to 64 bits.  The
change is exactly `v2.Len() - v1.Len()`, and `nbytes` exactly that sum, whenever these
are 64-bit numbers. -/
theorem Add_overwrite_accounting (fuel : Nat) (maxBytes : Int) (onEvicted : Bool)
    (ops : List (Op V)) (c : Cache V) (key : String) (v1 v2 : V)
    (h : (New maxBytes onEvicted : Cache V).run fuel ops = .ok c)
    (hlive : { key := key, value := v1 } ∈ c.entries)
    (hfit : c.maxBytes = 0 ∨
      int64 (c.nbytes + (Value.Len v2 - Value.Len v1)) ≤ c.maxBytes) :
    ∃ c1 : Cache V, (∀ n, c.Add n key v2 = .ok c1) ∧ c1.Len = c.Len ∧
      c1.entries.filter (fun x => decide (x.key = key)) = [{ key := key, value := v2 }] ∧
      c1.nbytes = int64 (c.nbytes + (Value.Len v2 - Value.Len v1)) ∧
      c1.nbytes = int64 ((strLen key + Value.Len v2) +
        ((c.entries.filter (fun x => decide (x.key ≠ key))).map entrySize).sum) ∧
      (-9223372036854775808 ≤ c.nbytes + (Value.Len v2 - Value.Len v1) ∧
          c.nbytes + (Value.Len v2 - Value.Len v1) < 9223372036854775808 →
        c1.nbytes - c.nbytes = Value.Len v2 - Value.Len v1) ∧
      (-9223372036854775808 ≤ (strLen key + Value.Len v2) +
            ((c.entries.filter (fun x => decide (x.key ≠ key))).map entrySize).sum ∧
          (strLen key + Value.Len v2) +
            ((c.entries.filter (fun x => decide (x.key ≠ key))).map entrySize).sum <
              9223372036854775808 →
        c1.nbytes = (strLen key + Value.Len v2) +
          ((c.entries.filter (fun x => decide (x.key ≠ key))).map entrySize).sum) := by
  have hc := run_Inv fuel ops _ c (Inv_New maxBytes onEvicted) h
  obtain ⟨c1, h1, hc1, hent, hnb, hmb1, -, -⟩ := addEntry_hit hc hlive v2
  have hent2 : c1.entries = { key := key, value := v2 } ::
      c.entries.filter (fun x => decide (x.key ≠ key)) := hent
  have hnb2 : c1.nbytes = int64 (c.nbytes + (Value.Len v2 - Value.Len v1)) := hnb
  have hsum : c1.nbytes = int64 ((strLen key + Value.Len v2) +
      ((c.entries.filter (fun x => decide (x.key ≠ key))).map entrySize).sum) := by
    rw [hc1.bytes, hent2]
    simp [entrySize]
  have hdone : ¬ (c1.maxBytes ≠ 0 ∧ c1.maxBytes < c1.nbytes) := by
    rintro ⟨h2, h3⟩
    rw [hmb1] at h2 h3
    rcases hfit with h4 | h4
    · exact h2 h4
    · rw [hnb2] at h3; omega
  refine ⟨c1, ?_, ?_, ?_, hnb2, hsum, ?_, ?_⟩
  · intro n
    have h1b : c.addEntry key v2 = .ok c1 := h1
    simp only [Cache.Add, h1b, evictLoop_done n c1 hdone]
  · have := (hc.entries_split hlive).length_eq
    have h5 : c1.entries.length = c.entries.length := by
      rw [hent2, this]; rfl
    rw [hc1.length_entries, hc.length_entries] at h5
    simp [Cache.Len, h5]
  · rw [hent2, List.filter_cons_of_pos (by simp), List.filter_filter]
    congr 1
    apply List.filter_eq_nil_iff.mpr
    intro x _
    simp
  · intro hr
    rw [hnb2, int64_of_range _ hr]
    ring
  · intro hr
    rw [hsum, int64_of_range _ hr]

/-- C7 for `Add("k", "abc")` followed by `Add("k", "abcdefg")`: one entry for `"k"`,
`nbytes` goes from 4 to 8. -/
theorem Add_overwrite_accounting_witness :
    ((New 0 false : Cache String).run 0 [.add "k" "abc"] = .ok storeK ∧
      { key := "k", value := "abc" } ∈ storeK.entries ∧
      (storeK.maxBytes = 0 ∨
        int64 (storeK.nbytes + (Value.Len "abcdefg" - Value.Len "abc")) ≤
          storeK.maxBytes)) ∧
    (∃ c1 : Cache String, (∀ n, storeK.Add n "k" "abcdefg" = .ok c1) ∧
      c1.Len = storeK.Len ∧
      c1.entries.filter (fun x => decide (x.key = "k")) =
        [{ key := "k", value := "abcdefg" }] ∧
      c1.nbytes = int64 (storeK.nbytes + (Value.Len "abcdefg" - Value.Len "abc")) ∧
      c1.nbytes = int64 ((strLen "k" + Value.Len "abcdefg") +
        ((storeK.entries.filter (fun x => decide (x.key ≠ "k"))).map entrySize).sum) ∧
      (-9223372036854775808 ≤ storeK.nbytes + (Value.Len "abcdefg" - Value.Len "abc") ∧
          storeK.nbytes + (Value.Len "abcdefg" - Value.Len "abc") < 9223372036854775808 →
        c1.nbytes - storeK.nbytes = Value.Len "abcdefg" - Value.Len "abc") ∧
      (-9223372036854775808 ≤ (strLen "k" + Value.Len "abcdefg") +
            ((storeK.entries.filter (fun x => decide (x.key ≠ "k"))).map entrySize).sum ∧
          (strLen "k" + Value.Len "abcdefg") +
            ((storeK.entries.filter (fun x => decide (x.key ≠ "k"))).map entrySize).sum <
              9223372036854775808 →
        c1.nbytes = (strLen "k" + Value.Len "abcdefg") +
          ((storeK.entries.filter (fun x => decide (x.key ≠ "k"))).map entrySize).sum)) ∧
    (storeK.Add 0 "k" "abcdefg").map (fun c => (c.entries, c.nbytes)) =
      .ok ([{ key := "k", value := "abcdefg" }], 8) ∧
    storeK.nbytes = 4 :=
  ⟨⟨by decide, by decide, Or.inl (by decide)⟩,
    Add_overwrite_accounting 0 0 false [.add "k" "abc"] storeK "k" "abc" "abcdefg"
      (by decide) (by decide) (Or.inl (by decide)),
    by decide, by decide⟩

/-- C7 as stated fails: on the store without budget that holds `"k"` with a value of
length 0 (`nbytes = 1`), `Add("k", v)` with `v.Len() = math.MaxInt64` triggers no
eviction and leaves `nbytes = math.MinInt64`: `nbytes` has changed by `-2^63 - 1` and
not by `v.Len() - 0 = 2^63 - 1`, and it is not `len("k") + v.Len() = 2^63`. -/
theorem Add_overwrite_changes_nbytes_otherwise :
    (New 0 false : Cache sized).run 0 [.add "k" { n := 0 }] = .ok storeK0 ∧
    { key := "k", value := { n := 0 } } ∈ storeK0.entries ∧
    storeK0.maxBytes = 0 ∧ storeK0.nbytes = 1 ∧
    (storeK0.Add 0 "k" maxSized).map (fun c => (c.entries, c.nbytes)) =
      .ok ([{ key := "k", value := maxSized }], -9223372036854775808) ∧
    (storeK0.Add 0 "k" maxSized).map (fun c => c.nbytes - storeK0.nbytes) ≠
      .ok (Value.Len maxSized - Value.Len ({ n := 0 } : sized)) ∧
    (storeK0.Add 0 "k" maxSized).map (fun c => c.nbytes) ≠
      .ok (strLen "k" + Value.Len maxSized) :=
  ⟨by decide, by decide, by decide, by decide, by decide, by decide, by decide⟩

end lru

namespace lru

variable {V : Type} [Value V]

/-- C8, as the code has it: let a store be reached from `New` by `Get`, `Add` and
`RemoveOldest` calls.  After a `Get` that finds the key, the entry of the key is at
the front of the recency order.  After an `Add(key, value)` that leaves the store
non-empty, the entry of `key`, holding `value`, is at the front; `Add` leaves the
store empty only when `maxBytes != 0` and `len(key) + value.Len() > maxBytes`, where
the eviction loop removes the added entry too.  With `maxBytes >= 0` `Add` returns. -/
theorem key_at_front_after_access (fuel : Nat) (maxBytes : Int) (onEvicted : Bool)
    (ops : List (Op V)) (c : Cache V) (key : String) (value : V)
    (h : (New maxBytes onEvicted : Cache V).run fuel ops = .ok c) :
    (∀ e ∈ c.entries, ∃ c1, c.Get e.key = .ok ((some e.value, true), c1) ∧
      c1.entries.head? = some e) ∧
    (∀ n c2, c.Add n key value = .ok c2 →
      (c2.entries ≠ [] → c2.entries.head? = some { key := key, value := value }) ∧
      (c2.entries = [] → c.maxBytes ≠ 0 ∧ c.maxBytes < strLen key + Value.Len value)) ∧
    (0 ≤ c.maxBytes → ∃ c2, ∀ n, c.ll.length + 1 ≤ n → c.Add n key value = .ok c2) := by
  have hc := run_Inv fuel ops _ c (Inv_New maxBytes onEvicted) h
  refine ⟨?_, ?_, ?_⟩
  · intro e he
    obtain ⟨c1, hg, -, hent, -⟩ := Get_hit hc he
    exact ⟨c1, hg, by rw [hent]; rfl⟩
  · intro n c2 hadd
    obtain ⟨c1, h1, hc1, hent, hmb1, -, -⟩ := addEntry_ok hc key value
    simp only [Cache.Add, h1] at hadd
    obtain ⟨ev, hev, -, -, -, -, -, -, hshort⟩ := evictLoop_spec n c1 c2 hc1 hadd
    rw [hent] at hev
    constructor
    · intro hne
      cases hc2 : c2.entries with
      | nil => exact absurd hc2 hne
      | cons x t =>
        rw [hc2, List.cons_append] at hev
        rw [(List.cons.inj hev).1]
        rfl
    · intro hnil
      rw [hnil, List.nil_append] at hev
      have hev2 : ev = (c.entries.filter (fun x => decide (x.key ≠ key))).reverse ++
          [{ key := key, value := value }] := by
        have := congrArg List.reverse hev
        rw [List.reverse_reverse, List.reverse_cons] at this
        exact this.symm
      have hlt : (c.entries.filter (fun x => decide (x.key ≠ key))).length < ev.length := by
        rw [hev2]; simp
      obtain ⟨h2, h3⟩ := hshort _ hlt
      have htake : ev.take (c.entries.filter (fun x => decide (x.key ≠ key))).length =
          (c.entries.filter (fun x => decide (x.key ≠ key))).reverse := by
        rw [hev2, List.take_left']
        simp
      rw [htake, hc1.bytes, hent, hmb1, int64_int64_sub] at h3
      rw [hmb1] at h2
      refine ⟨h2, ?_⟩
      simp only [List.map_cons, List.sum_cons, List.map_reverse, List.sum_reverse,
        entrySize, add_sub_cancel_right] at h3
      have hlen := (Value.Len_int value).1
      have hkey : 0 ≤ strLen key := Int.ofNat_nonneg _
      exact lt_of_lt_of_le h3 (int64_le_self _ (by omega))
  · intro hmb
    obtain ⟨c1, c2, -, -, -, -, -, -, hn⟩ := Add_returns hc hmb key value
    exact ⟨c2, fun n hle => (hn n hle).2⟩

/-- C8 at the store left by `opsABC`: `Get("b")` and `Add("d", "1")` put their key at
the front. -/
theorem key_at_front_after_access_witness :
    (New 6 true : Cache String).run 1 opsABC = .ok storeABC ∧
    ((∀ e ∈ storeABC.entries, ∃ c1, storeABC.Get e.key = .ok ((some e.value, true), c1) ∧
        c1.entries.head? = some e) ∧
      (∀ n c2, storeABC.Add n "d" "1" = .ok c2 →
        (c2.entries ≠ [] → c2.entries.head? = some { key := "d", value := "1" }) ∧
        (c2.entries = [] →
          storeABC.maxBytes ≠ 0 ∧ storeABC.maxBytes < strLen "d" + Value.Len "1")) ∧
      (0 ≤ storeABC.maxBytes →
        ∃ c2, ∀ n, storeABC.ll.length + 1 ≤ n → storeABC.Add n "d" "1" = .ok c2)) ∧
    (storeABC.Add 4 "d" "1").map (fun c => c.entries.head?) =
      .ok (some { key := "d", value := "1" }) :=
  ⟨by decide, key_at_front_after_access 1 6 true opsABC storeABC "d" "1" (by decide),
    by decide⟩

/-- C8 as stated fails: with a budget of one byte, `Add("abc", "x")` on the new store
returns a store without any entry, so `"abc"` is not at the front of it. -/
theorem Add_key_not_at_front :
    ((New 1 false : Cache String).Add 1 "abc" "x").map (fun c => c.entries) = .ok [] ∧
    ((New 1 false : Cache String).Add 1 "abc" "x").map (fun c => c.entries.head?) ≠
      .ok (some { key := "abc", value := "x" }) :=
  ⟨by decide, by decide⟩

/-- C9, as the code has it: let a store be reached from `New` by `Get`, `Add` and
`RemoveOldest` calls.  If it has no entry, `RemoveOldest` returns it unchanged (so
without a call of the callback).  If its entries are `es` followed by the least
recently used entry `e`, `RemoveOldest` returns a store whose entries are `es` in the
same order, `Len()` is smaller by one, a `Get` of `e.key` reports `found = false`, and
the callback, if set, has been called once more, with the key and value of `e`.
`nbytes` has been lowered by `len(e.key) + e.value.Len()` in `int64` arithmetic: it is
`int64 (nbytes - (len(e.key) + e.value.Len()))`, and it is smaller by exactly
`len(e.key) + e.value.Len()` whenever that difference is a 64-bit number. -/
theorem RemoveOldest_removes_lru (fuel : Nat) (maxBytes : Int) (onEvicted : Bool)
    (ops : List (Op V)) (c : Cache V)
    (h : (New maxBytes onEvicted : Cache V).run fuel ops = .ok c) :
    (c.entries = [] → c.RemoveOldest = .ok c) ∧
    (∀ es e, c.entries = es ++ [e] → ∃ c1, c.RemoveOldest = .ok c1 ∧
      c1.entries = es ∧ c1.Len = c.Len - 1 ∧
      c1.nbytes = int64 (c.nbytes - (strLen e.key + Value.Len e.value)) ∧
      (-9223372036854775808 ≤ c.nbytes - (strLen e.key + Value.Len e.value) ∧
          c.nbytes - (strLen e.key + Value.Len e.value) < 9223372036854775808 →
        c.nbytes - c1.nbytes = strLen e.key + Value.Len e.value) ∧
      c1.Get e.key = .ok ((none, false), c1) ∧
      c1.calls = (if c.OnEvicted then c.calls ++ [(e.key, e.value)] else c.calls)) := by
  have hc := run_Inv fuel ops _ c (Inv_New maxBytes onEvicted) h
  refine ⟨RemoveOldest_empty hc, ?_⟩
  intro es e hes
  obtain ⟨c1, hr, hc1, hent, hnb, -, -, hcalls, hnone⟩ := RemoveOldest_last hc hes
  have hnb2 : c1.nbytes = int64 (c.nbytes - (strLen e.key + Value.Len e.value)) := hnb
  refine ⟨c1, hr, hent, ?_, hnb2, ?_, by simp [Cache.Get, hnone], hcalls⟩
  · have h1 := hc1.length_entries
    have h2 := hc.length_entries
    rw [hent] at h1
    rw [hes, List.length_append, List.length_singleton] at h2
    simp only [Cache.Len]
    omega
  · intro hrange
    rw [hnb2, int64_of_range _ hrange]
    ring

/-- C9 at the store left by `opsABC`, whose least recently used entry is `b`: `nbytes`
goes from 6 to 4. -/
theorem RemoveOldest_removes_lru_witness :
    ((New 6 true : Cache String).run 1 opsABC = .ok storeABC ∧
      storeABC.entries = [{ key := "a", value := "1" }, { key := "c", value := "1" }] ++
        [{ key := "b", value := "1" }]) ∧
    (∃ c1, storeABC.RemoveOldest = .ok c1 ∧
      c1.entries = [{ key := "a", value := "1" }, { key := "c", value := "1" }] ∧
      c1.Len = storeABC.Len - 1 ∧
      c1.nbytes = int64 (storeABC.nbytes - (strLen "b" + Value.Len "1")) ∧
      (-9223372036854775808 ≤ storeABC.nbytes - (strLen "b" + Value.Len "1") ∧
          storeABC.nbytes - (strLen "b" + Value.Len "1") < 9223372036854775808 →
        storeABC.nbytes - c1.nbytes = strLen "b" + Value.Len "1") ∧
      c1.Get "b" = .ok ((none, false), c1) ∧
      c1.calls = (if storeABC.OnEvicted then storeABC.calls ++ [("b", "1")]
        else storeABC.calls)) ∧
    (New 6 true : Cache String).RemoveOldest = .ok (New 6 true) ∧
    storeABC.RemoveOldest.map (fun c => (c.entries, c.nbytes, c.calls)) =
      .ok ([{ key := "a", value := "1" }, { key := "c", value := "1" }], 4, [("b", "1")]) :=
  ⟨⟨by decide, by decide⟩,
    (RemoveOldest_removes_lru 1 6 true opsABC storeABC (by decide)).2
      [{ key := "a", value := "1" }, { key := "c", value := "1" }]
      { key := "b", value := "1" } (by decide),
    (RemoveOldest_removes_lru 0 6 true [] (New 6 true) (by decide)).1 (by decide),
    by decide⟩

/-- C9 as stated fails: on the store that `Add("a", v)` with `v.Len() = math.MaxInt64`
leaves (`nbytes = math.MinInt64`), `RemoveOldest` removes the entry, of
`1 + v.Len() = 2^63` bytes, and leaves `nbytes = 0`: `nbytes` has not decreased by
`2^63`, it has grown by `2^63`. -/
theorem RemoveOldest_raises_nbytes :
    (New 0 false : Cache sized).run 0 [.add "a" maxSized] = .ok storeWrapped ∧
    storeWrapped.entries = [] ++ [{ key := "a", value := maxSized }] ∧
    storeWrapped.nbytes = -9223372036854775808 ∧
    storeWrapped.RemoveOldest.map (fun c => (c.entries, c.nbytes)) = .ok ([], 0) ∧
    storeWrapped.RemoveOldest.map (fun c => c.nbytes) ≠
      .ok (storeWrapped.nbytes - (strLen "a" + Value.Len maxSized)) ∧
    storeWrapped.RemoveOldest.map (fun c => c.nbytes - storeWrapped.nbytes) =
      .ok 9223372036854775808 :=
  ⟨by decide, by decide, by decide, by decide, by decide, by decide⟩

end lru

/-! ## The peer router -/

namespace consistenthash

/-- Registering nodes keeps every virtual node mapped to a node of the set `S`, when
the registered nodes are in `S`. -/
theorem foldl_addNode_owned (S : List String) (ps : List String) (m : Map)
    (hps : ∀ p ∈ ps, p ∈ S)
    (hm : ∀ s ∈ m.keys, ∃ p ∈ S, mapFind m.hashMap s = some p) :
    ∀ s ∈ (ps.foldl Map.addNode m).keys,
      ∃ p ∈ S, mapFind (ps.foldl Map.addNode m).hashMap s = some p := by
  induction ps generalizing m with
  | nil => simpa using hm
  | cons q ps ih =>
    rw [List.foldl_cons]
    apply ih (m.addNode q) (fun p hp => hps p (List.mem_cons_of_mem _ hp))
    intro s hs
    obtain ⟨-, -, hkeys, hmap⟩ := foldl_addReplica q (List.range m.replicas.toNat) m
    change s ∈ ((List.range m.replicas.toNat).foldl (Map.addReplica q) m).keys at hs
    show ∃ p ∈ S, mapFind ((List.range m.replicas.toNat).foldl (Map.addReplica q) m).hashMap s
      = some p
    rw [hmap]
    by_cases hv : s ∈ m.virtualHashes q (List.range m.replicas.toNat)
    · exact ⟨q, hps q (List.mem_cons_self _ _), by simp [hv]⟩
    · rw [hkeys, List.mem_append] at hs
      rcases hs with h1 | h1
      · obtain ⟨p, hp, hf⟩ := hm s h1
        exact ⟨p, hp, by simp [hv, hf]⟩
      · exact absurd h1 hv

/-- On a ring made of `New` and one `Add(peers...)`, `Get` returns without fault `""`
(when the ring has no virtual node) or one of `peers`. -/
theorem Get_fresh_ring (replicas : Int) (fn : Option Hash) (peers : List String)
    (key : String) :
    ∃ owner, ((New replicas fn).Add peers).Get key = .ok owner ∧
      (owner = "" ∨ owner ∈ peers) := by
  by_cases hne : ((New replicas fn).Add peers).keys = []
  · exact ⟨"", by simp [Map.Get, hne], Or.inl rfl⟩
  · obtain ⟨s, hs, hget⟩ := Get_sorted _ (Add_keys_sorted (New replicas fn) peers) hne key
    have hmem : s ∈ (peers.foldl Map.addNode (New replicas fn)).keys :=
      (mem_sortInts _ s).mp hs.1
    obtain ⟨p, hp, hf⟩ := foldl_addNode_owned peers peers (New replicas fn)
      (fun p hp => hp) (fun s hs => by simp [New] at hs) s hmem
    refine ⟨p, ?_, Or.inr hp⟩
    rw [hget]
    show Except.ok (mapGet (peers.foldl Map.addNode (New replicas fn)).hashMap s) = _
    simp [mapGet, hf]

end consistenthash

namespace geecache

/-- The directory that `Set` builds holds, for each peer, the getter of that peer. -/
theorem httpGetters_foldl (basePath : String) (ps : List String)
    (g : List (String × httpGetter)) (p : String) :
    mapFind (ps.foldl (fun g peer => mapSet g peer { baseURL := peer ++ basePath }) g) p =
      if p ∈ ps then some { baseURL := p ++ basePath } else mapFind g p := by
  induction ps generalizing g with
  | nil => simp
  | cons q ps ih =>
    rw [List.foldl_cons, ih, mapFind_mapSet]
    by_cases h1 : p ∈ ps
    · simp [h1]
    · by_cases h2 : p = q
      · simp [h2]
      · simp [h1, h2]

/-- C10: let `Set(peers...)` be called on any router `p` (whatever earlier calls made
of it), and let `owner` be what `Get(key)` returns on the ring built from scratch by
`New(50, nil)` and `Add(peers...)`; that `Get` does return.  If `owner` is `""` or
`p.self`, `PickPeer(key)` returns `(nil, false)`.  Otherwise `owner` is one of `peers`
and `PickPeer(key)` returns `true` with the getter that the directory built by this
`Set` holds for `owner`, whose base URL is `owner` followed by `basePath`. -/
theorem PickPeer_after_Set (p : HTTPPool) (peers : List String) (key : String) :
    ∃ owner, ((consistenthash.New 50 none).Add peers).Get key = .ok owner ∧
      ((owner = "" ∨ owner = p.self) → (p.Set peers).PickPeer key = .ok (none, false)) ∧
      (¬ (owner = "" ∨ owner = p.self) → owner ∈ peers ∧
        mapFind (p.Set peers).httpGetters owner =
          some { baseURL := owner ++ p.basePath } ∧
        (p.Set peers).PickPeer key =
          .ok (some { baseURL := owner ++ p.basePath }, true)) := by
  obtain ⟨owner, hget, hown⟩ := consistenthash.Get_fresh_ring 50 none peers key
  have hget2 : ((consistenthash.New defaultReplicas none).Add peers).Get key = .ok owner :=
    hget
  refine ⟨owner, hget, ?_, ?_⟩
  · intro h
    have hcond : ¬ (owner ≠ "" ∧ owner ≠ p.self) := by
      rintro ⟨h1, h2⟩
      rcases h with h | h
      · exact h1 h
      · exact h2 h
    simp only [HTTPPool.PickPeer, HTTPPool.Set, hget2]
    rw [if_neg hcond]
  · intro h
    have hcond : owner ≠ "" ∧ owner ≠ p.self :=
      ⟨fun h1 => h (Or.inl h1), fun h2 => h (Or.inr h2)⟩
    have hmem : owner ∈ peers := by
      rcases hown with h1 | h1
      · exact absurd h1 hcond.1
      · exact h1
    have hdir : mapFind (p.Set peers).httpGetters owner =
        some { baseURL := owner ++ p.basePath } := by
      simp only [HTTPPool.Set]
      rw [httpGetters_foldl]
      simp [hmem]
    refine ⟨hmem, hdir, ?_⟩
    have hdir2 := hdir
    simp only [HTTPPool.Set] at hdir2
    simp only [HTTPPool.PickPeer, HTTPPool.Set, hget2]
    rw [if_pos hcond, hdir2]

set_option maxRecDepth 1000000 in
/-- C10 at `self = "A"` with the peers `"A"` and `"B"`: the key `"1"` belongs to `"B"`
and is served by its getter, the key `"2"` belongs to `"A"` and is served locally. -/
theorem PickPeer_after_Set_witness :
    (∃ owner, ((consistenthash.New 50 none).Add ["A", "B"]).Get "1" = .ok owner ∧
      ((owner = "" ∨ owner = (NewHTTPPool "A").self) →
        ((NewHTTPPool "A").Set ["A", "B"]).PickPeer "1" = .ok (none, false)) ∧
      (¬ (owner = "" ∨ owner = (NewHTTPPool "A").self) → owner ∈ ["A", "B"] ∧
        mapFind ((NewHTTPPool "A").Set ["A", "B"]).httpGetters owner =
          some { baseURL := owner ++ (NewHTTPPool "A").basePath } ∧
        ((NewHTTPPool "A").Set ["A", "B"]).PickPeer "1" =
          .ok (some { baseURL := owner ++ (NewHTTPPool "A").basePath }, true))) ∧
    ((NewHTTPPool "A").Set ["A", "B"]).PickPeer "1" =
      .ok (some { baseURL := "B/_geecache/" }, true) ∧
    ((NewHTTPPool "A").Set ["A", "B"]).PickPeer "2" = .ok (none, false) :=
  ⟨PickPeer_after_Set (NewHTTPPool "A") ["A", "B"] "1", by decide, by decide⟩

end geecache

/-! ## The ring: size, owners and the empty ring -/

namespace consistenthash

theorem sortInts_length (l : List Int) : (sortInts l).length = l.length :=
  (List.perm_insertionSort (· ≤ ·) l).length_eq

/-- Registering the nodes `ps` appends `replicas` virtual nodes for each of them. -/
theorem foldl_addNode_length (ps : List String) (m : Map) :
    (ps.foldl Map.addNode m).replicas = m.replicas ∧
    (ps.foldl Map.addNode m).keys.length = m.keys.length + m.replicas.toNat * ps.length := by
  induction ps generalizing m with
  | nil => simp
  | cons q ps ih =>
    obtain ⟨-, hrep, hkeys, -⟩ := foldl_addReplica q (List.range m.replicas.toNat) m
    have hrep2 : (m.addNode q).replicas = m.replicas := hrep
    have hlen : (m.addNode q).keys.length = m.keys.length + m.replicas.toNat := by
      show ((List.range m.replicas.toNat).foldl (Map.addReplica q) m).keys.length = _
      rw [hkeys]
      simp [Map.virtualHashes]
    obtain ⟨h1, h2⟩ := ih (m.addNode q)
    rw [List.foldl_cons]
    refine ⟨h1.trans hrep2, ?_⟩
    rw [h2, hlen, hrep2, List.length_cons]
    ring

theorem Add_length (m : Map) (ps : List String) :
    (m.Add ps).replicas = m.replicas ∧
    (m.Add ps).keys.length = m.keys.length + m.replicas.toNat * ps.length := by
  obtain ⟨h1, h2⟩ := foldl_addNode_length ps m
  refine ⟨h1, ?_⟩
  show (sortInts _).length = _
  rw [sortInts_length, h2]

theorem foldl_Add_length (adds : List (List String)) (m : Map) :
    (adds.foldl Map.Add m).replicas = m.replicas ∧
    (adds.foldl Map.Add m).keys.length =
      m.keys.length + m.replicas.toNat * adds.flatten.length := by
  induction adds generalizing m with
  | nil => simp
  | cons a adds ih =>
    obtain ⟨h1, h2⟩ := Add_length m a
    obtain ⟨h3, h4⟩ := ih (m.Add a)
    rw [List.foldl_cons]
    refine ⟨h3.trans h1, ?_⟩
    rw [h4, h2, h1, List.flatten_cons, List.length_append]
    ring

/-- The number of virtual nodes of a ring: `replicas` (none when it is negative) for
each node id passed to `Add`, repeated ids counted as often as they were passed. -/
theorem build_length (replicas : Int) (fn : Option Hash) (adds : List (List String)) :
    (build replicas fn adds).keys.length = replicas.toNat * adds.flatten.length := by
  have := (foldl_Add_length adds (New replicas fn)).2
  simpa [build, New] using this

/-- Every virtual node of a ring is mapped to one of the node ids passed to `Add`. -/
theorem foldl_Add_owned (S : List String) (adds : List (List String)) (m : Map)
    (hadds : ∀ a ∈ adds, ∀ p ∈ a, p ∈ S)
    (hm : ∀ s ∈ m.keys, ∃ p ∈ S, mapFind m.hashMap s = some p) :
    ∀ s ∈ (adds.foldl Map.Add m).keys,
      ∃ p ∈ S, mapFind (adds.foldl Map.Add m).hashMap s = some p := by
  induction adds generalizing m with
  | nil => simpa using hm
  | cons a adds ih =>
    rw [List.foldl_cons]
    apply ih (m.Add a) (fun b hb => hadds b (List.mem_cons_of_mem _ hb))
    intro s hs
    have hmem : s ∈ (a.foldl Map.addNode m).keys := (mem_sortInts _ s).mp hs
    exact foldl_addNode_owned S a m (hadds a (List.mem_cons_self _ _)) hm s hmem

/-- On a ring without virtual nodes `Get` returns `""` at its first test. -/
theorem Get_of_keys_nil (m : Map) (h : m.keys = []) (key : String) : m.Get key = .ok "" := by
  simp [Map.Get, h]

/-- C13: on every ring built by `New(replicas, fn)` on which no node has been
registered (no `Add` call, or `Add` calls without node ids), `Get(key)` returns the
empty string for every key and does not fault: it returns at its first test, before
any indexing or modulo. -/
theorem Get_on_empty_ring (replicas : Int) (fn : Option Hash) (adds : List (List String))
    (key : String) (h : ∀ a ∈ adds, a = []) :
    (build replicas fn adds).Get key = .ok "" := by
  apply Get_of_keys_nil
  apply List.eq_nil_of_length_eq_zero
  rw [build_length]
  have : adds.flatten = [] := by
    rw [List.flatten_eq_nil_iff]
    exact h
  simp [this]

/-- C13 at the ring `New(50, nil)`, without `Add` and after an `Add()` without ids. -/
theorem Get_on_empty_ring_witness :
    (∀ a ∈ ([] : List (List String)), a = []) ∧
    (build 50 none []).Get "key" = .ok "" ∧
    (build 50 none [[]]).Get "key" = .ok "" :=
  ⟨by decide, Get_on_empty_ring 50 none [] "key" (by decide),
    Get_on_empty_ring 50 none [[]] "key" (by decide)⟩

/-- C14: on every ring with replica factor `R >= 1` on which `Add` has registered at
least one node id, all registered ids being non-empty strings, `Get(key)` returns
without fault a non-empty node id, and that id is one of the ids passed to `Add`. -/
theorem Get_returns_registered_node (replicas : Int) (fn : Option Hash)
    (adds : List (List String)) (key : String)
    (hR : 1 ≤ replicas) (hsome : adds.flatten ≠ [])
    (hids : ∀ p ∈ adds.flatten, p ≠ "") :
    ∃ owner, (build replicas fn adds).Get key = .ok owner ∧ owner ≠ "" ∧
      owner ∈ adds.flatten := by
  have hne : (build replicas fn adds).keys ≠ [] := by
    intro hnil
    have h1 := build_length replicas fn adds
    rw [hnil, List.length_nil] at h1
    have h2 : 0 < replicas.toNat := by omega
    have h3 : 0 < adds.flatten.length := List.length_pos.mpr hsome
    have := Nat.mul_pos h2 h3
    omega
  obtain ⟨s, hs, hget⟩ := Get_sorted _ (build_keys_sorted replicas fn adds) hne key
  obtain ⟨p, hp, hf⟩ := foldl_Add_owned adds.flatten adds (New replicas fn)
    (fun a ha p hp => List.mem_flatten.mpr ⟨a, ha, hp⟩)
    (fun s hs => by simp [New] at hs) s hs.1
  have hf2 : mapFind (build replicas fn adds).hashMap s = some p := hf
  refine ⟨p, ?_, hids p hp, hp⟩
  rw [hget]
  simp [mapGet, hf2]

set_option maxRecDepth 1000000 in
/-- C14 at the ring of nodes "A", "B", "C" with three replicas. -/
theorem Get_returns_registered_node_witness :
    ((1 : Int) ≤ 3 ∧ ([["A", "B", "C"]] : List (List String)).flatten ≠ [] ∧
      ∀ p ∈ ([["A", "B", "C"]] : List (List String)).flatten, p ≠ "") ∧
    (∃ owner, (build 3 none [["A", "B", "C"]]).Get "hello" = .ok owner ∧ owner ≠ "" ∧
      owner ∈ ([["A", "B", "C"]] : List (List String)).flatten) ∧
    (build 3 none [["A", "B", "C"]]).Get "hello" = .ok "C" :=
  ⟨⟨by decide, by decide, by decide⟩,
    Get_returns_registered_node 3 none [["A", "B", "C"]] "hello"
      (by decide) (by decide) (by decide),
    by decide⟩

/-- C15, as the code has it: after any sequence of `Add` calls the virtual-node
sequence is sorted in ascending order, and its length is `R` (taken as zero when `R`
is negative) times the number of node ids passed to `Add`, an id counting as often as
it was passed; when `R >= 0` and no id was passed twice, that is `R` times the number
of distinct registered ids. -/
theorem keys_sorted_and_counted (replicas : Int) (fn : Option Hash)
    (adds : List (List String)) :
    (build replicas fn adds).keys.Sorted (· ≤ ·) ∧
    (build replicas fn adds).keys.length = replicas.toNat * adds.flatten.length ∧
    (0 ≤ replicas → adds.flatten.Nodup →
      ((build replicas fn adds).keys.length : Int) =
        replicas * (adds.flatten.dedup.length : Int)) := by
  refine ⟨build_keys_sorted replicas fn adds, build_length replicas fn adds, ?_⟩
  intro hR hnd
  rw [build_length, hnd.dedup, Nat.cast_mul, Int.toNat_of_nonneg hR]

set_option maxRecDepth 1000000 in
/-- C15 at the ring of nodes "A", "B", "C" with three replicas: nine virtual nodes. -/
theorem keys_sorted_and_counted_witness :
    ((0 : Int) ≤ 3 ∧ ([["A", "B", "C"]] : List (List String)).flatten.Nodup) ∧
    ((build 3 none [["A", "B", "C"]]).keys.Sorted (· ≤ ·) ∧
      (build 3 none [["A", "B", "C"]]).keys.length =
        (3 : Int).toNat * ([["A", "B", "C"]] : List (List String)).flatten.length ∧
      ((0 : Int) ≤ 3 → ([["A", "B", "C"]] : List (List String)).flatten.Nodup →
        ((build 3 none [["A", "B", "C"]]).keys.length : Int) =
          3 * (([["A", "B", "C"]] : List (List String)).flatten.dedup.length : Int))) ∧
    (build 3 none [["A", "B", "C"]]).keys.length = 9 :=
  ⟨⟨by decide, by decide⟩, keys_sorted_and_counted 3 none [["A", "B", "C"]], by decide⟩

set_option maxRecDepth 1000000 in
/-- C15 as stated fails: with `R = 1`, `Add("A")` followed by `Add("A")` leaves two
virtual nodes although one distinct node id has been registered; and with `R = -1`,
`Add("A")` leaves no virtual node, which is not `R` times one. -/
theorem keys_length_not_replicas_times_distinct :
    ((build 1 none [["A"], ["A"]]).keys.length : Int) ≠
      1 * ((([["A"], ["A"]] : List (List String)).flatten.dedup.length : Nat) : Int) ∧
    ((build (-1) none [["A"]]).keys.length : Int) ≠
      (-1) * ((([["A"]] : List (List String)).flatten.dedup.length : Nat) : Int) :=
  ⟨by decide, by decide⟩

set_option maxRecDepth 1000000 in
/-- C16 at the ring `New(1, nil)` and the node `"A"`: the virtual node that `Add`
appends and maps to `"A"` is the hash of `"0A"`, the replica index directly followed by
the node id; it is not the hash of `"0-A"`.  Without the separator replica 10 of node
`"A"` and replica 1 of node `"0A"` are hashed under the same name. -/
theorem Add_hashes_index_and_id_without_separator :
    ((New 1 none).Add ["A"]).keys = [(New 1 none).hashOf "0A"] ∧
    mapFind ((New 1 none).Add ["A"]).hashMap ((New 1 none).hashOf "0A") = some "A" ∧
    (New 1 none).hashOf "0A" ≠ (New 1 none).hashOf "0-A" ∧
    (New 1 none).hashOf "0-A" ∉ ((New 1 none).Add ["A"]).keys ∧
    virtualName 10 "A" = virtualName 1 "0A" :=
  ⟨by decide, by decide, by decide, by decide, by decide⟩

end consistenthash

/-! ## The owner of a key -/

section maps

variable {K V : Type} [DecidableEq K]

/-- What the "comma ok" read finds is an entry of the map. -/
theorem mem_of_mapFind (m : List (K × V)) (k : K) (v : V) (h : mapFind m k = some v) :
    (k, v) ∈ m := by
  induction m with
  | nil => simp [mapFind] at h
  | cons a m ih =>
    obtain ⟨a, b⟩ := a
    rw [mapFind_cons] at h
    by_cases hak : a = k
    · simp only [hak, if_true, Option.some.injEq] at h
      rw [hak, h]
      exact List.mem_cons_self _ _
    · simp only [hak, if_false] at h
      exact List.mem_cons_of_mem _ (ih h)

/-- In a map, where no key occurs twice, the read finds every entry. -/
theorem mapFind_of_mem (m : List (K × V)) (hnd : (m.map Prod.fst).Nodup) (k : K) (v : V)
    (h : (k, v) ∈ m) : mapFind m k = some v := by
  induction m with
  | nil => simp at h
  | cons a m ih =>
    obtain ⟨a, b⟩ := a
    rw [List.map_cons, List.nodup_cons] at hnd
    rw [mapFind_cons]
    rcases List.mem_cons.mp h with h1 | h1
    · cases h1
      simp
    · have hak : a ≠ k := by
        intro hak
        exact hnd.1 (List.mem_map.mpr ⟨(k, v), h1, hak.symm⟩)
      simp only [hak, if_false]
      exact ih hnd.2 h1

/-- Writing a map keeps its keys distinct. -/
theorem mapSet_nodup (m : List (K × V)) (hnd : (m.map Prod.fst).Nodup) (k : K) (v : V) :
    ((mapSet m k v).map Prod.fst).Nodup := by
  unfold mapSet
  rw [List.map_cons, List.nodup_cons]
  refine ⟨?_, ((List.filter_sublist m).map Prod.fst).nodup hnd⟩
  intro hmem
  obtain ⟨x, hx, hxk⟩ := List.mem_map.mp hmem
  have := (List.mem_filter.mp hx).2
  simp at this
  exact this hxk

end maps

namespace consistenthash

theorem foldl_addReplica_nodup (key : String) (is : List Nat) (m : Map)
    (hnd : (m.hashMap.map Prod.fst).Nodup) :
    ((is.foldl (Map.addReplica key) m).hashMap.map Prod.fst).Nodup := by
  induction is generalizing m with
  | nil => exact hnd
  | cons i is ih =>
    rw [List.foldl_cons]
    exact ih _ (mapSet_nodup m.hashMap hnd _ _)

theorem foldl_addNode_table (ps : List String) (m : Map)
    (hnd : (m.hashMap.map Prod.fst).Nodup) :
    (ps.foldl Map.addNode m).hash = m.hash ∧
    ((ps.foldl Map.addNode m).hashMap.map Prod.fst).Nodup := by
  induction ps generalizing m with
  | nil => exact ⟨rfl, hnd⟩
  | cons q ps ih =>
    rw [List.foldl_cons]
    have h1 : (m.addNode q).hash = m.hash :=
      (foldl_addReplica q (List.range m.replicas.toNat) m).1
    have h2 : ((m.addNode q).hashMap.map Prod.fst).Nodup :=
      foldl_addReplica_nodup q (List.range m.replicas.toNat) m hnd
    obtain ⟨h3, h4⟩ := ih (m.addNode q) h2
    exact ⟨h3.trans h1, h4⟩

/-- A ring hashes with the function given to `New`, `crc32.ChecksumIEEE` when that was
nil, and its mapping table holds one entry for a virtual-node hash. -/
theorem build_table (replicas : Int) (fn : Option Hash) (adds : List (List String)) :
    (build replicas fn adds).hash = fn.getD ChecksumIEEE ∧
    ((build replicas fn adds).hashMap.map Prod.fst).Nodup := by
  have h : ∀ (adds : List (List String)) (m : Map), (m.hashMap.map Prod.fst).Nodup →
      (adds.foldl Map.Add m).hash = m.hash ∧
      ((adds.foldl Map.Add m).hashMap.map Prod.fst).Nodup := by
    intro adds
    induction adds with
    | nil => intro m hnd; exact ⟨rfl, hnd⟩
    | cons a adds ih =>
      intro m hnd
      rw [List.foldl_cons]
      obtain ⟨h1, h2⟩ := foldl_addNode_table a m hnd
      have h1b : (m.Add a).hash = m.hash := h1
      have h2b : ((m.Add a).hashMap.map Prod.fst).Nodup := h2
      obtain ⟨h3, h4⟩ := ih (m.Add a) h2b
      exact ⟨h3.trans h1b, h4⟩
  obtain ⟨h1, h2⟩ := h adds (New replicas fn) (by simp [New])
  refine ⟨?_, h2⟩
  rw [build, h1]
  cases fn <;> rfl

/-- C1: on every ring built by `New(replicas, fn)` and any number of `Add` calls that
holds at least one virtual node, `Get(key)` returns without fault a node id `owner`
such that, for a member `s` of the ring, `(s, owner)` is the entry of the mapping table
for `s` (the table has no other entry for `s`), where `s` is the smallest virtual-node
hash that is `>= hash(key)` or, when no virtual-node hash is `>= hash(key)`, the
smallest virtual-node hash of the ring.  Here `hash(key)` is the `uint32` that `fn`
(`crc32.ChecksumIEEE` when `fn` is nil) gives on the UTF-8 bytes of `key`. -/
theorem Get_returns_ring_successor (replicas : Int) (fn : Option Hash)
    (adds : List (List String)) (key : String)
    (hne : (build replicas fn adds).keys ≠ []) :
    ∃ (s : Int) (owner : String),
      (build replicas fn adds).Get key = .ok owner ∧
      s ∈ (build replicas fn adds).keys ∧
      (s, owner) ∈ (build replicas fn adds).hashMap ∧
      (∀ o, (s, o) ∈ (build replicas fn adds).hashMap → o = owner) ∧
      (((((fn.getD ChecksumIEEE) key.toUTF8.data.toList % 2 ^ 32 : Nat) : Int) ≤ s ∧
          ∀ x ∈ (build replicas fn adds).keys,
            (((fn.getD ChecksumIEEE) key.toUTF8.data.toList % 2 ^ 32 : Nat) : Int) ≤ x →
              s ≤ x) ∨
        ((∀ x ∈ (build replicas fn adds).keys,
            x < (((fn.getD ChecksumIEEE) key.toUTF8.data.toList % 2 ^ 32 : Nat) : Int)) ∧
          ∀ x ∈ (build replicas fn adds).keys, s ≤ x)) := by
  obtain ⟨hhash, hnd⟩ := build_table replicas fn adds
  obtain ⟨s, ⟨hmem, hsucc⟩, hget⟩ :=
    Get_sorted (build replicas fn adds) (build_keys_sorted replicas fn adds) hne key
  obtain ⟨p, -, hf⟩ := foldl_Add_owned adds.flatten adds (New replicas fn)
    (fun a ha p hp => List.mem_flatten.mpr ⟨a, ha, hp⟩)
    (fun s hs => by simp [New] at hs) s hmem
  have hf2 : mapFind (build replicas fn adds).hashMap s = some p := hf
  have hh : (build replicas fn adds).hashOf key =
      (((fn.getD ChecksumIEEE) key.toUTF8.data.toList % 2 ^ 32 : Nat) : Int) := by
    rw [Map.hashOf, hhash]
    rfl
  rw [hh] at hsucc
  refine ⟨s, p, ?_, hmem, mem_of_mapFind _ _ _ hf2, ?_, hsucc⟩
  · rw [hget]
    simp [mapGet, hf2]
  · intro o ho
    have := mapFind_of_mem _ hnd s o ho
    rw [hf2] at this
    exact (Option.some.inj this).symm

set_option maxRecDepth 1000000 in
/-- C1 at the ring of nodes "A", "B", "C" with three replicas and the default hash,
whose nine virtual-node hashes are listed.  The key "hello" has the hash 907060870;
the smallest virtual node that is not below it is 1132222116, which the table maps to
"C", and `Get("hello")` is "C".  The key "0" has the hash 4108050209, above every
virtual node; the smallest virtual node is 105710768, which the table maps to "B", and
`Get("0")` is "B". -/
theorem Get_returns_ring_successor_witness :
    (build 3 none [["A", "B", "C"]]).keys ≠ [] ∧
    (∃ (s : Int) (owner : String),
      (build 3 none [["A", "B", "C"]]).Get "hello" = .ok owner ∧
      s ∈ (build 3 none [["A", "B", "C"]]).keys ∧
      (s, owner) ∈ (build 3 none [["A", "B", "C"]]).hashMap ∧
      (∀ o, (s, o) ∈ (build 3 none [["A", "B", "C"]]).hashMap → o = owner) ∧
      ((((((none : Option Hash).getD ChecksumIEEE) "hello".toUTF8.data.toList % 2 ^ 32 :
            Nat) : Int) ≤ s ∧
          ∀ x ∈ (build 3 none [["A", "B", "C"]]).keys,
            ((((none : Option Hash).getD ChecksumIEEE) "hello".toUTF8.data.toList % 2 ^ 32 :
              Nat) : Int) ≤ x → s ≤ x) ∨
        ((∀ x ∈ (build 3 none [["A", "B", "C"]]).keys,
            x < ((((none : Option Hash).getD ChecksumIEEE) "hello".toUTF8.data.toList %
              2 ^ 32 : Nat) : Int)) ∧
          ∀ x ∈ (build 3 none [["A", "B", "C"]]).keys, s ≤ x))) ∧
    (build 3 none [["A", "B", "C"]]).keys =
      [105710768, 525743601, 880502322, 1132222116, 1750140263, 1900688422, 2254398539,
        2672055562, 2909943688] ∧
    (build 3 none [["A", "B", "C"]]).hashMap =
      [(1132222116, "C"), (1750140263, "C"), (1900688422, "C"), (880502322, "B"),
        (525743601, "B"), (105710768, "B"), (2909943688, "A"), (2254398539, "A"),
        (2672055562, "A")] ∧
    ChecksumIEEE "hello".toUTF8.data.toList = 907060870 ∧
    (build 3 none [["A", "B", "C"]]).Get "hello" = .ok "C" ∧
    ChecksumIEEE "0".toUTF8.data.toList = 4108050209 ∧
    (build 3 none [["A", "B", "C"]]).Get "0" = .ok "B" :=
  ⟨by decide, Get_returns_ring_successor 3 none [["A", "B", "C"]] "hello" (by decide),
    by decide, by decide, by decide, by decide, by decide, by decide⟩

end consistenthash

/-! ## Calls that do not return -/

namespace lru

variable {V : Type} [Value V]

/-- Once the list is empty while the budget is still exceeded, the eviction loop goes
on for ever: `RemoveOldest` changes nothing and the loop test stays true. -/
theorem evictLoop_empty_diverges (c : Cache V) (hll : c.ll = [])
    (hcond : c.maxBytes ≠ 0 ∧ c.maxBytes < c.nbytes) :
    ∀ fuel, c.evictLoop fuel = .error .outOfFuel := by
  intro fuel
  induction fuel with
  | zero => exact evictLoop_zero c hcond
  | succ fuel ih =>
    rw [evictLoop_succ fuel c hcond]
    have : c.RemoveOldest = .ok c := by simp [Cache.RemoveOldest, listBack, hll]
    rw [this]
    exact ih

/-- C17 at `New(-1, nil)`: `Add("a", "x")` does not return, whatever number of
iterations its loop is given.  The loop evicts the added entry and then finds
`nbytes = 0`, still above `maxBytes = -1`, with nothing left to evict. -/
theorem Add_negative_budget_diverges (fuel : Nat) :
    (New (-1) false : Cache String).Add fuel "a" "x" = .error .outOfFuel := by
  have h1 : (New (-1) false : Cache String).addEntry "a" "x" =
      .ok { maxBytes := -1, nbytes := 2, ll := [0],
            elems := [(0, { key := "a", value := "x" })], next := 1, cache := [("a", 0)],
            OnEvicted := false, calls := [] } := by decide
  simp only [Cache.Add, h1]
  cases fuel with
  | zero => decide
  | succ fuel =>
    rw [evictLoop_succ _ _ (by decide)]
    have h2 :
        Cache.RemoveOldest
          ({ maxBytes := -1, nbytes := 2, ll := [0],
             elems := [(0, { key := "a", value := "x" })], next := 1, cache := [("a", 0)],
             OnEvicted := false, calls := [] } : Cache String) =
        .ok { maxBytes := -1, nbytes := 0, ll := [],
              elems := [(0, { key := "a", value := "x" })], next := 1, cache := [],
              OnEvicted := false, calls := [] } := by decide
    rw [h2]
    exact evictLoop_empty_diverges _ rfl (by decide) fuel

end lru

namespace geecache

/-- C18 on the router `NewHTTPPool(self)`: `PickPeer(key)` faults.  The field `peers`
is still the nil `*Map`, and `Get` reads `m.keys` through it. -/
theorem PickPeer_before_Set_faults (self key : String) :
    (NewHTTPPool self).PickPeer key = .error .nilPointer := rfl

end geecache

/-! ## The HTTP handler -/

namespace geecache

theorem cutSlash_none (l : List Char) (h : '/' ∉ l) : cutSlash l = none := by
  induction l with
  | nil => rfl
  | cons c cs ih =>
    have hc : c ≠ '/' := fun e => h (e ▸ List.mem_cons_self _ _)
    have hcs : '/' ∉ cs := fun hm => h (List.mem_cons_of_mem _ hm)
    simp [cutSlash, hc, ih hcs]

theorem cutSlash_first (a b : List Char) (h : '/' ∉ a) :
    cutSlash (a ++ '/' :: b) = some (a, b) := by
  induction a with
  | nil => simp [cutSlash]
  | cons c cs ih =>
    have hc : c ≠ '/' := fun e => h (e ▸ List.mem_cons_self _ _)
    have hcs : '/' ∉ cs := fun hm => h (List.mem_cons_of_mem _ hm)
    simp [cutSlash, hc, ih hcs]

/-- A text without `'/'` is not split. -/
theorem splitN2_single (s : String) (h : '/' ∉ s.data) : splitN2 s = [s] := by
  simp [splitN2, cutSlash_none s.data h]

/-- A text is split at its first `'/'`. -/
theorem splitN2_pair (g k : String) (h : '/' ∉ g.data) :
    splitN2 (g ++ "/" ++ k) = [g, k] := by
  have hd : (g ++ "/" ++ k).data = g.data ++ '/' :: k.data := by
    simp [String.data_append]
  simp [splitN2, hd, cutSlash_first g.data k.data h]

theorem hasPrefix_append (pre rest : String) : hasPrefix (pre ++ rest) pre = true := by
  simp [hasPrefix, String.data_append]

theorem afterPrefix_append (pre rest : String) : afterPrefix (pre ++ rest) pre = rest := by
  simp [afterPrefix, String.data_append]

/-- C11: let the path of the request be `basePath` followed by `rest`, and let the
handler be called on a response writer not yet written to.  If `rest` has no `'/'`,
`ServeHTTP` answers with status 400, and the answer is the same whatever the group
registry holds.  If `rest` is `groupName`, `'/'`, `key` with no `'/'` in `groupName`
(`key` may hold some), the status is 404, the body being the UTF-8 bytes of the line
`no such group: <groupName>`, when the registry has no group `groupName`; it is 500
when the `Get(key)` of the group returns an error; and when `Get(key)` succeeds it is
200, the content type sent is `application/octet-stream` and the body is the raw bytes
of the value. -/
theorem ServeHTTP_status (p : HTTPPool) (GetGroup : String → Option Group)
    (method rest : String) :
    ('/' ∉ rest.data → ∃ w, w.status = some 400 ∧
      ∀ G, p.ServeHTTP G NewRecorder { Method := method, Path := p.basePath ++ rest } =
        .ok w) ∧
    (∀ groupName key, '/' ∉ groupName.data → rest = groupName ++ "/" ++ key →
      ∃ w, p.ServeHTTP GetGroup NewRecorder
          { Method := method, Path := p.basePath ++ rest } = .ok w ∧
        (GetGroup groupName = none → w.status = some 404 ∧
          w.body = ("no such group: " ++ groupName ++ "\n").toUTF8.data.toList) ∧
        (∀ g err, GetGroup groupName = some g → (g.Get key).2 = some err →
          w.status = some 500) ∧
        (∀ g, GetGroup groupName = some g → (g.Get key).2 = none →
          w.status = some 200 ∧
          w.sentField "Content-Type" = some "application/octet-stream" ∧
          w.body = (g.Get key).1.b)) := by
  constructor
  · intro hno
    refine ⟨httpError NewRecorder "bad request" 400, rfl, ?_⟩
    intro G
    simp [HTTPPool.ServeHTTP, hasPrefix_append, afterPrefix_append, splitN2_single rest hno]
  · intro groupName key hg hrest
    subst hrest
    cases hG : GetGroup groupName with
    | none =>
      refine ⟨httpError NewRecorder ("no such group: " ++ groupName) 404, ?_, ?_, ?_, ?_⟩
      · simp [HTTPPool.ServeHTTP, hasPrefix_append, afterPrefix_append,
          splitN2_pair groupName key hg, hG]
      · intro _
        refine ⟨rfl, ?_⟩
        simp [httpError, ResponseWriter.Write, ResponseWriter.WriteHeader,
          ResponseWriter.SetHeader, NewRecorder, String.append_assoc, bytes]
      · intro g err h
        cases h
      · intro g h
        cases h
    | some g =>
      refine ⟨_, by simp only [HTTPPool.ServeHTTP, hasPrefix_append, afterPrefix_append,
        splitN2_pair groupName key hg, hG, Bool.not_true, Bool.false_eq_true, if_false]; rfl,
        ?_, ?_, ?_⟩
      · intro h
        cases h
      · intro g2 err h2 herr
        cases h2
        simp [herr, httpError, ResponseWriter.Write, ResponseWriter.WriteHeader,
          ResponseWriter.SetHeader, ResponseWriter.status, NewRecorder]
      · intro g2 h2 hok
        cases h2
        simp [hok, ResponseWriter.Write, ResponseWriter.WriteHeader,
          ResponseWriter.SetHeader, ResponseWriter.status, ResponseWriter.sentField,
          NewRecorder, mapSet, mapFind, ByteView.ByteSlice]

/-- C11 at the router `NewHTTPPool("A")`: the paths `/_geecache/g` (400, body
`bad request`), `/_geecache/h/k` with no group `h` (404, body `no such group: h`),
`/_geecache/g/k` with a failing group `g` (500, body `boom`), and `/_geecache/e/k/x`
with a group `e` that returns the bytes of the key (200, body `k/x`); every body is
given byte by byte, the lines ending in a newline (byte 10). -/
theorem ServeHTTP_status_witness :
    ('/' ∉ "g".data ∧ '/' ∉ "h".data ∧ "h/k" = "h" ++ "/" ++ "k" ∧
      failingRegistry { b := [] } "h" = none) ∧
    (∃ w, w.status = some 400 ∧
      ∀ G, (NewHTTPPool "A").ServeHTTP G NewRecorder
        { Method := "GET", Path := (NewHTTPPool "A").basePath ++ "g" } = .ok w) ∧
    (∃ w, (NewHTTPPool "A").ServeHTTP (failingRegistry { b := [] }) NewRecorder
          { Method := "GET", Path := (NewHTTPPool "A").basePath ++ "h/k" } = .ok w ∧
        (failingRegistry { b := [] } "h" = none → w.status = some 404 ∧
          w.body = ("no such group: " ++ "h" ++ "\n").toUTF8.data.toList) ∧
        (∀ g err, failingRegistry { b := [] } "h" = some g → (g.Get "k").2 = some err →
          w.status = some 500) ∧
        (∀ g, failingRegistry { b := [] } "h" = some g → (g.Get "k").2 = none →
          w.status = some 200 ∧
          w.sentField "Content-Type" = some "application/octet-stream" ∧
          w.body = (g.Get "k").1.b)) ∧
    ((NewHTTPPool "A").ServeHTTP (failingRegistry { b := [] }) NewRecorder
        { Method := "GET", Path := "/_geecache/g" }).map
      (fun w => (w.status, w.body)) =
      .ok (some 400, [98, 97, 100, 32, 114, 101, 113, 117, 101, 115, 116, 10]) ∧
    ((NewHTTPPool "A").ServeHTTP (failingRegistry { b := [] }) NewRecorder
        { Method := "GET", Path := "/_geecache/h/k" }).map
      (fun w => (w.status, w.body)) =
      .ok (some 404,
        [110, 111, 32, 115, 117, 99, 104, 32, 103, 114, 111, 117, 112, 58, 32, 104, 10]) ∧
    ((NewHTTPPool "A").ServeHTTP (failingRegistry { b := [] }) NewRecorder
        { Method := "GET", Path := "/_geecache/g/k" }).map
      (fun w => (w.status, w.body)) = .ok (some 500, [98, 111, 111, 109, 10]) ∧
    ((NewHTTPPool "A").ServeHTTP
        (fun _ => some { Get := fun k => ({ b := k.toUTF8.data.toList }, none) })
        NewRecorder { Method := "GET", Path := "/_geecache/e/k/x" }).map
      (fun w => (w.status, w.sentField "Content-Type", w.body)) =
      .ok (some 200, some "application/octet-stream", [107, 47, 120]) :=
  ⟨⟨by decide, by decide, by decide, by simp [failingRegistry]⟩,
    (ServeHTTP_status (NewHTTPPool "A") (failingRegistry { b := [] }) "GET" "g").1
      (by decide),
    (ServeHTTP_status (NewHTTPPool "A") (failingRegistry { b := [] }) "GET" "h/k").2
      "h" "k" (by decide) (by decide),
    by decide, by decide, by decide, by decide⟩

/-- C12 at the router `NewHTTPPool("A")` and the path `/_geecache/g/k`, the `Get` of
group `g` returning the error `"boom"`: after the failure has been written with status
500 the handler goes on.  It sets the content type `application/octet-stream` in the
header map, and it writes the bytes of the view: when the group returns the view `"v"`
beside the error, the body is `boom`, newline, `v`.  The failures 400 and 404 are
followed by `return` and leave the body and the header map as `http.Error` made
them. -/
theorem ServeHTTP_writes_after_error :
    ((NewHTTPPool "A").ServeHTTP (failingRegistry { b := bytes "v" }) NewRecorder
        { Method := "GET", Path := "/_geecache/g/k" }).map
      (fun w => (w.status, w.body, mapFind w.header "Content-Type")) =
      .ok (some 500, bytes "boom\n" ++ bytes "v", some "application/octet-stream") ∧
    ((NewHTTPPool "A").ServeHTTP (failingRegistry { b := [] }) NewRecorder
        { Method := "GET", Path := "/_geecache/g/k" }).map
      (fun w => (w.status, w.body, mapFind w.header "Content-Type")) =
      .ok (some 500, bytes "boom\n", some "application/octet-stream") ∧
    (NewHTTPPool "A").ServeHTTP (failingRegistry { b := bytes "v" }) NewRecorder
        { Method := "GET", Path := "/_geecache/g/k" } ≠
      .ok (httpError NewRecorder "boom" 500) ∧
    (NewHTTPPool "A").ServeHTTP (failingRegistry { b := [] }) NewRecorder
        { Method := "GET", Path := "/_geecache/h/k" } =
      .ok (httpError NewRecorder "no such group: h" 404) ∧
    (NewHTTPPool "A").ServeHTTP (failingRegistry { b := [] }) NewRecorder
        { Method := "GET", Path := "/_geecache/g" } =
      .ok (httpError NewRecorder "bad request" 400) :=
  ⟨by decide, by decide, by decide, by decide, by decide⟩

end geecache

/-! ## The sorting functions -/

namespace gosort

/-- C19 at the slice `[3, 1, 2]`: `SelectSort` leaves `[2, 3, 1]`, which is not in
non-decreasing order.  In the first pass the largest element is at index `i` itself;
the swap that puts the smallest element at `i` moves it away, and the second swap
then takes the element now at `maxindex`, the smallest, to the end. -/
theorem SelectSort_leaves_unsorted :
    SelectSort [3, 1, 2] = .ok [2, 3, 1] ∧ ¬ ([2, 3, 1] : List Int).Sorted (· ≤ ·) ∧
    ([2, 3, 1] : List Int).Perm [3, 1, 2] :=
  ⟨by decide, by decide, by decide⟩

/-- C20 at the empty slice: `MergeSort` does not return, whatever depth of recursion it
is given.  The test `len(nums) == 1` fails for the empty slice, both halves are empty
again, and the first recursive call is on an empty slice. -/
theorem MergeSort_empty_diverges (fuel : Nat) :
    MergeSort fuel [] = .error .outOfFuel := by
  induction fuel with
  | zero => rfl
  | succ fuel ih =>
    have h : MergeSort fuel (([] : List Int).take (0 / 2)) = .error .outOfFuel := ih
    simp only [MergeSort, List.length_nil, Nat.zero_ne_one, if_false, h]

end gosort

namespace gosort

theorem take_succ_set (l : List Int) (n : Nat) (v : Int) (h : n < l.length) :
    (l.set n v).take (n + 1) = l.take n ++ [v] := by
  induction l generalizing n with
  | nil => simp at h
  | cons a l ih =>
    cases n with
    | zero => simp
    | succ n =>
      have h2 : n < l.length := by simpa using h
      simp [ih n h2]

/-- Merging two sorted lists, the left element going first when it is smaller, gives a
sorted list. -/
theorem sorted_merge_lt (xs ys : List Int) (hx : xs.Sorted (· ≤ ·)) (hy : ys.Sorted (· ≤ ·)) :
    (xs.merge ys (fun a b => decide (a < b))).Sorted (· ≤ ·) := by
  induction xs generalizing ys with
  | nil => simpa [List.nil_merge] using hy
  | cons x xs ihx =>
    induction ys with
    | nil => simpa [List.merge_right] using hx
    | cons y ys ihy =>
      rw [List.cons_merge_cons]
      obtain ⟨hx1, hx2⟩ := List.pairwise_cons.mp hx
      obtain ⟨hy1, hy2⟩ := List.pairwise_cons.mp hy
      by_cases hlt : x < y
      · simp only [hlt, decide_True, if_true]
        refine List.pairwise_cons.mpr ⟨?_, ihx (y :: ys) hx2 hy⟩
        intro z hz
        rcases List.mem_merge.mp hz with h1 | h1
        · exact hx1 z h1
        · rcases List.mem_cons.mp h1 with h2 | h2
          · rw [h2]; exact le_of_lt hlt
          · exact le_trans (le_of_lt hlt) (hy1 z h2)
      · simp only [hlt, decide_False, Bool.false_eq_true, if_false]
        refine List.pairwise_cons.mpr ⟨?_, ihy hy2⟩
        intro z hz
        have hyx : y ≤ x := not_lt.mp hlt
        rcases List.mem_merge.mp hz with h1 | h1
        · rcases List.mem_cons.mp h1 with h2 | h2
          · rw [h2]; exact hyx
          · exact le_trans hyx (hx1 z h2)
        · exact hy1 z h1

/-- The merging loop fills `temp` from position `index` on with the merge of what is
left of the two halves, within as many iterations as elements are left, and without an
index out of range. -/
theorem mergeLoop_ok (nums1 nums2 : List Int) :
    ∀ (fuel i j index : Nat) (temp : List Int), i ≤ nums1.length → j ≤ nums2.length →
      index = i + j → temp.length = nums1.length + nums2.length →
      (nums1.length - i) + (nums2.length - j) ≤ fuel →
      mergeLoop nums1 nums2 fuel i j index temp =
        .ok (temp.take index ++
          (nums1.drop i).merge (nums2.drop j) (fun a b => decide (a < b))) := by
  intro fuel
  induction fuel with
  | zero =>
    intro i j index temp hi hj hidx hlen hfuel
    have hi2 : i = nums1.length := by omega
    have hj2 : j = nums2.length := by omega
    have hcond : ¬ (i < nums1.length ∨ j < nums2.length) := by omega
    rw [mergeLoop, if_neg hcond]
    rw [List.drop_eq_nil_of_le (by omega), List.drop_eq_nil_of_le (by omega),
      List.nil_merge, List.append_nil, List.take_of_length_le (by omega)]
  | succ fuel ih =>
    intro i j index temp hi hj hidx hlen hfuel
    by_cases hcond : i < nums1.length ∨ j < nums2.length
    · have hstore : ∀ v, store temp index v = .ok (temp.set index v) := by
        intro v
        have : index < temp.length := by omega
        simp [store, this]
      have hlen2 : ∀ v, (temp.set index v).length = nums1.length + nums2.length := by
        intro v; rw [List.length_set, hlen]
      have htake : ∀ v, (temp.set index v).take (index + 1) = temp.take index ++ [v] :=
        fun v => take_succ_set temp index v (by omega)
      by_cases hi2 : i = nums1.length
      · have hj2 : j < nums2.length := by omega
        have hget : nums2[j]? = some nums2[j] := List.getElem?_eq_getElem hj2
        rw [mergeLoop, if_pos hcond, if_pos hi2]
        simp only [hget, hstore]
        rw [ih i (j + 1) (index + 1) _ hi (by omega) (by omega) (hlen2 _)
          (by omega), htake]
        rw [List.drop_eq_nil_of_le (le_of_eq hi2.symm), List.nil_merge, List.nil_merge,
          List.drop_eq_getElem_cons hj2]
        simp
      · by_cases hj2 : j = nums2.length
        · have hi3 : i < nums1.length := by omega
          have hget : nums1[i]? = some nums1[i] := List.getElem?_eq_getElem hi3
          rw [mergeLoop, if_pos hcond, if_neg hi2, if_pos hj2]
          simp only [hget, hstore]
          rw [ih (i + 1) j (index + 1) _ (by omega) hj (by omega)
            (hlen2 _) (by omega), htake]
          rw [List.drop_eq_nil_of_le (le_of_eq hj2.symm), List.merge_right, List.merge_right,
            List.drop_eq_getElem_cons hi3]
          simp
        · have hi3 : i < nums1.length := by omega
          have hj3 : j < nums2.length := by omega
          have hget1 : nums1[i]? = some nums1[i] := List.getElem?_eq_getElem hi3
          have hget2 : nums2[j]? = some nums2[j] := List.getElem?_eq_getElem hj3
          rw [mergeLoop, if_pos hcond, if_neg hi2, if_neg hj2]
          simp only [hget1, hget2]
          rw [List.drop_eq_getElem_cons hi3, List.drop_eq_getElem_cons hj3,
            List.cons_merge_cons]
          by_cases hlt : nums1[i] < nums2[j]
          · simp only [hlt, if_true, decide_True, hstore]
            rw [ih (i + 1) j (index + 1) _ (by omega) hj (by omega) (hlen2 _) (by omega),
              htake, List.drop_eq_getElem_cons hj3]
            simp
          · simp only [hlt, if_false, decide_False, Bool.false_eq_true, hstore]
            rw [ih i (j + 1) (index + 1) _ hi (by omega) (by omega) (hlen2 _) (by omega),
              htake, List.drop_eq_getElem_cons hi3]
            simp
    · have hi2 : i = nums1.length := by omega
      have hj2 : j = nums2.length := by omega
      rw [mergeLoop, if_neg hcond]
      rw [List.drop_eq_nil_of_le (by omega), List.drop_eq_nil_of_le (by omega),
        List.nil_merge, List.append_nil, List.take_of_length_le (by omega)]

/-- On every non-empty slice `MergeSort` returns, within a recursion depth of
`len(nums)`, and leaves the slice sorted and a permutation of what it was: the empty
slice is the only one on which it does not return. -/
theorem MergeSort_nonempty (n : Nat) :
    ∀ nums : List Int, nums.length = n → nums ≠ [] →
      ∃ out, (∀ fuel, nums.length ≤ fuel → MergeSort fuel nums = .ok out) ∧
        out.Sorted (· ≤ ·) ∧ out.Perm nums := by
  induction n using Nat.strong_induction_on with
  | _ n ih =>
    intro nums hn hne
    have hpos : 0 < nums.length := List.length_pos.mpr hne
    by_cases h1 : nums.length = 1
    · refine ⟨nums, ?_, ?_, List.Perm.refl _⟩
      · intro fuel hfuel
        obtain ⟨f, rfl⟩ : ∃ f, fuel = f + 1 := ⟨fuel - 1, by omega⟩
        simp [MergeSort, h1]
      · obtain ⟨a, ha⟩ := List.length_eq_one.mp h1
        rw [ha]
        exact List.sorted_singleton a
    · have hlen1 : (nums.take (nums.length / 2)).length = nums.length / 2 := by
        rw [List.length_take]; omega
      have hlen2 : (nums.drop (nums.length / 2)).length = nums.length - nums.length / 2 := by
        rw [List.length_drop]
      have hne1 : nums.take (nums.length / 2) ≠ [] := by
        intro h; rw [h] at hlen1; simp at hlen1; omega
      have hne2 : nums.drop (nums.length / 2) ≠ [] := by
        intro h; rw [h] at hlen2; simp at hlen2; omega
      obtain ⟨s1, hs1, hsorted1, hperm1⟩ :=
        ih (nums.length / 2) (by omega) _ hlen1 hne1
      obtain ⟨s2, hs2, hsorted2, hperm2⟩ :=
        ih (nums.length - nums.length / 2) (by omega) _ hlen2 hne2
      have hl1 : s1.length = nums.length / 2 := by rw [hperm1.length_eq, hlen1]
      have hl2 : s2.length = nums.length - nums.length / 2 := by
        rw [hperm2.length_eq, hlen2]
      refine ⟨s1.merge s2 (fun a b => decide (a < b)), ?_,
        sorted_merge_lt s1 s2 hsorted1 hsorted2, ?_⟩
      · intro fuel hfuel
        obtain ⟨f, rfl⟩ : ∃ f, fuel = f + 1 := ⟨fuel - 1, by omega⟩
        have e1 := hs1 f (by rw [hlen1]; omega)
        have e2 := hs2 f (by rw [hlen2]; omega)
        simp only [MergeSort, h1, if_false, e1, e2]
        rw [mergeLoop_ok s1 s2 nums.length 0 0 0 _ (Nat.zero_le _) (Nat.zero_le _) rfl
          (by rw [List.length_replicate, hl1, hl2]; omega) (by rw [hl1, hl2]; omega)]
        simp
      · have := @List.merge_perm_append Int (fun a b : Int => decide (a < b)) s1 s2
        refine this.trans ?_
        have h3 := hperm1.append hperm2
        rwa [List.take_append_drop] at h3

/-- On every non-empty slice `MergeSort` returns whenever its recursion may be
`len(nums)` deep, and the slice it leaves is in non-decreasing order and a permutation
of the original one. -/
theorem MergeSort_sorts_nonempty (nums : List Int) (hne : nums ≠ []) :
    ∃ out, (∀ fuel, nums.length ≤ fuel → MergeSort fuel nums = .ok out) ∧
      out.Sorted (· ≤ ·) ∧ out.Perm nums :=
  MergeSort_nonempty nums.length nums rfl hne

end gosort

/-! ## `partition` and `QuickSort` -/

namespace gosort

theorem readAt_mid (l1 : List Int) (x : Int) (l2 : List Int) (k : Int)
    (hk : k = (l1.length : Int)) : readAt (l1 ++ x :: l2) k = .ok x := by
  subst hk
  have h : ¬ ((l1.length : Int) < 0) := by omega
  have h2 : (l1 ++ x :: l2)[l1.length]? = some x := by
    rw [List.getElem?_append_right (le_refl _)]
    simp
  simp only [readAt, h, if_false, Int.toNat_ofNat, h2]

theorem writeAt_mid (l1 : List Int) (x : Int) (l2 : List Int) (k v : Int)
    (hk : k = (l1.length : Int)) : writeAt (l1 ++ x :: l2) k v = .ok (l1 ++ v :: l2) := by
  subst hk
  have h : ¬ ((l1.length : Int) < 0) := by omega
  simp [writeAt, h]

theorem scanDown_stop (nums : List Int) (temp i : Int) (fuel : Nat) (j : Int)
    (h : ¬ i < j) : scanDown nums temp i fuel j = .ok j := by
  cases fuel <;> simp [scanDown, h]

theorem scanDown_found (nums : List Int) (temp i : Int) (fuel : Nat) (j v : Int)
    (h : i < j) (hr : readAt nums j = .ok v) (hv : v < temp) :
    scanDown nums temp i fuel j = .ok j := by
  have hv2 : ¬ temp ≤ v := not_le.mpr hv
  cases fuel <;> simp [scanDown, h, hr, hv2]

theorem scanDown_step (nums : List Int) (temp i : Int) (fuel : Nat) (j v : Int)
    (h : i < j) (hr : readAt nums j = .ok v) (hv : temp ≤ v) :
    scanDown nums temp i (fuel + 1) j = scanDown nums temp i fuel (j - 1) := by
  simp [scanDown, h, hr, hv]

theorem scanUp_stop (nums : List Int) (temp j : Int) (fuel : Nat) (i : Int)
    (h : ¬ i < j) : scanUp nums temp j fuel i = .ok i := by
  cases fuel <;> simp [scanUp, h]

theorem scanUp_found (nums : List Int) (temp j : Int) (fuel : Nat) (i v : Int)
    (h : i < j) (hr : readAt nums i = .ok v) (hv : temp ≤ v) :
    scanUp nums temp j fuel i = .ok i := by
  have hv2 : ¬ v < temp := not_lt.mpr hv
  cases fuel <;> simp [scanUp, h, hr, hv2]

theorem scanUp_step (nums : List Int) (temp j : Int) (fuel : Nat) (i v : Int)
    (h : i < j) (hr : readAt nums i = .ok v) (hv : v < temp) :
    scanUp nums temp j (fuel + 1) i = scanUp nums temp j fuel (i + 1) := by
  simp [scanUp, h, hr, hv]

/-- Every list ends with a longest run of elements `>= temp`; what comes before the
run is empty or ends with an element `< temp`. -/
theorem split_ge_suffix (temp : Int) (M : List Int) :
    ∃ M1 G, M = M1 ++ G ∧ (∀ g ∈ G, temp ≤ g) ∧
      (M1 = [] ∨ ∃ M2 y, M1 = M2 ++ [y] ∧ y < temp) := by
  induction M using List.reverseRecOn with
  | nil => exact ⟨[], [], rfl, by simp, Or.inl rfl⟩
  | append_singleton M a ih =>
    by_cases ha : temp ≤ a
    · obtain ⟨M1, G, hM, hG, hM1⟩ := ih
      refine ⟨M1, G ++ [a], by rw [hM, List.append_assoc], ?_, hM1⟩
      intro g hg
      rcases List.mem_append.mp hg with h | h
      · exact hG g h
      · rw [List.mem_singleton.mp h]; exact ha
    · exact ⟨M ++ [a], [], by simp, by simp, Or.inr ⟨M, a, rfl, not_le.mp ha⟩⟩

/-- Every list begins with a longest run of elements `< temp`; what comes after the
run is empty or begins with an element `>= temp`. -/
theorem split_lt_prefix (temp : Int) (M : List Int) :
    ∃ S M3, M = S ++ M3 ∧ (∀ s ∈ S, s < temp) ∧
      (M3 = [] ∨ ∃ z M4, M3 = z :: M4 ∧ temp ≤ z) := by
  induction M with
  | nil => exact ⟨[], [], rfl, by simp, Or.inl rfl⟩
  | cons a M ih =>
    by_cases ha : a < temp
    · obtain ⟨S, M3, hM, hS, hM3⟩ := ih
      refine ⟨a :: S, M3, by rw [hM, List.cons_append], ?_, hM3⟩
      intro s hs
      rcases List.mem_cons.mp hs with h | h
      · rw [h]; exact ha
      · exact hS s h
    · exact ⟨[], a :: M, rfl, by simp, Or.inr ⟨a, M, rfl, not_lt.mp ha⟩⟩

/-- The downward scan passes the run `G` of elements `>= temp` and stops at the end of
`M1`, within `len(G)` iterations. -/
theorem scanDown_spec (temp : Int) (G : List Int) :
    (∀ g ∈ G, temp ≤ g) → ∀ (fuel : Nat) (L M1 R : List Int) (i : Int),
      G.length ≤ fuel → i + 1 = (L.length : Int) →
      (M1 = [] ∨ ∃ M2 y, M1 = M2 ++ [y] ∧ y < temp) →
      scanDown (L ++ M1 ++ G ++ R) temp i fuel (i + M1.length + G.length) =
        .ok (i + M1.length) := by
  induction G using List.reverseRecOn with
  | nil =>
    intro _ fuel L M1 R i _ hi hM1
    simp only [List.length_nil, Nat.cast_zero, add_zero]
    rcases hM1 with h | ⟨M2, y, h, hy⟩
    · subst h
      simp only [List.length_nil, Nat.cast_zero, add_zero]
      exact scanDown_stop _ _ _ _ _ (lt_irrefl i)
    · subst h
      have hlist : L ++ (M2 ++ [y]) ++ [] ++ R = (L ++ M2) ++ y :: R := by simp
      rw [hlist]
      refine scanDown_found _ _ _ _ _ y ?_ (readAt_mid _ _ _ _ ?_) hy
      · simp only [List.length_append, List.length_singleton, Nat.cast_add, Nat.cast_one]
        omega
      · simp only [List.length_append, List.length_singleton, Nat.cast_add, Nat.cast_one]
        omega
  | append_singleton G g ih =>
    intro hG fuel L M1 R i hfuel hi hM1
    have hg : temp ≤ g := hG g (by simp)
    have hG2 : ∀ x ∈ G, temp ≤ x := fun x hx => hG x (by simp [hx])
    rw [List.length_append, List.length_singleton] at hfuel
    obtain ⟨f, rfl⟩ : ∃ f, fuel = f + 1 := ⟨fuel - 1, by omega⟩
    have hlist : L ++ M1 ++ (G ++ [g]) ++ R = (L ++ M1 ++ G) ++ g :: R := by simp
    have hlist2 : L ++ M1 ++ (G ++ [g]) ++ R = L ++ M1 ++ G ++ (g :: R) := by simp
    have hj : (i + (M1.length : Int) + ((G ++ [g]).length : Int)) =
        ((L ++ M1 ++ G).length : Int) := by
      simp only [List.length_append, List.length_singleton, Nat.cast_add, Nat.cast_one]
      omega
    rw [scanDown_step _ _ _ _ _ g (by
        simp only [List.length_append, List.length_singleton, Nat.cast_add, Nat.cast_one]
        omega) (by rw [hlist]; exact readAt_mid _ _ _ _ hj) hg]
    have hj2 : i + (M1.length : Int) + ((G ++ [g]).length : Int) - 1 =
        i + (M1.length : Int) + (G.length : Int) := by
      simp only [List.length_append, List.length_singleton, Nat.cast_add, Nat.cast_one]
      omega
    rw [hj2, hlist2]
    exact ih hG2 f L M1 (g :: R) i (by omega) hi hM1

/-- The upward scan passes the run `S` of elements `< temp` and stops at the beginning
of `M3`, within `len(S)` iterations. -/
theorem scanUp_spec (temp : Int) (S : List Int) :
    (∀ s ∈ S, s < temp) → ∀ (fuel : Nat) (L M3 R : List Int) (j : Int),
      S.length ≤ fuel → j = (L.length : Int) + S.length + M3.length →
      (M3 = [] ∨ ∃ z M4, M3 = z :: M4 ∧ temp ≤ z) →
      scanUp (L ++ S ++ M3 ++ R) temp j fuel (L.length : Int) =
        .ok ((L.length : Int) + S.length) := by
  induction S with
  | nil =>
    intro _ fuel L M3 R j _ hj hM3
    simp only [List.length_nil, Nat.cast_zero, add_zero] at hj ⊢
    rcases hM3 with h | ⟨z, M4, h, hz⟩
    · subst h
      refine scanUp_stop _ _ _ _ _ ?_
      simp only [List.length_nil, Nat.cast_zero, add_zero] at hj
      omega
    · subst h
      have hlist : L ++ [] ++ z :: M4 ++ R = L ++ z :: (M4 ++ R) := by simp
      rw [hlist]
      refine scanUp_found _ _ _ _ _ z ?_ (readAt_mid _ _ _ _ rfl) hz
      simp only [List.length_cons, Nat.cast_add, Nat.cast_one] at hj
      omega
  | cons s S ih =>
    intro hS fuel L M3 R j hfuel hj hM3
    have hs : s < temp := hS s (by simp)
    have hS2 : ∀ x ∈ S, x < temp := fun x hx => hS x (by simp [hx])
    rw [List.length_cons] at hfuel
    obtain ⟨f, rfl⟩ : ∃ f, fuel = f + 1 := ⟨fuel - 1, by omega⟩
    have hlist : L ++ s :: S ++ M3 ++ R = L ++ s :: (S ++ M3 ++ R) := by simp
    have hlist2 : L ++ s :: S ++ M3 ++ R = (L ++ [s]) ++ S ++ M3 ++ R := by simp
    simp only [List.length_cons, Nat.cast_add, Nat.cast_one] at hj ⊢
    rw [scanUp_step _ _ _ _ _ s (by omega) (by rw [hlist]; exact readAt_mid _ _ _ _ rfl) hs]
    have := ih hS2 f (L ++ [s]) M3 R j (by omega) (by
      simp only [List.length_append, List.length_singleton, Nat.cast_add, Nat.cast_one]
      omega) hM3
    rw [hlist2]
    simp only [List.length_append, List.length_singleton, Nat.cast_add, Nat.cast_one] at this
    rw [this]
    congr 1
    omega

end gosort

namespace gosort

theorem partitionLoop_done (inner : Nat) (temp : Int) (fuel : Nat) (nums : List Int)
    (i j : Int) (h : ¬ i < j) : partitionLoop inner temp fuel nums i j = .ok (nums, i) := by
  cases fuel with
  | zero => rw [partitionLoop, if_neg h]
  | succ fuel => rw [partitionLoop, if_neg h]

theorem fillLeft_skip (nums : List Int) (i j : Int) (h : ¬ i < j) :
    fillLeft nums i j = .ok (nums, i) := by
  rw [fillLeft, if_neg h]

theorem fillLeft_do (nums nums1 : List Int) (i j v : Int) (h : i < j)
    (hr : readAt nums j = .ok v) (hw : writeAt nums i v = .ok nums1) :
    fillLeft nums i j = .ok (nums1, i + 1) := by
  rw [fillLeft, if_pos h, hr]
  simp only [hw]

theorem fillRight_skip (nums : List Int) (i j : Int) (h : ¬ i < j) :
    fillRight nums i j = .ok nums := by
  rw [fillRight, if_neg h]

theorem fillRight_do (nums nums1 : List Int) (i j v : Int) (h : i < j)
    (hr : readAt nums i = .ok v) (hw : writeAt nums j v = .ok nums1) :
    fillRight nums i j = .ok nums1 := by
  rw [fillRight, if_pos h, hr]
  simp only [hw]

/-- One pass of the outer loop of `partition`, unfolded along the results of its four
statements. -/
theorem partitionLoop_pass (inner : Nat) (temp : Int) (fuel : Nat)
    (nums nums1 nums2 : List Int) (i j j1 i1 i2 : Int) (h : i < j)
    (h1 : scanDown nums temp i inner j = .ok j1)
    (h2 : fillLeft nums i j1 = .ok (nums1, i1))
    (h3 : scanUp nums1 temp j1 inner i1 = .ok i2)
    (h4 : fillRight nums1 i2 j1 = .ok nums2) :
    partitionLoop inner temp (fuel + 1) nums i j =
      partitionLoop inner temp fuel nums2 i2 j1 := by
  rw [partitionLoop, if_pos h, h1]
  simp only [h2, h3, h4]

/-- The outer loop of `partition`, started with the hole at `i`, the elements before it
(`A`) below `temp`, the elements after `j` (`B`) not below `temp` and the elements `M`
between them unexamined: it returns, within `len(M)` iterations, with a single hole left
between elements below `temp` and elements not below `temp`, which together are a
rearrangement of `A`, `M` and `B`; what lies outside is untouched. -/
theorem partitionLoop_spec (inner : Nat) (temp : Int) (n : Nat) :
    ∀ (M : List Int), M.length ≤ n → M.length ≤ inner →
    ∀ (fuel : Nat) (pre A : List Int) (h : Int) (B post nums : List Int) (i j : Int),
      n ≤ fuel → nums = pre ++ (A ++ h :: (M ++ (B ++ post))) →
      i = (pre.length : Int) + A.length → j = i + M.length →
      (∀ a ∈ A, a < temp) → (∀ b ∈ B, temp ≤ b) →
      ∃ A1 h1 B1,
        partitionLoop inner temp fuel nums i j =
          .ok (pre ++ (A1 ++ h1 :: (B1 ++ post)), (pre.length : Int) + A1.length) ∧
        (∀ a ∈ A1, a < temp) ∧ (∀ b ∈ B1, temp ≤ b) ∧ (A1 ++ B1).Perm (A ++ M ++ B) := by
  induction n with
  | zero =>
    intro M hM _ fuel pre A h B post nums i j _ hnums hi hj hA hB
    have hnil : M = [] := List.length_eq_zero.mp (Nat.le_zero.mp hM)
    subst hnil
    refine ⟨A, h, B, ?_, hA, hB, by simp⟩
    rw [partitionLoop_done _ _ _ _ _ _ (by simp at hj; omega), hnums, hi]
    simp
  | succ n ih =>
    intro M hM hinner fuel pre A h B post nums i j hfuel hnums hi hj hA hB
    by_cases hnil : M = []
    · subst hnil
      refine ⟨A, h, B, ?_, hA, hB, by simp⟩
      rw [partitionLoop_done _ _ _ _ _ _ (by simp at hj; omega), hnums, hi]
      simp
    · have hpos : 0 < M.length := List.length_pos.mpr hnil
      obtain ⟨f, rfl⟩ : ∃ f, fuel = f + 1 := ⟨fuel - 1, by omega⟩
      obtain ⟨M1, G, hMG, hG, hM1⟩ := split_ge_suffix temp M
      subst hMG
      rw [List.length_append] at hM hinner hj hpos
      push_cast at hj
      -- the downward scan
      have hsd : scanDown nums temp i inner j = .ok (i + M1.length) := by
        have := scanDown_spec temp G hG inner (pre ++ A ++ [h]) M1 (B ++ post) i
          (by omega) (by simp; omega) hM1
        have hl : nums = pre ++ A ++ [h] ++ M1 ++ G ++ (B ++ post) := by
          rw [hnums]; simp
        rw [hl, show j = i + (M1.length : Int) + (G.length : Int) by omega]
        exact this
      rcases hM1 with hM1 | ⟨M2, y, hM1, hy⟩
      · -- nothing below `temp` is left: the loop ends with the hole at `i`
        subst hM1
        simp only [List.length_nil, Nat.cast_zero, add_zero] at hsd
        refine ⟨A, h, G ++ B, ?_, hA, ?_, by simp⟩
        · rw [partitionLoop_pass inner temp f nums nums nums i j i i i (by omega) hsd
            (fillLeft_skip _ _ _ (lt_irrefl i)) (scanUp_stop _ _ _ _ _ (lt_irrefl i))
            (fillRight_skip _ _ _ (lt_irrefl i)),
            partitionLoop_done _ _ _ _ _ _ (lt_irrefl i), hnums, hi]
          simp
        · intro b hb
          rcases List.mem_append.mp hb with hb | hb
          · exact hG b hb
          · exact hB b hb
      · subst hM1
        rw [List.length_append, List.length_singleton] at hM hinner hj hpos
        push_cast at hj hsd
        obtain ⟨S, M3, hSM, hS, hM3⟩ := split_lt_prefix temp M2
        subst hSM
        rw [List.length_append] at hM hinner hj hpos
        push_cast at hj hsd
        -- the element `y` fills the hole at `i`
        have hfl : fillLeft nums i (i + ((S.length : Int) + M3.length + 1)) =
            .ok (pre ++ (A ++ y :: (S ++ M3 ++ y :: (G ++ (B ++ post)))), i + 1) := by
          refine fillLeft_do _ _ _ _ y (by omega) ?_ ?_
          · have hl : nums = (pre ++ A ++ [h] ++ S ++ M3) ++ y :: (G ++ (B ++ post)) := by
              rw [hnums]; simp
            rw [hl]
            exact readAt_mid _ _ _ _ (by simp; omega)
          · have hl : nums = (pre ++ A) ++ h :: (S ++ M3 ++ y :: (G ++ (B ++ post))) := by
              rw [hnums]; simp
            rw [hl, writeAt_mid _ _ _ _ y (by simp; omega)]
            simp
        -- the upward scan
        have hsu : scanUp (pre ++ (A ++ y :: (S ++ M3 ++ y :: (G ++ (B ++ post))))) temp
            (i + ((S.length : Int) + M3.length + 1)) inner (i + 1) =
            .ok (i + 1 + S.length) := by
          have := scanUp_spec temp S hS inner (pre ++ A ++ [y]) M3
            (y :: (G ++ (B ++ post))) (i + ((S.length : Int) + M3.length + 1))
            (by omega) (by simp; omega) hM3
          have hl : pre ++ (A ++ y :: (S ++ M3 ++ y :: (G ++ (B ++ post)))) =
              pre ++ A ++ [y] ++ S ++ M3 ++ y :: (G ++ (B ++ post)) := by simp
          have hi1 : i + 1 = ((pre ++ A ++ [y]).length : Int) := by simp; omega
          rw [hl, hi1]
          rw [this]
        rcases hM3 with hM3 | ⟨z, M4, hM3, hz⟩
        · -- nothing not below `temp` is left: the loop ends with the hole at `j1`
          subst hM3
          simp only [List.length_nil, Nat.cast_zero, add_zero, List.append_nil] at hsd hfl hsu hj
          refine ⟨A ++ y :: S, y, G ++ B, ?_, ?_, ?_, ?_⟩
          · rw [partitionLoop_pass inner temp f nums _ _ i j _ _ _ (by omega)
              (by rw [hsd]; congr 1; simp) hfl hsu
              (fillRight_skip _ _ _ (by omega)),
              partitionLoop_done _ _ _ _ _ _ (by omega), hi]
            simp
            omega
          · intro a ha
            rcases List.mem_append.mp ha with ha | ha
            · exact hA a ha
            · rcases List.mem_cons.mp ha with ha | ha
              · rw [ha]; exact hy
              · exact hS a ha
          · intro b hb
            rcases List.mem_append.mp hb with hb | hb
            · exact hG b hb
            · exact hB b hb
          · rw [List.perm_iff_count]
            intro a
            simp only [List.count_append, List.count_cons, List.count_nil]
            omega
        · -- the element `z` fills the hole at `j1`, and the loop goes on
          subst hM3
          rw [List.length_cons] at hM hinner hj hpos
          push_cast at hj hsd hfl hsu
          have hfr : fillRight (pre ++ (A ++ y :: (S ++ z :: M4 ++ y :: (G ++ (B ++ post)))))
              (i + 1 + S.length) (i + ((S.length : Int) + (M4.length + 1) + 1)) =
              .ok (pre ++ ((A ++ y :: S) ++ z :: ((M4 ++ [z]) ++ ((G ++ B) ++ post)))) := by
            refine fillRight_do _ _ _ _ z (by omega) ?_ ?_
            · have hl : pre ++ (A ++ y :: (S ++ z :: M4 ++ y :: (G ++ (B ++ post)))) =
                  (pre ++ A ++ [y] ++ S) ++ z :: (M4 ++ y :: (G ++ (B ++ post))) := by simp
              rw [hl]
              exact readAt_mid _ _ _ _ (by simp; omega)
            · have hl : pre ++ (A ++ y :: (S ++ z :: M4 ++ y :: (G ++ (B ++ post)))) =
                  (pre ++ A ++ [y] ++ S ++ z :: M4) ++ y :: (G ++ (B ++ post)) := by simp
              rw [hl, writeAt_mid _ _ _ _ z (by simp; omega)]
              simp
          obtain ⟨A1, h1, B1, hloop, hA1, hB1, hperm⟩ :=
            ih (M4 ++ [z]) (by simp; omega) (by simp; omega) f pre (A ++ y :: S) z (G ++ B)
              post _ (i + 1 + S.length) (i + ((S.length : Int) + (M4.length + 1) + 1))
              (by omega) rfl (by simp; omega) (by simp; omega)
              (by
                intro a ha
                rcases List.mem_append.mp ha with ha | ha
                · exact hA a ha
                · rcases List.mem_cons.mp ha with ha | ha
                  · rw [ha]; exact hy
                  · exact hS a ha)
              (by
                intro b hb
                rcases List.mem_append.mp hb with hb | hb
                · exact hG b hb
                · exact hB b hb)
          refine ⟨A1, h1, B1, ?_, hA1, hB1, hperm.trans ?_⟩
          · rw [partitionLoop_pass inner temp f nums _ _ i j _ _ _ (by omega)
              (by rw [hsd]; congr 1; simp; omega) hfl hsu hfr]
            exact hloop
          · rw [List.perm_iff_count]
            intro a
            simp only [List.count_append, List.count_cons, List.count_nil]
            omega

end gosort

namespace gosort

/-- What `partition` does on the part `x :: rest` of a slice, with the pivot `x`: it
returns the position `len(pre) + len(L)` and leaves `L`, `x`, `R` in place of the part,
all of `L` below `x`, none of `R` below `x`, `L` and `R` together a rearrangement of
`rest`; it does so without a fault when every loop may run `len(rest)` times. -/
theorem partition_spec (fuel : Nat) (pre : List Int) (x : Int) (rest post : List Int)
    (hfuel : rest.length ≤ fuel) :
    ∃ L R, partition fuel (pre ++ (x :: rest ++ post)) (pre.length : Int)
        ((pre.length : Int) + rest.length) =
        .ok ((pre.length : Int) + L.length, pre ++ (L ++ x :: (R ++ post))) ∧
      (∀ a ∈ L, a < x) ∧ (∀ b ∈ R, x ≤ b) ∧ (L ++ R).Perm rest := by
  obtain ⟨L, h1, R, hloop, hL, hR, hperm⟩ :=
    partitionLoop_spec fuel x rest.length rest le_rfl hfuel fuel pre [] x [] post
      (pre ++ (x :: rest ++ post)) (pre.length : Int) ((pre.length : Int) + rest.length)
      hfuel (by simp) (by simp) rfl (by simp) (by simp)
  refine ⟨L, R, ?_, hL, hR, by simpa using hperm⟩
  have hr : readAt (pre ++ (x :: rest ++ post)) (pre.length : Int) = .ok x := by
    have hl : pre ++ (x :: rest ++ post) = pre ++ x :: (rest ++ post) := by simp
    rw [hl]
    exact readAt_mid _ _ _ _ rfl
  have hw : writeAt (pre ++ (L ++ h1 :: (R ++ post))) ((pre.length : Int) + L.length) x =
      .ok (pre ++ (L ++ x :: (R ++ post))) := by
    have hl : pre ++ (L ++ h1 :: (R ++ post)) = (pre ++ L) ++ h1 :: (R ++ post) := by simp
    rw [hl, writeAt_mid _ _ _ _ x (by simp)]
    simp
  simp only [partition, hr, hloop, hw]

theorem QuickSort_done (fuel : Nat) (nums : List Int) (start end_ : Int)
    (h : start ≥ end_) : QuickSort fuel nums start end_ = .ok nums := by
  cases fuel with
  | zero => rw [QuickSort, if_pos h]
  | succ fuel => rw [QuickSort, if_pos h]

/-- What `QuickSort` does on a part `seg` of a slice: within a recursion depth of
`len(seg)` it returns without a fault and leaves in place of `seg` a sorted
rearrangement of it, and the rest of the slice as it was. -/
theorem QuickSort_spec (n : Nat) :
    ∀ (seg : List Int), seg.length ≤ n → ∀ (fuel : Nat) (pre post : List Int), n ≤ fuel →
      ∃ out, QuickSort fuel (pre ++ (seg ++ post)) (pre.length : Int)
          ((pre.length : Int) + seg.length - 1) = .ok (pre ++ (out ++ post)) ∧
        out.Sorted (· ≤ ·) ∧ out.Perm seg := by
  induction n with
  | zero =>
    intro seg hseg fuel pre post _
    have hnil : seg = [] := List.length_eq_zero.mp (Nat.le_zero.mp hseg)
    subst hnil
    exact ⟨[], QuickSort_done _ _ _ _ (by simp), List.sorted_nil, List.Perm.refl _⟩
  | succ n ih =>
    intro seg hseg fuel pre post hfuel
    cases seg with
    | nil => exact ⟨[], QuickSort_done _ _ _ _ (by simp), List.sorted_nil, List.Perm.refl _⟩
    | cons x rest =>
      by_cases hrest : rest = []
      · subst hrest
        exact ⟨[x], QuickSort_done _ _ _ _ (by simp), List.sorted_singleton x,
          List.Perm.refl _⟩
      · have hpos : 0 < rest.length := List.length_pos.mpr hrest
        rw [List.length_cons] at hseg
        obtain ⟨f, rfl⟩ : ∃ f, fuel = f + 1 := ⟨fuel - 1, by omega⟩
        obtain ⟨L, R, hpart, hL, hR, hperm⟩ :=
          partition_spec (f + 1) pre x rest post (by omega)
        have hlen : L.length + R.length = rest.length := by
          have := hperm.length_eq
          rwa [List.length_append] at this
        obtain ⟨L1, hq1, hs1, hp1⟩ := ih L (by omega) f pre (x :: (R ++ post)) (by omega)
        have hlen1 : L1.length = L.length := hp1.length_eq
        obtain ⟨R1, hq2, hs2, hp2⟩ := ih R (by omega) f (pre ++ (L1 ++ [x])) post (by omega)
        refine ⟨L1 ++ x :: R1, ?_, ?_, ?_⟩
        · have hend : (pre.length : Int) + ((x :: rest).length : Int) - 1 =
              (pre.length : Int) + rest.length := by
            simp only [List.length_cons, Nat.cast_add, Nat.cast_one]; omega
          have hne : ¬ ((pre.length : Int) ≥ (pre.length : Int) + rest.length) := by omega
          rw [hend, QuickSort, if_neg hne]
          rw [hpart]
          simp only []
          have hq1b : QuickSort f (pre ++ (L ++ x :: (R ++ post))) (pre.length : Int)
              ((pre.length : Int) + L.length - 1) = .ok (pre ++ (L1 ++ x :: (R ++ post))) :=
            hq1
          rw [hq1b]
          simp only []
          have hq2b : QuickSort f (pre ++ (L1 ++ x :: (R ++ post)))
              ((pre.length : Int) + L.length + 1) ((pre.length : Int) + rest.length) =
              .ok (pre ++ (L1 ++ [x]) ++ (R1 ++ post)) := by
            have e1 : pre ++ (L1 ++ x :: (R ++ post)) = pre ++ (L1 ++ [x]) ++ (R ++ post) := by
              simp
            have e2 : (pre.length : Int) + L.length + 1 =
                ((pre ++ (L1 ++ [x])).length : Int) := by
              simp only [List.length_append, List.length_singleton, Nat.cast_add,
                Nat.cast_one]
              omega
            have e3 : (pre.length : Int) + rest.length =
                ((pre ++ (L1 ++ [x])).length : Int) + R.length - 1 := by
              simp only [List.length_append, List.length_singleton, Nat.cast_add,
                Nat.cast_one]
              omega
            rw [e1, e2, e3]
            exact hq2
          rw [hq2b]
          simp
        · refine List.pairwise_append.mpr ⟨hs1, ?_, ?_⟩
          · refine List.pairwise_cons.mpr ⟨?_, hs2⟩
            intro b hb
            exact hR b (hp2.mem_iff.mp hb)
          · intro a ha b hb
            have hax : a < x := hL a (hp1.mem_iff.mp ha)
            rcases List.mem_cons.mp hb with h | h
            · rw [h]; exact le_of_lt hax
            · exact le_trans (le_of_lt hax) (hR b (hp2.mem_iff.mp h))
        · have h1 : (L1 ++ x :: R1).Perm (L ++ x :: R) :=
            hp1.append (List.Perm.cons x hp2)
          refine h1.trans ?_
          have h2 : (L ++ x :: R).Perm (x :: (L ++ R)) := List.perm_middle
          exact h2.trans (List.Perm.cons x hperm)

end gosort

namespace gosort

/-- A range `start..end` inside a slice cuts it into what precedes the range, the range
and what follows it. -/
theorem cut_range (nums : List Int) (start end_ : Int) (h0 : 0 ≤ start)
    (hse : start ≤ end_ + 1) (h1 : end_ < (nums.length : Int)) :
    ∃ pre seg post, nums = pre ++ (seg ++ post) ∧ (pre.length : Int) = start ∧
      (seg.length : Int) = end_ + 1 - start := by
  refine ⟨nums.take start.toNat, (nums.drop start.toNat).take (end_ + 1 - start).toNat,
    (nums.drop start.toNat).drop (end_ + 1 - start).toNat, ?_, ?_, ?_⟩
  · rw [List.take_append_drop, List.take_append_drop]
  · rw [List.length_take]
    omega
  · rw [List.length_take, List.length_drop]
    omega

/-- The range of a slice that was cut at the ends of the range is the middle part. -/
theorem segment_mid (pre seg post : List Int) (start end_ : Int)
    (hpre : (pre.length : Int) = start) (hseg : (seg.length : Int) = end_ + 1 - start) :
    segment (pre ++ (seg ++ post)) start end_ = seg := by
  have h1 : start.toNat = pre.length := by omega
  have h2 : (end_ + 1 - start).toNat = seg.length := by omega
  rw [segment, h1, h2, List.drop_left, List.take_left]

/-- Replacing the middle part leaves the positions outside of it as they were. -/
theorem getElem?_outside (pre seg out post : List Int) (k : Nat)
    (hlen : out.length = seg.length)
    (hk : k < pre.length ∨ pre.length + seg.length ≤ k) :
    (pre ++ (out ++ post))[k]? = (pre ++ (seg ++ post))[k]? := by
  rcases hk with hk | hk
  · rw [List.getElem?_append_left hk, List.getElem?_append_left hk]
  · rw [List.getElem?_append_right (by omega), List.getElem?_append_right (by omega),
      List.getElem?_append_right (by omega), List.getElem?_append_right (by omega), hlen]

theorem sorted_of_length_le_one (l : List Int) (h : l.length ≤ 1) : l.Sorted (· ≤ ·) := by
  cases l with
  | nil => exact List.sorted_nil
  | cons a l =>
    cases l with
    | nil => exact List.sorted_singleton a
    | cons b l => simp at h

theorem scanDown_mono (nums : List Int) (temp i : Int) (k : Nat) :
    ∀ (fuel : Nat) (j r : Int), scanDown nums temp i fuel j = .ok r →
      scanDown nums temp i (fuel + k) j = .ok r := by
  intro fuel
  induction fuel with
  | zero =>
    intro j r h
    by_cases hij : i < j
    · cases hr : readAt nums j with
      | error e => simp [scanDown, hij, hr] at h
      | ok v =>
        by_cases hv : temp ≤ v
        · simp [scanDown, hij, hr, hv] at h
        · rw [scanDown_found _ _ _ _ _ v hij hr (not_le.mp hv)] at h
          rw [scanDown_found _ _ _ _ _ v hij hr (not_le.mp hv)]
          exact h
    · rw [scanDown_stop _ _ _ _ _ hij] at h
      rw [scanDown_stop _ _ _ _ _ hij]
      exact h
  | succ fuel ih =>
    intro j r h
    rw [Nat.add_right_comm]
    by_cases hij : i < j
    · cases hr : readAt nums j with
      | error e => simp [scanDown, hij, hr] at h
      | ok v =>
        by_cases hv : temp ≤ v
        · rw [scanDown_step _ _ _ _ _ v hij hr hv] at h
          rw [scanDown_step _ _ _ _ _ v hij hr hv]
          exact ih _ _ h
        · rw [scanDown_found _ _ _ _ _ v hij hr (not_le.mp hv)] at h
          rw [scanDown_found _ _ _ _ _ v hij hr (not_le.mp hv)]
          exact h
    · rw [scanDown_stop _ _ _ _ _ hij] at h
      rw [scanDown_stop _ _ _ _ _ hij]
      exact h

theorem scanUp_mono (nums : List Int) (temp j : Int) (k : Nat) :
    ∀ (fuel : Nat) (i r : Int), scanUp nums temp j fuel i = .ok r →
      scanUp nums temp j (fuel + k) i = .ok r := by
  intro fuel
  induction fuel with
  | zero =>
    intro i r h
    by_cases hij : i < j
    · cases hr : readAt nums i with
      | error e => simp [scanUp, hij, hr] at h
      | ok v =>
        by_cases hv : v < temp
        · simp [scanUp, hij, hr, hv] at h
        · rw [scanUp_found _ _ _ _ _ v hij hr (not_lt.mp hv)] at h
          rw [scanUp_found _ _ _ _ _ v hij hr (not_lt.mp hv)]
          exact h
    · rw [scanUp_stop _ _ _ _ _ hij] at h
      rw [scanUp_stop _ _ _ _ _ hij]
      exact h
  | succ fuel ih =>
    intro i r h
    rw [Nat.add_right_comm]
    by_cases hij : i < j
    · cases hr : readAt nums i with
      | error e => simp [scanUp, hij, hr] at h
      | ok v =>
        by_cases hv : v < temp
        · rw [scanUp_step _ _ _ _ _ v hij hr hv] at h
          rw [scanUp_step _ _ _ _ _ v hij hr hv]
          exact ih _ _ h
        · rw [scanUp_found _ _ _ _ _ v hij hr (not_lt.mp hv)] at h
          rw [scanUp_found _ _ _ _ _ v hij hr (not_lt.mp hv)]
          exact h
    · rw [scanUp_stop _ _ _ _ _ hij] at h
      rw [scanUp_stop _ _ _ _ _ hij]
      exact h

/-- More iterations allowed do not change what the outer loop of `partition` returns. -/
theorem partitionLoop_mono (inner k1 k2 : Nat) (temp : Int) :
    ∀ (fuel : Nat) (nums : List Int) (i j : Int) (r : List Int × Int),
      partitionLoop inner temp fuel nums i j = .ok r →
      partitionLoop (inner + k1) temp (fuel + k2) nums i j = .ok r := by
  intro fuel
  induction fuel with
  | zero =>
    intro nums i j r h
    by_cases hij : i < j
    · rw [partitionLoop, if_pos hij] at h
      cases h
    · rw [partitionLoop_done _ _ _ _ _ _ hij] at h
      rw [partitionLoop_done _ _ _ _ _ _ hij]
      exact h
  | succ fuel ih =>
    intro nums i j r h
    rw [Nat.add_right_comm]
    by_cases hij : i < j
    · rw [partitionLoop, if_pos hij] at h
      cases h1 : scanDown nums temp i inner j with
      | error e => simp [h1] at h
      | ok j1 =>
        simp only [h1] at h
        cases h2 : fillLeft nums i j1 with
        | error e => simp [h2] at h
        | ok p =>
          obtain ⟨nums1, i1⟩ := p
          simp only [h2] at h
          cases h3 : scanUp nums1 temp j1 inner i1 with
          | error e => simp [h3] at h
          | ok i2 =>
            simp only [h3] at h
            cases h4 : fillRight nums1 i2 j1 with
            | error e => simp [h4] at h
            | ok nums2 =>
              simp only [h4] at h
              rw [partitionLoop_pass (inner + k1) temp (fuel + k2) nums nums1 nums2 i j j1 i1 i2
                hij (scanDown_mono _ _ _ k1 _ _ _ h1) h2 (scanUp_mono _ _ _ k1 _ _ _ h3) h4]
              exact ih _ _ _ _ h
    · rw [partitionLoop_done _ _ _ _ _ _ hij] at h
      rw [partitionLoop_done _ _ _ _ _ _ hij]
      exact h

/-- More iterations allowed do not change what `partition` returns. -/
theorem partition_mono (fuel k : Nat) (nums : List Int) (start end_ : Int)
    (r : Int × List Int) (h : partition fuel nums start end_ = .ok r) :
    partition (fuel + k) nums start end_ = .ok r := by
  rw [partition] at h ⊢
  cases hr : readAt nums start with
  | error e => simp [hr] at h
  | ok temp =>
    simp only [hr] at h ⊢
    cases hl : partitionLoop fuel temp fuel nums start end_ with
    | error e => simp [hl] at h
    | ok p =>
      rw [partitionLoop_mono fuel k k temp fuel nums start end_ p hl]
      simp only [hl] at h
      exact h

/-- A deeper recursion allowed does not change what `QuickSort` returns. -/
theorem QuickSort_mono (k : Nat) :
    ∀ (fuel : Nat) (nums : List Int) (start end_ : Int) (r : List Int),
      QuickSort fuel nums start end_ = .ok r →
      QuickSort (fuel + k) nums start end_ = .ok r := by
  intro fuel
  induction fuel with
  | zero =>
    intro nums start end_ r h
    by_cases hse : start ≥ end_
    · rw [QuickSort_done _ _ _ _ hse] at h
      rw [QuickSort_done _ _ _ _ hse]
      exact h
    · rw [QuickSort, if_neg hse] at h
      cases h
  | succ fuel ih =>
    intro nums start end_ r h
    rw [Nat.add_right_comm]
    by_cases hse : start ≥ end_
    · rw [QuickSort_done _ _ _ _ hse] at h
      rw [QuickSort_done _ _ _ _ hse]
      exact h
    · rw [QuickSort, if_neg hse] at h ⊢
      cases hp : partition (fuel + 1) nums start end_ with
      | error e => simp [hp] at h
      | ok p =>
        obtain ⟨i, nums1⟩ := p
        have hp2 : partition (fuel + k + 1) nums start end_ = .ok (i, nums1) := by
          have := partition_mono (fuel + 1) k nums start end_ (i, nums1) hp
          rwa [Nat.add_right_comm] at this
        simp only [hp] at h
        simp only [hp2]
        cases hq : QuickSort fuel nums1 start (i - 1) with
        | error e => simp [hq] at h
        | ok nums2 =>
          simp only [hq] at h
          simp only [ih _ _ _ _ hq]
          exact ih _ _ _ _ h

end gosort

namespace gosort

/-- C21: for every slice `nums` and all indices with `0 <= start` and
`end < len(nums)`, `QuickSort(nums, start, end)` returns without a fault whenever its
recursion may be `len(nums)` deep; the slice it leaves has the length of `nums`, its
part `start..end` is in non-decreasing order and is a permutation of the part
`start..end` of `nums`, and every position outside `start..end` holds what it held.
When `start < end`, `partition(nums, start, end)` returns without a fault an index `p`
with `start <= p <= end`, and in the slice it leaves every element of the part
`start..p-1` is below the element at `p` and no element of the part `p+1..end` is. -/
theorem QuickSort_sorts_range (nums : List Int) (start end_ : Int) (h0 : 0 ≤ start)
    (h1 : end_ < (nums.length : Int)) :
    (∃ out, (∀ fuel, nums.length ≤ fuel → QuickSort fuel nums start end_ = .ok out) ∧
      out.length = nums.length ∧
      (segment out start end_).Sorted (· ≤ ·) ∧
      (segment out start end_).Perm (segment nums start end_) ∧
      ∀ k : Nat, ((k : Int) < start ∨ end_ < (k : Int)) → out[k]? = nums[k]?) ∧
    (start < end_ →
      ∃ p out pivot,
        (∀ fuel, nums.length ≤ fuel → partition fuel nums start end_ = .ok (p, out)) ∧
        start ≤ p ∧ p ≤ end_ ∧ out[p.toNat]? = some pivot ∧
        (∀ v ∈ segment out start (p - 1), v < pivot) ∧
        (∀ v ∈ segment out (p + 1) end_, pivot ≤ v)) := by
  constructor
  · by_cases hse : start ≥ end_
    · refine ⟨nums, fun fuel _ => QuickSort_done fuel nums start end_ hse, rfl, ?_,
        List.Perm.refl _, fun _ _ => rfl⟩
      apply sorted_of_length_le_one
      rw [segment, List.length_take]
      omega
    · obtain ⟨pre, seg, post, hnums, hpre, hseg⟩ :=
        cut_range nums start end_ h0 (by omega) h1
      have hlen : seg.length ≤ nums.length := by
        rw [hnums, List.length_append, List.length_append]; omega
      obtain ⟨out, hq, hsorted, hperm⟩ :=
        QuickSort_spec seg.length seg le_rfl nums.length pre post hlen
      have hends : (pre.length : Int) + seg.length - 1 = end_ := by omega
      rw [hends, hpre, ← hnums] at hq
      have hlen2 : out.length = seg.length := hperm.length_eq
      refine ⟨pre ++ (out ++ post), ?_, ?_, ?_, ?_, ?_⟩
      · intro fuel hfuel
        obtain ⟨k, rfl⟩ := Nat.exists_eq_add_of_le hfuel
        exact QuickSort_mono k _ _ _ _ _ hq
      · rw [hnums]
        simp only [List.length_append, hlen2]
      · rw [segment_mid pre out post start end_ hpre (by omega)]
        exact hsorted
      · rw [segment_mid pre out post start end_ hpre (by omega), hnums,
          segment_mid pre seg post start end_ hpre hseg]
        exact hperm
      · intro k hk
        rw [hnums]
        apply getElem?_outside pre seg out post k hlen2
        omega
  · intro hlt
    obtain ⟨pre, seg, post, hnums, hpre, hseg⟩ :=
      cut_range nums start end_ h0 (by omega) h1
    cases seg with
    | nil => simp at hseg; omega
    | cons x rest =>
      rw [List.length_cons] at hseg
      push_cast at hseg
      have hlen : rest.length ≤ nums.length := by
        rw [hnums, List.length_append, List.length_append, List.length_cons]; omega
      obtain ⟨L, R, hpart, hL, hR, hperm⟩ :=
        partition_spec nums.length pre x rest post hlen
      have hends : (pre.length : Int) + rest.length = end_ := by omega
      rw [hends, hpre, ← hnums] at hpart
      have hlen2 : L.length + R.length = rest.length := by
        have := hperm.length_eq
        rwa [List.length_append] at this
      refine ⟨start + L.length, pre ++ (L ++ x :: (R ++ post)), x, ?_, by omega, by omega,
        ?_, ?_, ?_⟩
      · intro fuel hfuel
        obtain ⟨k, rfl⟩ := Nat.exists_eq_add_of_le hfuel
        exact partition_mono _ k _ _ _ _ hpart
      · have hidx : (start + (L.length : Int)).toNat = (pre ++ L).length := by
          rw [List.length_append]; omega
        have hl : pre ++ (L ++ x :: (R ++ post)) = (pre ++ L) ++ x :: (R ++ post) := by simp
        rw [hidx, hl, List.getElem?_append_right (le_refl _)]
        simp
      · intro v hv
        rw [segment_mid pre L (x :: (R ++ post)) start (start + L.length - 1) hpre
          (by omega)] at hv
        exact hL v hv
      · intro v hv
        have hl : pre ++ (L ++ x :: (R ++ post)) = (pre ++ (L ++ [x])) ++ (R ++ post) := by
          simp
        rw [hl, segment_mid (pre ++ (L ++ [x])) R post (start + L.length + 1) end_
          (by simp only [List.length_append, List.length_singleton, Nat.cast_add,
                Nat.cast_one]; omega)
          (by omega)] at hv
        exact hR v hv

/-- C21 at the slice `[3, 1, 2, 5, 4, 3, 0]` and the range `2..5`. -/
theorem QuickSort_sorts_range_witness :
    ((0 : Int) ≤ 2 ∧ (5 : Int) < (([3, 1, 2, 5, 4, 3, 0] : List Int).length : Int) ∧
      (2 : Int) < 5) ∧
    ((∃ out, (∀ fuel, ([3, 1, 2, 5, 4, 3, 0] : List Int).length ≤ fuel →
          QuickSort fuel [3, 1, 2, 5, 4, 3, 0] 2 5 = .ok out) ∧
        out.length = ([3, 1, 2, 5, 4, 3, 0] : List Int).length ∧
        (segment out 2 5).Sorted (· ≤ ·) ∧
        (segment out 2 5).Perm (segment [3, 1, 2, 5, 4, 3, 0] 2 5) ∧
        ∀ k : Nat, ((k : Int) < 2 ∨ 5 < (k : Int)) →
          out[k]? = ([3, 1, 2, 5, 4, 3, 0] : List Int)[k]?) ∧
      (∃ p out pivot,
        (∀ fuel, ([3, 1, 2, 5, 4, 3, 0] : List Int).length ≤ fuel →
          partition fuel [3, 1, 2, 5, 4, 3, 0] 2 5 = .ok (p, out)) ∧
        2 ≤ p ∧ p ≤ 5 ∧ out[p.toNat]? = some pivot ∧
        (∀ v ∈ segment out 2 (p - 1), v < pivot) ∧
        (∀ v ∈ segment out (p + 1) 5, pivot ≤ v))) ∧
    QuickSort 7 [3, 1, 2, 5, 4, 3, 0] 2 5 = .ok [3, 1, 2, 3, 4, 5, 0] ∧
    QuickSort 7 [3, 1, 2, 5, 4, 3, 0] 0 6 = .ok [0, 1, 2, 3, 3, 4, 5] ∧
    partition 7 [3, 1, 2, 5, 4, 3, 0] 0 6 = .ok (3, [0, 1, 2, 3, 4, 3, 5]) :=
  ⟨⟨by decide, by decide, by decide⟩,
    ⟨(QuickSort_sorts_range [3, 1, 2, 5, 4, 3, 0] 2 5 (by decide) (by decide)).1,
      (QuickSort_sorts_range [3, 1, 2, 5, 4, 3, 0] 2 5 (by decide) (by decide)).2
        (by decide)⟩,
    by decide, by decide, by decide⟩

end gosort
